import Mathlib

/-!
The voidlink runner (`cmd/runner/main.go`): configuration resolution and
control-protocol translation.

A shallow embedding of `toHex` and of the body of `main`.

* Go `string` values are Lean `String`s (sequences of Unicode scalar values);
  the helper functions work on the underlying `List Char`.
* Go `int` values are `Int`; no arithmetic is done on them, they are only
  compared with zero / each other and printed with `%d`.
* `log.Fatalf` ends the process at once (`os.Exit(1)`, deferred calls are not
  run); a fatal exit is the `Except.error` result carrying a `Fatal` tag.
* Calls into the operating system, the engine and the third-party libraries
  are recorded as `Effect`s, their results are read from a `World`.
-/

namespace Runner

/-! ## Library functions used by `main.go` -/

/-- Go `unicode.IsSpace`: the white-space code points `strings.TrimSpace` removes. -/
def isSpace (c : Char) : Bool :=
  let n := c.toNat
  (9 ≤ n && n ≤ 13) || n == 32 || n == 0x85 || n == 0xA0 || n == 0x1680 ||
  (0x2000 ≤ n && n ≤ 0x200A) || n == 0x2028 || n == 0x2029 || n == 0x202F ||
  n == 0x205F || n == 0x3000

/-- Characters of a string with leading and trailing white space removed. -/
def trimChars (l : List Char) : List Char :=
  ((l.dropWhile isSpace).reverse.dropWhile isSpace).reverse

/-- Go `strings.TrimSpace`. -/
def trimSpace (s : String) : String := ⟨trimChars s.data⟩

/-- Go `base64.StdEncoding` decode map: the 6-bit value of an alphabet
character, `none` for every other character (`0xff` in the Go table). -/
def decodeMap (c : Char) : Option Nat :=
  let n := c.toNat
  if 65 ≤ n ∧ n ≤ 90 then some (n - 65)
  else if 97 ≤ n ∧ n ≤ 122 then some (n - 97 + 26)
  else if 48 ≤ n ∧ n ≤ 57 then some (n - 48 + 52)
  else if n = 43 then some 62
  else if n = 47 then some 63
  else none

/-- Carriage return or line feed: the characters the base64 decoder skips. -/
def isNewline (c : Char) : Bool := c.toNat == 10 || c.toNat == 13

/-- The padding character `=`. -/
def isPad (c : Char) : Bool := c.toNat == 61

/-- The decoder's "skip over newlines" loop. -/
def skipNewlines (l : List Char) : List Char := l.dropWhile isNewline

/-- The 24-bit value of a quantum, `dbuf[0]<<18 | dbuf[1]<<12 | dbuf[2]<<6 | dbuf[3]`,
sextets not read being zero. -/
def quantumValue (dbuf : List Nat) : Nat :=
  dbuf.getD 0 0 * 262144 + dbuf.getD 1 0 * 4096 + dbuf.getD 2 0 * 64 + dbuf.getD 3 0

/-- The bytes of a quantum of `dlen = dbuf.length` sextets: the first `dlen - 1`
of the three bytes of its value. -/
def quantumBytes (dbuf : List Nat) : List Nat :=
  let val := quantumValue dbuf
  [val / 65536 % 256, val / 256 % 256, val % 256].take (dbuf.length - 1)

/-- The end of `decodeQuantum` once a padding character has been read after
`dbuf.length` sextets: fewer than two sextets is incorrect padding, two
sextets need a second `=`, and only newlines may follow the padding. -/
def decodePadding (dbuf : List Nat) (rest : List Char) : Option (List Nat) :=
  if dbuf.length = 2 then
    -- "==" is expected, the first "=" is already consumed
    match skipNewlines rest with
    | [] => none
    | c2 :: rest2 =>
      if isPad c2 && (skipNewlines rest2).isEmpty then some (quantumBytes dbuf) else none
  else if dbuf.length = 3 then
    if (skipNewlines rest).isEmpty then some (quantumBytes dbuf) else none
  else none

/-- Go `base64.StdEncoding.Decode` (padded, non-strict), the loop over
`decodeQuantum` written as one recursion over the input. `dbuf` holds the
sextets of the quantum being read, `out` the bytes decoded so far. A result of
`none` is a `CorruptInputError`. -/
def decodeLoop (dbuf out : List Nat) : List Char → Option (List Nat)
  | [] =>
    -- input exhausted: fine between quanta, corrupt inside one (padding is mandatory)
    if dbuf.isEmpty then some out else none
  | c :: rest =>
    match decodeMap c with
    | some v =>
      if dbuf.length = 3 then decodeLoop [] (out ++ quantumBytes (dbuf ++ [v])) rest
      else decodeLoop (dbuf ++ [v]) out rest
    | none =>
      if isNewline c then decodeLoop dbuf out rest
      else if isPad c then (decodePadding dbuf rest).map (fun bytes => out ++ bytes)
      else none

/-- Go `base64.StdEncoding.DecodeString`: the decoded bytes, `none` on an error. -/
def decodeString (s : String) : Option (List Nat) := decodeLoop [] [] s.data

/-- One digit of Go's `hextable = "0123456789abcdef"`. -/
def hexDigit (n : Nat) : Char :=
  if n < 10 then Char.ofNat (48 + n) else Char.ofNat (87 + n)

/-- The two lower-case hex digits of one byte. -/
def hexByte (b : Nat) : List Char := [hexDigit (b / 16 % 16), hexDigit (b % 16)]

/-- Characters of `hex.EncodeToString`. -/
def hexChars : List Nat → List Char
  | [] => []
  | b :: bs => hexByte b ++ hexChars bs

/-- Go `hex.EncodeToString`. -/
def encodeToString (bytes : List Nat) : String := ⟨hexChars bytes⟩

/-- Go `encoding/hex` `fromHexChar`. -/
def fromHexChar (c : Char) : Option Nat :=
  let n := c.toNat
  if 48 ≤ n ∧ n ≤ 57 then some (n - 48)
  else if 97 ≤ n ∧ n ≤ 102 then some (n - 97 + 10)
  else if 65 ≤ n ∧ n ≤ 70 then some (n - 65 + 10)
  else none

/-- Go `hex.Decode` on the characters of a string. -/
def hexDecodeChars : List Char → Option (List Nat)
  | [] => some []
  | [_] => none
  | p :: q :: rest =>
    match fromHexChar p, fromHexChar q, hexDecodeChars rest with
    | some a, some b, some bs => some ((a * 16 + b) :: bs)
    | _, _, _ => none

/-- Go `hex.DecodeString`: used only to state the round trip of `toHex`. -/
def hexDecodeString (s : String) : Option (List Nat) := hexDecodeChars s.data

/-- Go `fmt.Sprintf("%d", n)` for an `int`. -/
def fmtInt (n : Int) : String :=
  if n < 0 then "-" ++ Nat.repr n.natAbs else Nat.repr n.natAbs

/-! ## Fatal exits -/

/-- The `log.Fatalf` calls of `main.go`, one tag per call site. -/
inductive Fatal where
  | decodeKey
  | statConfig
  | insecurePermissions
  | parseConfig
  | invalidAmnezia
  | createTUN
  | deviceUp
  | applyConfig
  | getLink
  | setMTU
  | invalidAddress (addr : String)
  | addAddress (addr : String)
  | linkUp
  deriving DecidableEq, Repr

deriving instance DecidableEq for Except

/-! ## `toHex` -/

/-- `toHex` (main.go 25-35): trim, return "" for an empty string, otherwise
base64-decode (fatal on error) and hex-encode. -/
def toHex (base64Str : String) : Except Fatal String :=
  let base64Str := trimSpace base64Str
  if base64Str = "" then .ok ""
  else
    match decodeString base64Str with
    | none => .error Fatal.decodeKey
    | some keyBytes => .ok (encodeToString keyBytes)

/-! ## The configuration document (`gopkg.in/ini.v1`) -/

/-- A section: its name and its keys with their values, in order of appearance. -/
structure IniSection where
  name : String
  keys : List (String × String)
  deriving DecidableEq, Repr

/-- The sections of a document as they are written in the file, in source
order; keys written before the first header form a section named `DEFAULT`. -/
abbrev Document := List IniSection

/-- A loaded `*ini.File`: the list `cfg.Sections()` returns. -/
structure File where
  sections : List IniSection
  deriving DecidableEq, Repr

/-- `Section.NewKey` with default load options: a key that already exists in
the section has its value overwritten, a new key is appended. -/
def setKey : List (String × String) → String → String → List (String × String)
  | [], k, v => [(k, v)]
  | (k0, v0) :: rest, k, v =>
    if k0 = k then (k0, v) :: rest else (k0, v0) :: setKey rest k v

/-- Keys of a written section added one by one to the keys already loaded. -/
def addKeys (loaded : List (String × String)) (written : List (String × String)) :
    List (String × String) :=
  written.foldl (fun ks kv => setKey ks kv.1 kv.2) loaded

/-- `File.NewSection` followed by the section's keys, with default load options
(`AllowNonUniqueSections` is false): a header whose name is already in the
section list yields the existing section, so its keys are added to that
section; a new name appends a new section. -/
def addSection : List IniSection → IniSection → List IniSection
  | [], written => [⟨written.name, addKeys [] written.keys⟩]
  | s :: rest, written =>
    if s.name = written.name then ⟨s.name, addKeys s.keys written.keys⟩ :: rest
    else s :: addSection rest written

/-- `ini.Load(configFile)` on a well-formed document: the file starts with the
`DEFAULT` section and receives the written sections in source order. -/
def iniLoad (doc : Document) : File :=
  ⟨doc.foldl addSection [⟨"DEFAULT", []⟩]⟩

/-- `cfg.Section(name)`: the first section of that name, an empty section when
there is none. -/
def File.section (cfg : File) (name : String) : IniSection :=
  match cfg.sections.find? (fun s => s.name = name) with
  | some s => s
  | none => ⟨name, []⟩

/-- `section.Key(name).String()`: the key's value, "" when the key is absent. -/
def IniSection.keyString (s : IniSection) (name : String) : String :=
  match s.keys.find? (fun kv => kv.1 = name) with
  | some kv => kv.2
  | none => ""

/-- `section.Key(name).MustInt(dflt)`: the parsed value, `dflt` when
`strconv.ParseInt` (here `parseInt`) reports an error. -/
def IniSection.mustInt (parseInt : String → Option Int) (s : IniSection) (name : String)
    (dflt : Int) : Int :=
  match parseInt (s.keyString name) with
  | some n => n
  | none => dflt

/-! ## Data read from the document -/

/-- The variables `main` reads from the `Interface` section (main.go 63-95),
`privateKey` being the resolved private key. -/
structure InterfaceConfig where
  privateKey : String
  listenPort : Int
  fwMark : Int
  addresses : List String
  mtu : Int
  jc : Int
  jmin : Int
  jmax : Int
  s1 : Int
  s2 : Int
  h1 : String
  h2 : String
  h3 : String
  h4 : String
  deriving DecidableEq, Repr

/-- The variables the peer loop reads from one `Peer` section (main.go 161-165). -/
structure PeerConfig where
  publicKey : String
  presharedKey : String
  endpoint : String
  keepalive : Int
  allowedIPs : List String
  deriving DecidableEq, Repr

/-! ## The control stream -/

/-- One `WriteString` of the builder: `key=value\n`. -/
structure Line where
  key : String
  value : String
  deriving DecidableEq, Repr

/-- The text of a line as written to the builder. -/
def Line.render (l : Line) : String := l.key ++ "=" ++ l.value ++ "\n"

/-- `if v != 0 { write "key=%d\n" }`. -/
def intLine (key : String) (v : Int) : List Line :=
  if v ≠ 0 then [⟨key, fmtInt v⟩] else []

/-- `if v != "" { write "key=%s\n" }`. -/
def strLine (key : String) (v : String) : List Line :=
  if v ≠ "" then [⟨key, v⟩] else []

/-- Interface lines once the private key is transcoded (main.go 123-156). -/
def interfaceLinesWith (hexKey : String) (c : InterfaceConfig) : List Line :=
  [⟨"private_key", hexKey⟩, ⟨"listen_port", fmtInt c.listenPort⟩] ++
  intLine "fwmark" c.fwMark ++
  intLine "jc" c.jc ++ intLine "jmin" c.jmin ++ intLine "jmax" c.jmax ++
  intLine "s1" c.s1 ++ intLine "s2" c.s2 ++
  strLine "h1" c.h1 ++ strLine "h2" c.h2 ++ strLine "h3" c.h3 ++ strLine "h4" c.h4

/-- Interface part of the stream (main.go 122-156). -/
def interfaceLines (c : InterfaceConfig) : Except Fatal (List Line) :=
  match toHex c.privateKey with
  | .error e => .error e
  | .ok hexKey => .ok (interfaceLinesWith hexKey c)

/-- The `allowed_ip` loop (main.go 177-179). -/
def allowedIPLines (allowedIPs : List String) : List Line :=
  allowedIPs.map (fun ip => ⟨"allowed_ip", trimSpace ip⟩)

/-- The optional `preshared_key` line (main.go 168-170). -/
def presharedLines (presharedKey : String) : Except Fatal (List Line) :=
  if presharedKey ≠ "" then
    match toHex presharedKey with
    | .error e => .error e
    | .ok hexKey => .ok [⟨"preshared_key", hexKey⟩]
  else .ok []

/-- The block of one peer (main.go 167-179). -/
def peerLines (p : PeerConfig) : Except Fatal (List Line) :=
  match toHex p.publicKey with
  | .error e => .error e
  | .ok hexPub =>
    match presharedLines p.presharedKey with
    | .error e => .error e
    | .ok psk =>
      .ok ([⟨"public_key", hexPub⟩] ++ psk ++ strLine "endpoint" p.endpoint ++
        intLine "persistent_keepalive_interval" p.keepalive ++
        allowedIPLines p.allowedIPs)

/-- The blocks of the peers, one after the other, in the order of the list. -/
def peerBlocks : List PeerConfig → Except Fatal (List (List Line))
  | [] => .ok []
  | p :: ps =>
    match peerLines p with
    | .error e => .error e
    | .ok block =>
      match peerBlocks ps with
      | .error e => .error e
      | .ok blocks => .ok (block :: blocks)

/-- The lines written to `uapiBuilder` (main.go 119-181). -/
def buildLines (c : InterfaceConfig) (peers : List PeerConfig) : Except Fatal (List Line) :=
  match interfaceLines c with
  | .error e => .error e
  | .ok iface =>
    match peerBlocks peers with
    | .error e => .error e
    | .ok blocks => .ok (iface ++ blocks.flatten)

/-- The text of a sequence of lines. -/
def renderLines (lines : List Line) : String :=
  String.join (lines.map Line.render)

/-- The value of `uapiBuilder.String()` (main.go 185). -/
def buildUAPI (c : InterfaceConfig) (peers : List PeerConfig) : Except Fatal String :=
  match buildLines c peers with
  | .error e => .error e
  | .ok lines => .ok (renderLines lines)

/-! ## Effects and the outside world -/

/-- The calls `main` makes that are visible outside the process, and its log
lines. -/
inductive Effect where
  | log (msg : String)
  | warnKeyFile (keyFile : String)
  | stat (path : String)
  | iniLoad (path : String)
  | readFile (path : String)
  | createTUN (name : String) (mtu : Int)
  | newDevice
  | deviceUp
  | ipcSet (stream : String)
  | linkByName (name : String)
  | linkSetMTU (mtu : Int)
  | parseIPNet (addr : String)
  | addrAdd (addr : String)
  | linkSetUp
  | signalNotify
  | deviceClose
  | tunClose
  deriving DecidableEq, Repr

/-- What the environment, the file system, the libraries, the engine and the
kernel answer during one run. A `Bool` is "the call returned no error". -/
structure World where
  getenv : String → String
  stat : String → Option Nat
  document : String → Option Document
  readFile : String → Option String
  parseInt : String → Option Int
  splitList : String → List String
  createTUN : Bool
  deviceUp : Bool
  ipcSet : String → Bool
  linkByName : Bool
  linkSetMTU : Bool
  parseIPNet : String → Bool
  addrAdd : String → Bool
  linkSetUp : Bool
  engineClosed : Bool

/-- A run of a piece of `main`: the effects performed, then either a value or
the fatal exit that ended the process. -/
structure Run (α : Type) where
  trace : List Effect
  result : Except Fatal α

/-- The run that does nothing and returns `a`. -/
def Run.pure {α : Type} (a : α) : Run α := ⟨[], .ok a⟩

/-- Sequencing: the second run happens only if the first one did not exit. -/
def Run.bind {α β : Type} (r : Run α) (f : α → Run β) : Run β :=
  match r.result with
  | .error e => ⟨r.trace, .error e⟩
  | .ok a => ⟨r.trace ++ (f a).trace, (f a).result⟩

instance : Monad Run where
  pure := Run.pure
  bind := Run.bind

/-- Perform one effect. -/
def emit (e : Effect) : Run Unit := ⟨[e], .ok ()⟩

/-- A call to `log.Fatalf`. -/
def fatal {α : Type} (f : Fatal) : Run α := ⟨[], .error f⟩

/-- A computation without effects that may end in a fatal exit. -/
def liftExcept {α : Type} (r : Except Fatal α) : Run α := ⟨[], r⟩

/-! ## `main` -/

/-- The constant `defaultConfigFile`. -/
def defaultConfigFile : String := "/config/wg0.conf"

/-- The constant `interfaceName`. -/
def interfaceName : String := "wg0"

/-- Private key resolution (main.go 63-79). `envKey` is `WG_PRIVATE_KEY`,
`keyFile` is `WG_PRIVATE_KEY_FILE`, `fileRead` is the result of
`os.ReadFile(keyFile)` (`none` on an error), `docKey` is the document's
`PrivateKey` value. -/
def resolvePrivateKey (envKey keyFile : String) (fileRead : Option String)
    (docKey : String) : Run String := do
  let privateKey ←
    if envKey = "" then
      if keyFile ≠ "" then do
        emit (.readFile keyFile)
        match fileRead with
        | none => do
          emit (.warnKeyFile keyFile)
          pure envKey
        | some content => pure (trimSpace content)
      else pure envKey
    else pure envKey
  if privateKey = "" then pure docKey else pure privateKey

/-- Amnezia parameter validation (main.go 97-100). -/
def validate (jmin jmax : Int) : Except Fatal Unit :=
  if jmin > 0 ∧ jmax > 0 ∧ jmin ≥ jmax then .error Fatal.invalidAmnezia else .ok ()

/-- The interface variables (main.go 81-95) read from the `Interface` section. -/
def readInterface (w : World) (privateKey : String) (s : IniSection) : InterfaceConfig :=
  { privateKey := privateKey
    listenPort := s.mustInt w.parseInt "ListenPort" 51820
    fwMark := s.mustInt w.parseInt "FwMark" 0
    addresses := w.splitList (s.keyString "Address")
    mtu := s.mustInt w.parseInt "MTU" 1420
    jc := s.mustInt w.parseInt "Jc" 0
    jmin := s.mustInt w.parseInt "Jmin" 0
    jmax := s.mustInt w.parseInt "Jmax" 0
    s1 := s.mustInt w.parseInt "S1" 0
    s2 := s.mustInt w.parseInt "S2" 0
    h1 := s.keyString "H1"
    h2 := s.keyString "H2"
    h3 := s.keyString "H3"
    h4 := s.keyString "H4" }

/-- The variables of one peer (main.go 161-165). -/
def readPeer (w : World) (s : IniSection) : PeerConfig :=
  { publicKey := s.keyString "PublicKey"
    presharedKey := s.keyString "PresharedKey"
    endpoint := s.keyString "Endpoint"
    keepalive := s.mustInt w.parseInt "PersistentKeepalive" 0
    allowedIPs := w.splitList (s.keyString "AllowedIPs") }

/-- The peers of the loop `for _, section := range cfg.Sections()` with its
test `section.Name() == "Peer"` (main.go 159-160), in the order of the list. -/
def peersOf (w : World) (cfg : File) : List PeerConfig :=
  (cfg.sections.filter (fun s => s.name = "Peer")).map (readPeer w)

/-- The address loop (main.go 205-218). -/
def addAddresses (w : World) : List String → Run Unit
  | [] => pure ()
  | addr :: rest => do
    let addr := trimSpace addr
    emit (.parseIPNet addr)
    if w.parseIPNet addr then do
      emit (.log ("Adding address: " ++ addr))
      emit (.addrAdd addr)
      if w.addrAdd addr then addAddresses w rest
      else fatal (.addAddress addr)
    else fatal (.invalidAddress addr)

/-- Steps 3 to 8 of `main` (main.go 102-242), from the creation of the TUN
device to the return of `main`, where the deferred `dev.Close()` and
`tunDev.Close()` run, in that order. -/
def startEngine (w : World) (c : InterfaceConfig) (peers : List PeerConfig) : Run Unit := do
  emit (.createTUN interfaceName c.mtu)
  if w.createTUN then do
    emit .newDevice
    emit .deviceUp
    if w.deviceUp then do
      let stream ← liftExcept (buildUAPI c peers)
      emit (.log "Applying configuration via UAPI...")
      emit (.ipcSet stream)
      if w.ipcSet stream then do
        emit (.linkByName interfaceName)
        if w.linkByName then do
          emit (.linkSetMTU c.mtu)
          if w.linkSetMTU then do
            addAddresses w c.addresses
            emit (.log "Bringing interface up...")
            emit .linkSetUp
            if w.linkSetUp then do
              emit (.log "AmneziaWG interface started successfully.")
              emit .signalNotify
              emit .signalNotify
              if w.engineClosed then emit (.log "Device closed unexpectedly")
              else emit (.log "Received signal, shutting down...")
              emit (.log "Goodbye.")
              emit .deviceClose
              emit .tunClose
            else fatal .linkUp
          else fatal .setMTU
        else fatal .getLink
      else fatal .applyConfig
    else fatal .deviceUp
  else fatal .createTUN

/-- Steps 1 and 2 of `main` (main.go 38-95, and the reads of the peer loop,
main.go 159-165): the permission check, the load of the document, the
resolution of the private key and the values read from the sections. -/
def loadConfig (w : World) : Run (InterfaceConfig × List PeerConfig) := do
  let configFile :=
    if w.getenv "WG_CONFIG_FILE" = "" then defaultConfigFile else w.getenv "WG_CONFIG_FILE"
  emit (.log "Starting AmneziaWG-Go Runner")
  emit (.log ("Loading config from: " ++ configFile))
  emit (.stat configFile)
  match w.stat configFile with
  | none => fatal .statConfig
  | some perm =>
    if perm &&& 0o077 ≠ 0 then fatal .insecurePermissions
    else do
      emit (.iniLoad configFile)
      match w.document configFile with
      | none => fatal .parseConfig
      | some doc =>
        let cfg := iniLoad doc
        let ifaceSection := cfg.section "Interface"
        let privateKey ← resolvePrivateKey (w.getenv "WG_PRIVATE_KEY")
          (w.getenv "WG_PRIVATE_KEY_FILE") (w.readFile (w.getenv "WG_PRIVATE_KEY_FILE"))
          (ifaceSection.keyString "PrivateKey")
        pure (readInterface w privateKey ifaceSection, peersOf w cfg)

/-- The function `main` (main.go 37-242): load the configuration, validate the
Amnezia parameters (main.go 97-100), then steps 3 to 8. -/
def main (w : World) : Run Unit := do
  let loaded ← loadConfig w
  liftExcept (validate loaded.1.jmin loaded.1.jmax)
  startEngine w loaded.1 loaded.2

/-! ## Definitions used to state the properties -/

/-- The pure content of private key resolution in the words of the
specification: the first non-empty source wins. -/
def resolveSpec (envKey keyFile : String) (fileRead : Option String) (docKey : String) :
    String :=
  if envKey ≠ "" then envKey
  else
    match fileRead with
    | some content =>
      if keyFile ≠ "" ∧ trimSpace content ≠ "" then trimSpace content else docKey
    | none => docKey

/-- The keys of a sequence of lines, in order. -/
def keysOf (lines : List Line) : List String := lines.map Line.key

/-- The number of lines with a given key. -/
def keyCount (key : String) (lines : List Line) : Nat := (keysOf lines).count key

/-- The lines with a given key. -/
def hasKey (key : String) (lines : List Line) : Prop := ∃ l ∈ lines, l.key = key

/-- The order of the interface-scope keys. -/
def interfaceKeyOrder : List String :=
  ["private_key", "listen_port", "fwmark", "jc", "jmin", "jmax", "s1", "s2",
    "h1", "h2", "h3", "h4"]

/-- The order of the optional keys of a peer block. -/
def peerOptionalKeyOrder : List String :=
  ["preshared_key", "endpoint", "persistent_keepalive_interval"]

/-- A key text that `toHex` rejects: non-empty once trimmed, and not valid
standard base64. -/
def badKey (k : String) : Prop :=
  trimSpace k ≠ "" ∧ decodeString (trimSpace k) = none

/-- The control stream is applied to the engine. -/
def Effect.isApply : Effect → Bool
  | .ipcSet _ => true
  | _ => false

/-- A network-interface configuration call (netlink). -/
def Effect.isInterfaceCall : Effect → Bool
  | .linkByName _ => true
  | .linkSetMTU _ => true
  | .addrAdd _ => true
  | .linkSetUp => true
  | _ => false

/-- The key list `[key]` of an optional line that is written when `present`. -/
def optionalKey (present : Bool) (key : String) : List String :=
  if present then [key] else []

/-- The keys of the interface lines, as the omission rules give them. -/
def expectedInterfaceKeys (c : InterfaceConfig) : List String :=
  ["private_key", "listen_port"] ++
  optionalKey (c.fwMark != 0) "fwmark" ++
  optionalKey (c.jc != 0) "jc" ++ optionalKey (c.jmin != 0) "jmin" ++
  optionalKey (c.jmax != 0) "jmax" ++
  optionalKey (c.s1 != 0) "s1" ++ optionalKey (c.s2 != 0) "s2" ++
  optionalKey (c.h1 != "") "h1" ++ optionalKey (c.h2 != "") "h2" ++
  optionalKey (c.h3 != "") "h3" ++ optionalKey (c.h4 != "") "h4"

/-- The optional keys of a peer block, as the omission rules give them. -/
def expectedPeerOptionalKeys (p : PeerConfig) : List String :=
  optionalKey (p.presharedKey != "") "preshared_key" ++
  optionalKey (p.endpoint != "") "endpoint" ++
  optionalKey (p.keepalive != 0) "persistent_keepalive_interval"

/-- The keys of a peer block, as the omission rules give them. -/
def expectedPeerKeys (p : PeerConfig) : List String :=
  "public_key" :: (expectedPeerOptionalKeys p ++
    List.replicate p.allowedIPs.length "allowed_ip")

/-- The value of a non-empty sequence of decimal digits following `acc`. -/
def parseDigits (acc : Nat) : List Char → Option Nat
  | [] => some acc
  | ch :: rest =>
    if 48 ≤ ch.toNat ∧ ch.toNat ≤ 57 then parseDigits (acc * 10 + (ch.toNat - 48)) rest
    else none

/-- A decimal integer parser, the integer parser of the sample worlds: an
optional sign followed by at least one decimal digit. -/
def parseDecimal (s : String) : Option Int :=
  match s.data with
  | [] => none
  | ch :: rest =>
    if ch.toNat = 45 then
      if rest = [] then none else (parseDigits 0 rest).map (fun n => -(n : Int))
    else if ch.toNat = 43 then
      if rest = [] then none else (parseDigits 0 rest).map (fun n => (n : Int))
    else (parseDigits 0 (ch :: rest)).map (fun n => (n : Int))

/-- A world in which every call succeeds, the environment is empty, the
configuration file has mode 0600 and holds `doc`. -/
def worldWith (doc : Document) : World :=
  { getenv := fun _ => ""
    stat := fun _ => some 0o600
    document := fun _ => some doc
    readFile := fun _ => none
    parseInt := parseDecimal
    splitList := fun s => if s = "" then [] else [s]
    createTUN := true
    deviceUp := true
    ipcSet := fun _ => true
    linkByName := true
    linkSetMTU := true
    parseIPNet := fun _ => true
    addrAdd := fun _ => true
    linkSetUp := true
    engineClosed := false }

/-- An interface configuration with a 32-byte key and one obfuscation field. -/
def sampleInterface : InterfaceConfig :=
  { privateKey := "AAAAAAAAAAAAAAAAAAAAAAAAAAAAAAAAAAAAAAAAAAA="
    listenPort := 51820
    fwMark := 0
    addresses := ["10.0.0.2/24"]
    mtu := 1420
    jc := 4
    jmin := 0
    jmax := 0
    s1 := 0
    s2 := 0
    h1 := "1"
    h2 := ""
    h3 := ""
    h4 := "" }

/-- A peer with an endpoint and two allowed-IP entries. -/
def samplePeer : PeerConfig :=
  { publicKey := "TWFu"
    presharedKey := ""
    endpoint := "198.51.100.7:51820"
    keepalive := 25
    allowedIPs := [" 10.0.0.0/8", "192.168.0.0/16 "] }

/-- An interface for which no source provides a private key. -/
def noKeyInterface : InterfaceConfig := { sampleInterface with privateKey := "", jc := 0, h1 := "" }

/-- A peer without a public key, with a preshared key that is all white space
and a blank allowed-IP entry. -/
def blankPeer : PeerConfig :=
  { publicKey := ""
    presharedKey := " "
    endpoint := ""
    keepalive := 0
    allowedIPs := [" "] }

/-- A world in which every call succeeds, `WG_PRIVATE_KEY` is "AAAA" and the
document holds a valid 32-byte `PrivateKey`. -/
def envKeyWorld : World :=
  { worldWith [⟨"Interface", [("PrivateKey", "AAAAAAAAAAAAAAAAAAAAAAAAAAAAAAAAAAAAAAAAAAA=")]⟩] with
    getenv := fun name => if name = "WG_PRIVATE_KEY" then "AAAA" else "" }

/-- The lines of the stream of the sample interface and the sample peer. -/
def sampleLines : List Line :=
  [⟨"private_key", "0000000000000000000000000000000000000000000000000000000000000000"⟩,
   ⟨"listen_port", "51820"⟩, ⟨"jc", "4"⟩, ⟨"h1", "1"⟩,
   ⟨"public_key", "4d616e"⟩, ⟨"endpoint", "198.51.100.7:51820"⟩,
   ⟨"persistent_keepalive_interval", "25"⟩,
   ⟨"allowed_ip", "10.0.0.0/8"⟩, ⟨"allowed_ip", "192.168.0.0/16"⟩]

/-- A document with an interface and two `Peer` sections. -/
def twoPeerDocument : Document :=
  [⟨"Interface", [("PrivateKey", "AAAAAAAAAAAAAAAAAAAAAAAAAAAAAAAAAAAAAAAAAAA=")]⟩,
   ⟨"Peer", [("PublicKey", "TWFu"), ("AllowedIPs", "10.0.0.0/8")]⟩,
   ⟨"Peer", [("PublicKey", "TWE="), ("AllowedIPs", "192.168.0.0/16")]⟩]

/-- A document whose `PrivateKey` is not valid base64. -/
def badKeyDocument : Document :=
  [⟨"Interface", [("PrivateKey", "not-base64!")]⟩,
   ⟨"Peer", [("PublicKey", "TWFu"), ("AllowedIPs", "10.0.0.0/8")]⟩]

/-- A run that neither applies a stream to the engine nor configures the
network interface. -/
def Quiet {α : Type} (r : Run α) : Prop :=
  ∀ e ∈ r.trace, e.isApply = false ∧ e.isInterfaceCall = false

/-- Every effect of a run satisfies `p`. -/
def Run.All {α : Type} (p : Effect → Bool) (r : Run α) : Prop :=
  ∀ e ∈ r.trace, p e = true

/-- A log line or a read of the environment's files: the effects of steps 1
and 2 of `main`. -/
def Effect.isStartupRead : Effect → Bool
  | .log _ => true
  | .warnKeyFile _ => true
  | .stat _ => true
  | .iniLoad _ => true
  | .readFile _ => true
  | _ => false

/-- An effect of the address loop. -/
def Effect.isAddressStep : Effect → Bool
  | .log _ => true
  | .parseIPNet _ => true
  | .addrAdd _ => true
  | _ => false

/-- The release of the engine handle or of the interface handle. -/
def Effect.isRelease : Effect → Bool
  | .deviceClose => true
  | .tunClose => true
  | _ => false

/-- The addresses of the `netlink.AddrAdd` calls of a trace, in order. -/
def addedAddresses : List Effect → List String
  | [] => []
  | .addrAdd addr :: rest => addr :: addedAddresses rest
  | _ :: rest => addedAddresses rest

/-- The strings given to `netlink.ParseIPNet` in a trace, in order. -/
def parsedAddresses : List Effect → List String
  | [] => []
  | .parseIPNet addr :: rest => addr :: parsedAddresses rest
  | _ :: rest => parsedAddresses rest

/-- The effects of the address loop for one address that is parsed and added. -/
def addressEffects (addr : String) : List Effect :=
  [.parseIPNet (trimSpace addr), .log ("Adding address: " ++ trimSpace addr),
    .addrAdd (trimSpace addr)]

/-- The effects of `main` from the creation of the TUN device to the call of
`dev.IpcSet` (main.go 103-185). -/
def engineEffects (c : InterfaceConfig) (stream : String) : List Effect :=
  [.createTUN interfaceName c.mtu, .newDevice, .deviceUp,
    .log "Applying configuration via UAPI...", .ipcSet stream]

/-- The effects of `main` once the link is up (main.go 226-242): the wait for
one of the two events, then the deferred calls. -/
def shutdownEffects (engineClosed : Bool) : List Effect :=
  [.log "AmneziaWG interface started successfully.", .signalNotify, .signalNotify,
    .log (if engineClosed then "Device closed unexpectedly"
      else "Received signal, shutting down..."),
    .log "Goodbye.", .deviceClose, .tunClose]

/-- Steps 7 and 8 of `main` (main.go 194-242), the part of `startEngine` that
follows an accepted control stream. -/
def configureInterface (w : World) (c : InterfaceConfig) : Run Unit := do
  emit (.linkByName interfaceName)
  if w.linkByName then do
    emit (.linkSetMTU c.mtu)
    if w.linkSetMTU then do
      addAddresses w c.addresses
      emit (.log "Bringing interface up...")
      emit .linkSetUp
      if w.linkSetUp then do
        emit (.log "AmneziaWG interface started successfully.")
        emit .signalNotify
        emit .signalNotify
        if w.engineClosed then emit (.log "Device closed unexpectedly")
        else emit (.log "Received signal, shutting down...")
        emit (.log "Goodbye.")
        emit .deviceClose
        emit .tunClose
      else fatal .linkUp
    else fatal .setMTU
  else fatal .getLink

/-- The creation of the TUN device or of the engine, or the engine bring-up. -/
def Effect.isEngineStart : Effect → Bool
  | .createTUN _ _ => true
  | .newDevice => true
  | .deviceUp => true
  | _ => false

/-- A document whose Jmin is not below its Jmax. -/
def badJitterDocument : Document :=
  [⟨"Interface", [("PrivateKey", "AAAAAAAAAAAAAAAAAAAAAAAAAAAAAAAAAAAAAAAAAAA="),
    ("Jmin", "10"), ("Jmax", "5")]⟩]

/-- A document with an interface and one peer. -/
def sampleDocument : Document :=
  [⟨"Interface", [("PrivateKey", "AAAAAAAAAAAAAAAAAAAAAAAAAAAAAAAAAAAAAAAAAAA="),
    ("Address", "10.0.0.2/24")]⟩,
   ⟨"Peer", [("PublicKey", "TWFu"), ("AllowedIPs", "10.0.0.0/8")]⟩]

/-- The sample world with a configuration file of the given permission mode. -/
def worldWithMode (mode : Nat) : World :=
  { worldWith sampleDocument with stat := fun _ => some mode }

/-- The sample world in which the engine bring-up `dev.Up()` fails. -/
def deviceUpFailsWorld : World :=
  { worldWith sampleDocument with deviceUp := false }

/-- The sample world in which the engine rejects the control stream. -/
def applyFailsWorld : World :=
  { worldWith sampleDocument with ipcSet := fun _ => false }

/-- The sample world with a CIDR parser that rejects a string without `/`, and
the address list `10.0.0.2/24, bad-cidr`. -/
def badCidrWorld : World :=
  { worldWith sampleDocument with
    parseIPNet := fun s => s.data.contains '/'
    splitList := fun s => if s = "" then [] else ["10.0.0.2/24", "bad-cidr"] }

/-- An interface configuration with the address list `10.0.0.2/24, bad-cidr`. -/
def badCidrInterface : InterfaceConfig :=
  { sampleInterface with addresses := ["10.0.0.2/24", "bad-cidr"] }

/-- The run reaches the `Running` state: the configuration `c`, `peers` is
loaded and valid, the stream `stream` is built and accepted, and every call of
steps 3 to 7 succeeds. -/
def Started (w : World) (c : InterfaceConfig) (peers : List PeerConfig) (stream : String) :
    Prop :=
  (loadConfig w).result = .ok (c, peers) ∧ validate c.jmin c.jmax = .ok ()
    ∧ w.createTUN = true ∧ w.deviceUp = true ∧ buildUAPI c peers = .ok stream
    ∧ w.ipcSet stream = true ∧ w.linkByName = true ∧ w.linkSetMTU = true
    ∧ (∀ a ∈ c.addresses, w.parseIPNet (trimSpace a) = true ∧ w.addrAdd (trimSpace a) = true)
    ∧ w.linkSetUp = true

/-- The effects of `main` from the start to the moment the link is up. -/
def startupEffects (w : World) (c : InterfaceConfig) (stream : String) : List Effect :=
  (loadConfig w).trace ++ engineEffects c stream
    ++ [.linkByName interfaceName, .linkSetMTU c.mtu]
    ++ c.addresses.flatMap addressEffects
    ++ [.log "Bringing interface up...", .linkSetUp]

/-- The calls that change the state of the engine or of the interface: the
apply of the control stream, the MTU set, an address add, the link up. -/
def Effect.isMutation : Effect → Bool
  | .ipcSet _ => true
  | .linkSetMTU _ => true
  | .addrAdd _ => true
  | .linkSetUp => true
  | _ => false

/-- The world `w` with the event that ends the wait: the engine-closed
notification (`true`) or a termination signal (`false`). -/
def withEvent (w : World) (engineClosed : Bool) : World :=
  { w with engineClosed := engineClosed }

/-- The effects of `main` from the start to the call of `netlink.LinkSetUp`,
that call excluded. -/
def beforeLinkUpEffects (w : World) (c : InterfaceConfig) (stream : String) : List Effect :=
  (loadConfig w).trace ++ engineEffects c stream
    ++ [.linkByName interfaceName, .linkSetMTU c.mtu]
    ++ c.addresses.flatMap addressEffects
    ++ [.log "Bringing interface up..."]

/-- The path of the configuration file: `WG_CONFIG_FILE`, or the default. -/
def configFileOf (w : World) : String :=
  if w.getenv "WG_CONFIG_FILE" = "" then defaultConfigFile else w.getenv "WG_CONFIG_FILE"

/-- A character of the base64 alphabet. -/
def isAlphabet (c : Char) : Bool := (decodeMap c).isSome

/-- Standard padded base64 (RFC 4648, section 4), read from the `j`-th
character of a quantum: quanta of four alphabet characters, the last quantum
possibly two alphabet characters and `==`, or three and `=`. -/
def validQuanta : Nat → List Char → Bool
  | j, [] => j == 0
  | j, c :: rest =>
    if isAlphabet c then validQuanta (if j = 3 then 0 else j + 1) rest
    else
      isPad c &&
        ((j == 2 && (match rest with
          | [c2] => isPad c2
          | _ => false)) || (j == 3 && rest.isEmpty))

/-- A valid standard padded base64 string, line breaks (CR, LF) being ignored
as Go's decoder ignores them. -/
def validBase64 (s : String) : Bool :=
  validQuanta 0 (s.data.filter (fun c => !isNewline c))

/-- The keys of the control protocol that `main` writes. -/
def protocolKeys : List String :=
  interfaceKeyOrder ++
    ["public_key", "preshared_key", "endpoint", "persistent_keepalive_interval", "allowed_ip"]

/-- The number of non-zero / non-empty fields among fwmark, jc, jmin, jmax, s1,
s2, h1, h2, h3, h4. -/
def optionalFieldCount (c : InterfaceConfig) : Nat :=
  (if c.fwMark ≠ 0 then 1 else 0) + (if c.jc ≠ 0 then 1 else 0)
    + (if c.jmin ≠ 0 then 1 else 0) + (if c.jmax ≠ 0 then 1 else 0)
    + (if c.s1 ≠ 0 then 1 else 0) + (if c.s2 ≠ 0 then 1 else 0)
    + (if c.h1 ≠ "" then 1 else 0) + (if c.h2 ≠ "" then 1 else 0)
    + (if c.h3 ≠ "" then 1 else 0) + (if c.h4 ≠ "" then 1 else 0)

/-- The number of lines of the block of a peer: the public key, the optional
fields that are non-empty / non-zero, the allowed-IP entries. -/
def peerLineCount (p : PeerConfig) : Nat :=
  1 + (if p.presharedKey ≠ "" then 1 else 0) + (if p.endpoint ≠ "" then 1 else 0)
    + (if p.keepalive ≠ 0 then 1 else 0) + p.allowedIPs.length

/-- The characters of a line as written to the builder: key, `=`, value and
the terminating newline. -/
def lineChars (l : Line) : List Char := l.key.data ++ '=' :: (l.value.data ++ ['\n'])

/-- A document with a listen port above 65535 and a negative firewall mark. -/
def outOfRangeDocument : Document :=
  [⟨"Interface", [("PrivateKey", "AAAA"), ("ListenPort", "70000"), ("FwMark", "-5")]⟩]

/-- The lines of a text: the segments that end at a newline character, and a
last segment without newline when it is not empty. -/
def splitLines : List Char → List (List Char)
  | [] => []
  | ch :: rest =>
    if ch = '\n' then [] :: splitLines rest
    else
      match splitLines rest with
      | [] => [[ch]]
      | line :: lines => (ch :: line) :: lines

/-- A text line read as `key=value`: the key is the text before the first `=`,
the value the text after it. -/
def parseLine (chars : List Char) : Line :=
  ⟨⟨chars.takeWhile (fun ch => ch != '=')⟩, ⟨(chars.dropWhile (fun ch => ch != '=')).drop 1⟩⟩

/-- The lines of the text of a control stream, each read as `key=value`. -/
def streamLines (stream : String) : List Line :=
  (splitLines stream.data).map parseLine

/-- The verbatim-copied strings of the interface contain no newline character. -/
@[reducible]
def InterfaceConfig.noNewline (c : InterfaceConfig) : Prop :=
  '\n' ∉ c.h1.data ∧ '\n' ∉ c.h2.data ∧ '\n' ∉ c.h3.data ∧ '\n' ∉ c.h4.data

/-- The verbatim-copied strings of a peer (its endpoint and its allowed-IP
entries) contain no newline character. -/
@[reducible]
def PeerConfig.noNewline (p : PeerConfig) : Prop :=
  '\n' ∉ p.endpoint.data ∧ ∀ ip ∈ p.allowedIPs, '\n' ∉ ip.data

/-- An interface without firewall mark whose `H1` value has two lines, the
second being `fwmark=9`. -/
def injectedInterface : InterfaceConfig :=
  { privateKey := "AAAA"
    listenPort := 51820
    fwMark := 0
    addresses := []
    mtu := 1420
    jc := 0
    jmin := 0
    jmax := 0
    s1 := 0
    s2 := 0
    h1 := "a\nfwmark=9"
    h2 := ""
    h3 := ""
    h4 := "" }

/-- A peer whose allowed-IP entry has two lines, the second being an
`endpoint=` line. -/
def injectedEndpointPeer : PeerConfig :=
  { publicKey := "TWFu"
    presharedKey := ""
    endpoint := ""
    keepalive := 0
    allowedIPs := ["10.0.0.0/8\nendpoint=203.0.113.9:1"] }

/-- A peer whose only allowed-IP entry has two lines, the second being an
`allowed_ip=` line. -/
def injectedAllowedIPPeer : PeerConfig :=
  { publicKey := "TWFu"
    presharedKey := ""
    endpoint := ""
    keepalive := 0
    allowedIPs := ["10.0.0.0/8\nallowed_ip=0.0.0.0/0"] }

/-! ## Facts about the library functions -/

theorem decodeMap_of_isSpace {c : Char} (h : isSpace c = true) : decodeMap c = none := by
  simp only [isSpace, Bool.or_eq_true, Bool.and_eq_true, decide_eq_true_eq, beq_iff_eq] at h
  simp only [decodeMap]
  repeat' split
  all_goals first | rfl | omega

theorem isPad_of_isSpace {c : Char} (h : isSpace c = true) : isPad c = false := by
  simp only [isSpace, Bool.or_eq_true, Bool.and_eq_true, decide_eq_true_eq, beq_iff_eq] at h
  simp only [isPad, beq_eq_false_iff_ne, ne_eq]
  omega

theorem isSpace_of_isNewline {c : Char} (h : isNewline c = true) : isSpace c = true := by
  simp only [isNewline, Bool.or_eq_true, beq_iff_eq] at h
  simp only [isSpace, Bool.or_eq_true, Bool.and_eq_true, decide_eq_true_eq, beq_iff_eq]
  omega

theorem decodeLoop_cons (dbuf out : List Nat) (c : Char) (rest : List Char) :
    decodeLoop dbuf out (c :: rest) =
      match decodeMap c with
      | some v =>
        if dbuf.length = 3 then decodeLoop [] (out ++ quantumBytes (dbuf ++ [v])) rest
        else decodeLoop (dbuf ++ [v]) out rest
      | none =>
        if isNewline c then decodeLoop dbuf out rest
        else if isPad c then (decodePadding dbuf rest).map (fun bytes => out ++ bytes)
        else none := rfl

/-- A white-space character in front of the input is skipped by a decode that succeeds. -/
theorem decodeLoop_cons_space {dbuf out : List Nat} {c : Char} {rest : List Char}
    {r : List Nat} (hc : isSpace c = true)
    (h : decodeLoop dbuf out (c :: rest) = some r) : decodeLoop dbuf out rest = some r := by
  rw [decodeLoop_cons, decodeMap_of_isSpace hc] at h
  simp only [isPad_of_isSpace hc] at h
  by_cases hn : isNewline c = true
  · simpa [hn] using h
  · simp [hn] at h

theorem skipNewlines_cons (x : Char) (t : List Char) :
    skipNewlines (x :: t) = if isNewline x then skipNewlines t else x :: t := by
  simp only [skipNewlines, List.dropWhile_cons]

theorem skipNewlines_append_nil {t : List Char} {c : Char}
    (h : skipNewlines (t ++ [c]) = []) : skipNewlines t = [] := by
  induction t with
  | nil => rfl
  | cons x t ih =>
    rw [List.cons_append, skipNewlines_cons] at h
    rw [skipNewlines_cons]
    by_cases hx : isNewline x = true
    · simp only [hx, if_true] at h ⊢
      exact ih h
    · simp [hx] at h

theorem skipNewlines_append_pad {t rest2 : List Char} {c c2 : Char}
    (hc : isSpace c = true) (hp : isPad c2 = true)
    (h : skipNewlines (t ++ [c]) = c2 :: rest2) (h2 : skipNewlines rest2 = []) :
    ∃ rest3, skipNewlines t = c2 :: rest3 ∧ skipNewlines rest3 = [] := by
  induction t with
  | nil =>
    rw [List.nil_append, skipNewlines_cons] at h
    by_cases hn : isNewline c = true
    · simp [hn, skipNewlines] at h
    · simp only [hn] at h
      have hcc : c = c2 := by simpa using (List.cons.inj h).1
      rw [← hcc, isPad_of_isSpace hc] at hp
      simp at hp
  | cons x t ih =>
    rw [List.cons_append, skipNewlines_cons] at h
    rw [skipNewlines_cons]
    by_cases hx : isNewline x = true
    · simp only [hx, if_true] at h ⊢
      exact ih h
    · simp only [hx] at h ⊢
      have h' := List.cons.inj (by simpa using h : x :: (t ++ [c]) = c2 :: rest2)
      refine ⟨t, by simp [h'.1], ?_⟩
      rw [← h'.2] at h2
      exact skipNewlines_append_nil h2

theorem decodePadding_append_space {dbuf : List Nat} {t : List Char} {c : Char} {r : List Nat}
    (hc : isSpace c = true) (h : decodePadding dbuf (t ++ [c]) = some r) :
    decodePadding dbuf t = some r := by
  unfold decodePadding at h ⊢
  by_cases h2 : dbuf.length = 2
  · simp only [h2, if_true] at h ⊢
    split at h
    · simp at h
    · rename_i c2 rest2 heq
      by_cases hp : isPad c2 = true
      · by_cases hr : skipNewlines rest2 = []
        · obtain ⟨rest3, h3, h4⟩ := skipNewlines_append_pad hc hp heq hr
          rw [h3]
          simp only [hp, hr, h4] at h ⊢
          exact h
        · simp [hr] at h
      · simp [hp] at h
  · simp only [h2, if_false] at h ⊢
    by_cases h3 : dbuf.length = 3
    · simp only [h3, if_true] at h ⊢
      by_cases hr : skipNewlines (t ++ [c]) = []
      · rw [skipNewlines_append_nil hr]
        simpa [hr] using h
      · simp [hr] at h
    · simp [h3] at h

/-- A white-space character at the end of the input is skipped by a decode that succeeds. -/
theorem decodeLoop_append_space {c : Char} (hc : isSpace c = true) :
    ∀ (t : List Char) (dbuf out r : List Nat),
      decodeLoop dbuf out (t ++ [c]) = some r → decodeLoop dbuf out t = some r := by
  intro t
  induction t with
  | nil =>
    intro dbuf out r h
    exact decodeLoop_cons_space hc h
  | cons x t ih =>
    intro dbuf out r h
    rw [List.cons_append, decodeLoop_cons] at h
    rw [decodeLoop_cons]
    cases hx : decodeMap x with
    | some v =>
      simp only [hx] at h ⊢
      by_cases h3 : dbuf.length = 3
      · simp only [h3, if_true] at h ⊢
        exact ih _ _ _ h
      · simp only [h3, if_false] at h ⊢
        exact ih _ _ _ h
    | none =>
      simp only [hx] at h ⊢
      by_cases hn : isNewline x = true
      · simp only [hn, if_true] at h ⊢
        exact ih _ _ _ h
      · simp only [hn] at h ⊢
        by_cases hp : isPad x = true
        · simp only [hp, if_true, Bool.false_eq_true, if_false] at h ⊢
          cases hd : decodePadding dbuf (t ++ [c]) with
          | none => simp [hd] at h
          | some bytes =>
            rw [decodePadding_append_space hc hd]
            simpa [hd] using h
        · simp [hp] at h

theorem decodeLoop_dropWhile_space {dbuf out r : List Nat} :
    ∀ (l : List Char), decodeLoop dbuf out l = some r →
      decodeLoop dbuf out (l.dropWhile isSpace) = some r := by
  intro l
  induction l with
  | nil => intro h; exact h
  | cons c t ih =>
    intro h
    rw [List.dropWhile_cons]
    by_cases hc : isSpace c = true
    · simp only [hc, if_true]
      exact ih (decodeLoop_cons_space hc h)
    · simp only [hc]
      exact h

theorem decodeLoop_reverse_dropWhile_space {dbuf out r : List Nat} :
    ∀ (l : List Char), decodeLoop dbuf out l.reverse = some r →
      decodeLoop dbuf out (l.dropWhile isSpace).reverse = some r := by
  intro l
  induction l with
  | nil => intro h; exact h
  | cons c t ih =>
    intro h
    rw [List.dropWhile_cons]
    by_cases hc : isSpace c = true
    · simp only [hc, if_true]
      rw [List.reverse_cons] at h
      exact ih (decodeLoop_append_space hc _ _ _ _ h)
    · simp only [hc]
      exact h

/-- Trimming white space does not change the result of a decode that succeeds. -/
theorem decodeLoop_trimChars {dbuf out r : List Nat} {l : List Char}
    (h : decodeLoop dbuf out l = some r) : decodeLoop dbuf out (trimChars l) = some r := by
  unfold trimChars
  apply decodeLoop_reverse_dropWhile_space
  rw [List.reverse_reverse]
  exact decodeLoop_dropWhile_space l h

theorem quantumBytes_lt (dbuf : List Nat) : ∀ b ∈ quantumBytes dbuf, b < 256 := by
  intro b hb
  unfold quantumBytes at hb
  have hb' := List.mem_of_mem_take hb
  simp only [List.mem_cons, List.mem_singleton, List.not_mem_nil, or_false] at hb'
  rcases hb' with rfl | rfl | rfl <;> exact Nat.mod_lt _ (by decide)

theorem decodePadding_lt {dbuf : List Nat} {rest : List Char} {r : List Nat}
    (h : decodePadding dbuf rest = some r) : r = quantumBytes dbuf := by
  unfold decodePadding at h
  split at h
  · split at h
    · simp at h
    · split at h
      · exact (Option.some.inj h).symm
      · simp at h
  · split at h
    · split at h
      · exact (Option.some.inj h).symm
      · simp at h
    · simp at h

/-- Every decoded value is a byte. -/
theorem decodeLoop_lt : ∀ (l : List Char) (dbuf out r : List Nat),
    decodeLoop dbuf out l = some r → (∀ b ∈ out, b < 256) → ∀ b ∈ r, b < 256 := by
  intro l
  induction l with
  | nil =>
    intro dbuf out r h ho
    simp only [decodeLoop] at h
    split at h
    · rw [← Option.some.inj h]; exact ho
    · simp at h
  | cons x t ih =>
    intro dbuf out r h ho
    rw [decodeLoop_cons] at h
    cases hx : decodeMap x with
    | some v =>
      simp only [hx] at h
      by_cases h3 : dbuf.length = 3
      · simp only [h3, if_true] at h
        refine ih _ _ _ h ?_
        intro b hb
        rcases List.mem_append.1 hb with hb | hb
        · exact ho b hb
        · exact quantumBytes_lt _ b hb
      · simp only [h3, if_false] at h
        exact ih _ _ _ h ho
    | none =>
      simp only [hx] at h
      by_cases hn : isNewline x = true
      · simp only [hn, if_true] at h
        exact ih _ _ _ h ho
      · simp only [hn] at h
        by_cases hp : isPad x = true
        · simp only [hp, if_true, Bool.false_eq_true, if_false] at h
          cases hd : decodePadding dbuf t with
          | none => simp [hd] at h
          | some bytes =>
            simp only [hd, Option.map_some'] at h
            rw [← Option.some.inj h, decodePadding_lt hd]
            intro b hb
            rcases List.mem_append.1 hb with hb | hb
            · exact ho b hb
            · exact quantumBytes_lt _ b hb
        · simp [hp] at h

theorem fromHexChar_hexDigit : ∀ n, n < 16 → fromHexChar (hexDigit n) = some n := by decide

/-- Decoding the hex encoding of a sequence of bytes gives the bytes back. -/
theorem hexDecodeChars_hexChars : ∀ (bs : List Nat), (∀ b ∈ bs, b < 256) →
    hexDecodeChars (hexChars bs) = some bs := by
  intro bs
  induction bs with
  | nil => intro _; rfl
  | cons b bs ih =>
    intro h
    have hb : b < 256 := h b (List.mem_cons_self _ _)
    have ih' := ih (fun x hx => h x (List.mem_cons_of_mem _ hx))
    show hexDecodeChars (hexDigit (b / 16 % 16) :: hexDigit (b % 16) :: hexChars bs) = _
    simp only [hexDecodeChars]
    rw [fromHexChar_hexDigit _ (Nat.mod_lt _ (by decide)),
      fromHexChar_hexDigit _ (Nat.mod_lt _ (by decide)), ih']
    simp only [Option.some.injEq, List.cons.injEq, and_true]
    omega

theorem hexChars_ne_nil {bs : List Nat} (h : bs ≠ []) : hexChars bs ≠ [] := by
  cases bs with
  | nil => exact absurd rfl h
  | cons b bs => simp [hexChars, hexByte]

theorem decodePadding_some {dbuf : List Nat} {rest : List Char} {r : List Nat}
    (h : decodePadding dbuf rest = some r) : dbuf.length = 2 ∨ dbuf.length = 3 := by
  unfold decodePadding at h
  by_cases h2 : dbuf.length = 2
  · exact Or.inl h2
  · by_cases h3 : dbuf.length = 3
    · exact Or.inr h3
    · simp [h2, h3] at h

theorem quantumBytes_length (dbuf : List Nat) :
    (quantumBytes dbuf).length = min (dbuf.length - 1) 3 := by
  simp [quantumBytes]

/-- A decode that succeeds never loses bytes, and a quantum that has been
started contributes at least one byte. -/
theorem decodeLoop_length : ∀ (l : List Char) (dbuf out r : List Nat),
    decodeLoop dbuf out l = some r →
      out.length ≤ r.length ∧ (dbuf ≠ [] → out.length < r.length) := by
  intro l
  induction l with
  | nil =>
    intro dbuf out r h
    simp only [decodeLoop] at h
    split at h
    · rename_i he
      rw [← Option.some.inj h]
      exact ⟨le_refl _, fun hne => absurd (List.isEmpty_iff.1 he) hne⟩
    · simp at h
  | cons x t ih =>
    intro dbuf out r h
    rw [decodeLoop_cons] at h
    cases hx : decodeMap x with
    | some v =>
      simp only [hx] at h
      by_cases h3 : dbuf.length = 3
      · simp only [h3, if_true] at h
        have := (ih _ _ _ h).1
        rw [List.length_append, quantumBytes_length, List.length_append, h3] at this
        simp at this
        omega
      · simp only [h3, if_false] at h
        have := (ih _ _ _ h).2 (by simp)
        omega
    | none =>
      simp only [hx] at h
      by_cases hn : isNewline x = true
      · simp only [hn, if_true] at h
        exact ih _ _ _ h
      · simp only [hn] at h
        by_cases hp : isPad x = true
        · simp only [hp, if_true, Bool.false_eq_true, if_false] at h
          cases hd : decodePadding dbuf t with
          | none => simp [hd] at h
          | some bytes =>
            simp only [hd, Option.map_some'] at h
            rw [← Option.some.inj h, decodePadding_lt hd, List.length_append,
              quantumBytes_length]
            rcases decodePadding_some hd with h2 | h2 <;> rw [h2] <;> simp
        · simp [hp] at h

theorem trimChars_head_not_space {l t : List Char} {c : Char}
    (h : trimChars l = c :: t) : isSpace c = false := by
  have hpre : trimChars l <+: l.dropWhile isSpace := List.rdropWhile_prefix _ _
  rw [h] at hpre
  obtain ⟨s, hs⟩ := hpre
  have hne : l.dropWhile isSpace ≠ [] := by rw [← hs]; simp
  have := List.head_dropWhile_not isSpace l hne
  simp only [← hs, List.cons_append, List.head_cons] at this
  simpa using this

/-- A non-empty trimmed input that decodes yields at least one byte. -/
theorem decodeLoop_trimChars_ne_nil {l : List Char} {r : List Nat}
    (hne : trimChars l ≠ []) (h : decodeLoop [] [] (trimChars l) = some r) : r ≠ [] := by
  cases ht : trimChars l with
  | nil => exact absurd ht hne
  | cons c t =>
    have hc := trimChars_head_not_space ht
    rw [ht, decodeLoop_cons] at h
    cases hx : decodeMap c with
    | some v =>
      simp only [hx] at h
      have := (decodeLoop_length _ _ _ _ h).2 (by simp)
      intro hr
      rw [hr] at this
      simp at this
    | none =>
      simp only [hx] at h
      by_cases hn : isNewline c = true
      · rw [isSpace_of_isNewline hn] at hc
        simp at hc
      · simp only [hn] at h
        by_cases hp : isPad c = true
        · simp [hp, decodePadding] at h
        · simp [hp] at h

theorem trimSpace_eq_empty_iff (s : String) : trimSpace s = "" ↔ trimChars s.data = [] := by
  unfold trimSpace
  constructor
  · intro h
    exact congrArg String.data h
  · intro h
    rw [h]

theorem toHex_of_trim_empty {s : String} (h : trimSpace s = "") : toHex s = .ok "" := by
  simp [toHex, h]

theorem toHex_of_trim_ne {s : String} (h : trimSpace s ≠ "") :
    toHex s = match decodeString (trimSpace s) with
      | none => .error Fatal.decodeKey
      | some keyBytes => .ok (encodeToString keyBytes) := by
  simp [toHex, h]

/-- C3: the resolved private key is the environment value if it is non-empty,
otherwise the trimmed contents of the key file if a path is given, the file is
readable and the trimmed contents are non-empty, otherwise the document's
value; resolution never ends in a fatal exit, an unreadable key file included. -/
theorem resolvePrivateKey_precedence (envKey keyFile : String) (fileRead : Option String)
    (docKey : String) :
    (resolvePrivateKey envKey keyFile fileRead docKey).result
        = .ok (resolveSpec envKey keyFile fileRead docKey)
      ∧ (resolvePrivateKey envKey keyFile none docKey).result
        = .ok (if envKey ≠ "" then envKey else docKey) := by
  constructor
  · unfold resolvePrivateKey resolveSpec
    by_cases he : envKey = ""
    · by_cases hk : keyFile = ""
      · cases fileRead <;> simp [he, hk, bind, Run.bind, pure, Run.pure]
      · cases fileRead with
        | none => simp [he, hk, bind, Run.bind, pure, Run.pure, emit]
        | some content =>
          by_cases hc : trimSpace content = "" <;>
            simp [he, hk, hc, bind, Run.bind, pure, Run.pure, emit]
    · simp [he, bind, Run.bind, pure, Run.pure]
  · unfold resolvePrivateKey
    by_cases he : envKey = ""
    · by_cases hk : keyFile = "" <;> simp [he, hk, bind, Run.bind, pure, Run.pure, emit]
    · simp [he, bind, Run.bind, pure, Run.pure]

/-- C4 (counterexample): with jmin = -1 and jmax = -2 both are non-zero and
jmin >= jmax, yet validation succeeds. -/
theorem validate_negative_accepted :
    ((-1 : Int) ≠ 0 ∧ (-2 : Int) ≠ 0 ∧ (-1 : Int) ≥ -2) ∧ validate (-1) (-2) = .ok () := by
  decide

/-- C4 (amended): validation fails exactly when jmin > 0, jmax > 0 and
jmin >= jmax, and succeeds otherwise; for jmin and jmax that are not negative
this is the condition jmin != 0, jmax != 0 and jmin >= jmax. -/
theorem validate_fails_iff (jmin jmax : Int) :
    (validate jmin jmax = .error Fatal.invalidAmnezia ↔ (jmin > 0 ∧ jmax > 0 ∧ jmin ≥ jmax))
      ∧ (validate jmin jmax = .ok () ↔ ¬ (jmin > 0 ∧ jmax > 0 ∧ jmin ≥ jmax))
      ∧ (0 ≤ jmin → 0 ≤ jmax →
          (validate jmin jmax = .error Fatal.invalidAmnezia
            ↔ (jmin ≠ 0 ∧ jmax ≠ 0 ∧ jmin ≥ jmax))) := by
  unfold validate
  refine ⟨?_, ?_, ?_⟩
  · by_cases h : jmin > 0 ∧ jmax > 0 ∧ jmin ≥ jmax <;> simp [h]
  · by_cases h : jmin > 0 ∧ jmax > 0 ∧ jmin ≥ jmax <;> simp [h]
  · intro h1 h2
    by_cases h : jmin > 0 ∧ jmax > 0 ∧ jmin ≥ jmax
    · rw [if_pos h]
      exact ⟨fun _ => ⟨by omega, by omega, h.2.2⟩, fun _ => rfl⟩
    · rw [if_neg h]
      constructor
      · intro hc
        cases hc
      · intro hc
        exact absurd ⟨by omega, by omega, hc.2.2⟩ h

/-- C5: for a string that is a valid standard base64 encoding, `toHex` succeeds
and its result is the hex encoding of the decoded bytes: hex-decoding it gives
exactly the bytes of the independent base64 decode. -/
theorem toHex_roundtrip (s : String) (bytes : List Nat) (h : decodeString s = some bytes) :
    ∃ hex, toHex s = .ok hex ∧ hex = encodeToString bytes
      ∧ hexDecodeString hex = some bytes := by
  have ht : decodeString (trimSpace s) = some bytes := decodeLoop_trimChars h
  have hlt : ∀ b ∈ bytes, b < 256 := decodeLoop_lt _ _ _ _ h (by simp)
  have hdec : hexDecodeString (encodeToString bytes) = some bytes :=
    hexDecodeChars_hexChars bytes hlt
  by_cases he : trimSpace s = ""
  · rw [he] at ht
    have hb : bytes = [] := by
      have : decodeString "" = some [] := rfl
      rw [this] at ht
      exact (Option.some.inj ht).symm
    subst hb
    exact ⟨"", toHex_of_trim_empty he, rfl, rfl⟩
  · refine ⟨encodeToString bytes, ?_, rfl, hdec⟩
    rw [toHex_of_trim_ne he, ht]

/-- C5 (witness): "TWFu" decodes to the bytes of "Man". -/
theorem toHex_roundtrip_witness :
    decodeString "TWFu" = some [77, 97, 110] ∧
      ∃ hex, toHex "TWFu" = .ok hex ∧ hex = encodeToString [77, 97, 110]
        ∧ hexDecodeString hex = some [77, 97, 110] :=
  ⟨by decide, toHex_roundtrip "TWFu" [77, 97, 110] (by decide)⟩

/-! ## The shape of the built stream -/

theorem keysOf_append (a b : List Line) : keysOf (a ++ b) = keysOf a ++ keysOf b := by
  simp [keysOf]

theorem keysOf_intLine (key : String) (v : Int) :
    keysOf (intLine key v) = optionalKey (v != 0) key := by
  by_cases h : v = 0 <;> simp [intLine, optionalKey, keysOf, h]

theorem keysOf_strLine (key : String) (v : String) :
    keysOf (strLine key v) = optionalKey (v != "") key := by
  by_cases h : v = "" <;> simp [strLine, optionalKey, keysOf, h]

theorem keysOf_allowedIPLines (ips : List String) :
    keysOf (allowedIPLines ips) = List.replicate ips.length "allowed_ip" := by
  induction ips with
  | nil => rfl
  | cons ip ips ih =>
    simp only [allowedIPLines, keysOf, List.map_cons, List.length_cons,
      List.replicate_succ] at ih ⊢
    rw [ih]

theorem keysOf_interfaceLinesWith (hexKey : String) (c : InterfaceConfig) :
    keysOf (interfaceLinesWith hexKey c) = expectedInterfaceKeys c := by
  simp only [interfaceLinesWith, expectedInterfaceKeys, keysOf_append, keysOf_intLine,
    keysOf_strLine]
  rfl

theorem interfaceLines_ok {c : InterfaceConfig} {iface : List Line}
    (h : interfaceLines c = .ok iface) :
    ∃ hexKey, toHex c.privateKey = .ok hexKey ∧ iface = interfaceLinesWith hexKey c := by
  unfold interfaceLines at h
  cases hk : toHex c.privateKey with
  | error e => simp [hk] at h
  | ok hexKey =>
    simp only [hk, Except.ok.injEq] at h
    exact ⟨hexKey, rfl, h.symm⟩

theorem presharedLines_ok {k : String} {psk : List Line} (h : presharedLines k = .ok psk) :
    (k = "" ∧ psk = []) ∨
      (k ≠ "" ∧ ∃ hexKey, toHex k = .ok hexKey ∧ psk = [⟨"preshared_key", hexKey⟩]) := by
  unfold presharedLines at h
  by_cases hk : k = ""
  · simp only [hk, ne_eq, not_true_eq_false, if_false, Except.ok.injEq] at h
    exact Or.inl ⟨hk, h.symm⟩
  · simp only [ne_eq, hk, not_false_eq_true, if_true] at h
    cases ht : toHex k with
    | error e => simp [ht] at h
    | ok hexKey =>
      simp only [ht, Except.ok.injEq] at h
      exact Or.inr ⟨hk, hexKey, rfl, h.symm⟩

theorem keysOf_presharedLines {k : String} {psk : List Line}
    (h : presharedLines k = .ok psk) : keysOf psk = optionalKey (k != "") "preshared_key" := by
  rcases presharedLines_ok h with ⟨hk, rfl⟩ | ⟨hk, hexKey, _, rfl⟩
  · simp [hk, keysOf, optionalKey]
  · simp [hk, keysOf, optionalKey]

theorem peerLines_ok {p : PeerConfig} {block : List Line} (h : peerLines p = .ok block) :
    ∃ hexPub psk, toHex p.publicKey = .ok hexPub ∧ presharedLines p.presharedKey = .ok psk ∧
      block = [⟨"public_key", hexPub⟩] ++ psk ++ strLine "endpoint" p.endpoint ++
        intLine "persistent_keepalive_interval" p.keepalive ++
        allowedIPLines p.allowedIPs := by
  unfold peerLines at h
  cases hk : toHex p.publicKey with
  | error e => simp [hk] at h
  | ok hexPub =>
    cases hp : presharedLines p.presharedKey with
    | error e => simp [hk, hp] at h
    | ok psk =>
      simp only [hk, hp, Except.ok.injEq] at h
      exact ⟨hexPub, psk, rfl, rfl, h.symm⟩

theorem keysOf_peerLines {p : PeerConfig} {block : List Line} (h : peerLines p = .ok block) :
    keysOf block = expectedPeerKeys p := by
  obtain ⟨hexPub, psk, _, hp, rfl⟩ := peerLines_ok h
  simp only [expectedPeerKeys, expectedPeerOptionalKeys, keysOf_append, keysOf_intLine,
    keysOf_strLine, keysOf_allowedIPLines, keysOf_presharedLines hp]
  simp [keysOf]

theorem peerBlocks_ok : ∀ {peers : List PeerConfig} {blocks : List (List Line)},
    peerBlocks peers = .ok blocks →
      List.Forall₂ (fun p block => peerLines p = .ok block) peers blocks := by
  intro peers
  induction peers with
  | nil =>
    intro blocks h
    simp only [peerBlocks, Except.ok.injEq] at h
    rw [← h]
    exact List.Forall₂.nil
  | cons p ps ih =>
    intro blocks h
    unfold peerBlocks at h
    cases hp : peerLines p with
    | error e => simp [hp] at h
    | ok block =>
      cases hps : peerBlocks ps with
      | error e => simp [hp, hps] at h
      | ok rest =>
        simp only [hp, hps, Except.ok.injEq] at h
        rw [← h]
        exact List.Forall₂.cons hp (ih hps)

theorem buildLines_ok {c : InterfaceConfig} {peers : List PeerConfig} {lines : List Line}
    (h : buildLines c peers = .ok lines) :
    ∃ iface blocks, interfaceLines c = .ok iface ∧ peerBlocks peers = .ok blocks ∧
      lines = iface ++ blocks.flatten := by
  unfold buildLines at h
  cases hi : interfaceLines c with
  | error e => simp [hi] at h
  | ok iface =>
    cases hb : peerBlocks peers with
    | error e => simp [hi, hb] at h
    | ok blocks =>
      simp only [hi, hb, Except.ok.injEq] at h
      exact ⟨iface, blocks, rfl, rfl, h.symm⟩

theorem keysOf_flatten_blocks : ∀ {peers : List PeerConfig} {blocks : List (List Line)},
    List.Forall₂ (fun p block => peerLines p = .ok block) peers blocks →
      keysOf blocks.flatten = (peers.map expectedPeerKeys).flatten := by
  intro peers blocks h
  induction h with
  | nil => rfl
  | cons hp _ ih =>
    simp only [List.flatten_cons, keysOf_append, List.map_cons, ih, keysOf_peerLines hp]

/-- The keys of a built stream are those the omission rules give. -/
theorem keysOf_buildLines {c : InterfaceConfig} {peers : List PeerConfig} {lines : List Line}
    (h : buildLines c peers = .ok lines) :
    keysOf lines = expectedInterfaceKeys c ++ (peers.map expectedPeerKeys).flatten := by
  obtain ⟨iface, blocks, hi, hb, rfl⟩ := buildLines_ok h
  obtain ⟨hexKey, _, rfl⟩ := interfaceLines_ok hi
  rw [keysOf_append, keysOf_interfaceLinesWith, keysOf_flatten_blocks (peerBlocks_ok hb)]

theorem hasKey_iff_mem (key : String) (lines : List Line) :
    hasKey key lines ↔ key ∈ keysOf lines := by
  simp only [hasKey, keysOf, List.mem_map]

theorem mem_optionalKey (present : Bool) (key k : String) :
    k ∈ optionalKey present key ↔ present = true ∧ k = key := by
  cases present <;> simp [optionalKey]

theorem count_optionalKey (present : Bool) (key k : String) :
    (optionalKey present key).count k = if present = true ∧ key = k then 1 else 0 := by
  cases present
  · simp [optionalKey]
  · by_cases h : key = k <;> simp [optionalKey, h, List.count_cons]

theorem mem_expectedPeerKeys {p : PeerConfig} {k : String} (h : k ∈ expectedPeerKeys p) :
    k ∈ ["public_key", "preshared_key", "endpoint", "persistent_keepalive_interval",
      "allowed_ip"] := by
  simp only [expectedPeerKeys, expectedPeerOptionalKeys, List.mem_cons, List.mem_append,
    mem_optionalKey, List.mem_replicate] at h
  simp only [List.mem_cons, List.mem_singleton, List.not_mem_nil, or_false]
  tauto

theorem not_mem_peer_keys {peers : List PeerConfig} {k : String}
    (hk : k ∉ ["public_key", "preshared_key", "endpoint", "persistent_keepalive_interval",
      "allowed_ip"]) : k ∉ (peers.map expectedPeerKeys).flatten := by
  intro h
  obtain ⟨ks, hks, hmem⟩ := List.mem_flatten.1 h
  obtain ⟨p, _, rfl⟩ := List.mem_map.1 hks
  exact hk (mem_expectedPeerKeys hmem)

theorem count_peer_keys_zero {peers : List PeerConfig} {k : String}
    (hk : k ∉ ["public_key", "preshared_key", "endpoint", "persistent_keepalive_interval",
      "allowed_ip"]) : ((peers.map expectedPeerKeys).flatten).count k = 0 :=
  List.count_eq_zero.2 (not_mem_peer_keys hk)

theorem count_public_key_expectedPeerKeys (p : PeerConfig) :
    (expectedPeerKeys p).count "public_key" = 1 := by
  simp [expectedPeerKeys, expectedPeerOptionalKeys, List.count_cons, count_optionalKey,
    List.count_replicate]

theorem count_public_key_peers (peers : List PeerConfig) :
    ((peers.map expectedPeerKeys).flatten).count "public_key" = peers.length := by
  induction peers with
  | nil => rfl
  | cons p ps ih =>
    simp only [List.map_cons, List.flatten_cons, List.count_append, ih,
      count_public_key_expectedPeerKeys, List.length_cons]
    omega

/-- The lines written by the builder: an optional interface field (fwmark, jc,
jmin, jmax,
s1, s2, h1..h4) has a line if and only if its value is non-zero / non-empty;
there is exactly one private_key line and one listen_port line, and one
public_key line per peer; the stream is the interface lines followed by one
block per peer, and in the block of a peer preshared_key, endpoint and
persistent_keepalive_interval have a line if and only if the peer's value is
non-empty / non-zero. -/
theorem buildLines_optional_fields (c : InterfaceConfig) (peers : List PeerConfig)
    (lines : List Line) (h : buildLines c peers = .ok lines) :
    (hasKey "fwmark" lines ↔ c.fwMark ≠ 0) ∧ (hasKey "jc" lines ↔ c.jc ≠ 0)
      ∧ (hasKey "jmin" lines ↔ c.jmin ≠ 0) ∧ (hasKey "jmax" lines ↔ c.jmax ≠ 0)
      ∧ (hasKey "s1" lines ↔ c.s1 ≠ 0) ∧ (hasKey "s2" lines ↔ c.s2 ≠ 0)
      ∧ (hasKey "h1" lines ↔ c.h1 ≠ "") ∧ (hasKey "h2" lines ↔ c.h2 ≠ "")
      ∧ (hasKey "h3" lines ↔ c.h3 ≠ "") ∧ (hasKey "h4" lines ↔ c.h4 ≠ "")
      ∧ keyCount "private_key" lines = 1 ∧ keyCount "listen_port" lines = 1
      ∧ keyCount "public_key" lines = peers.length
      ∧ ∃ iface blocks, interfaceLines c = .ok iface ∧ lines = iface ++ blocks.flatten
        ∧ List.Forall₂ (fun p block =>
            peerLines p = .ok block
            ∧ keyCount "public_key" block = 1
            ∧ (hasKey "preshared_key" block ↔ p.presharedKey ≠ "")
            ∧ (hasKey "endpoint" block ↔ p.endpoint ≠ "")
            ∧ (hasKey "persistent_keepalive_interval" block ↔ p.keepalive ≠ 0))
          peers blocks := by
  have hkeys := keysOf_buildLines h
  have iface_iff : ∀ k, k ∉ ["public_key", "preshared_key", "endpoint",
      "persistent_keepalive_interval", "allowed_ip"] →
      (hasKey k lines ↔ k ∈ expectedInterfaceKeys c) := by
    intro k hk
    rw [hasKey_iff_mem, hkeys, List.mem_append]
    exact ⟨fun h => h.resolve_right (not_mem_peer_keys hk), Or.inl⟩
  refine ⟨?_, ?_, ?_, ?_, ?_, ?_, ?_, ?_, ?_, ?_, ?_, ?_, ?_, ?_⟩
  · rw [iface_iff _ (by decide)]
    simp [expectedInterfaceKeys, mem_optionalKey]
  · rw [iface_iff _ (by decide)]
    simp [expectedInterfaceKeys, mem_optionalKey]
  · rw [iface_iff _ (by decide)]
    simp [expectedInterfaceKeys, mem_optionalKey]
  · rw [iface_iff _ (by decide)]
    simp [expectedInterfaceKeys, mem_optionalKey]
  · rw [iface_iff _ (by decide)]
    simp [expectedInterfaceKeys, mem_optionalKey]
  · rw [iface_iff _ (by decide)]
    simp [expectedInterfaceKeys, mem_optionalKey]
  · rw [iface_iff _ (by decide)]
    simp [expectedInterfaceKeys, mem_optionalKey]
  · rw [iface_iff _ (by decide)]
    simp [expectedInterfaceKeys, mem_optionalKey]
  · rw [iface_iff _ (by decide)]
    simp [expectedInterfaceKeys, mem_optionalKey]
  · rw [iface_iff _ (by decide)]
    simp [expectedInterfaceKeys, mem_optionalKey]
  · rw [keyCount, hkeys, List.count_append, count_peer_keys_zero (by decide)]
    simp [expectedInterfaceKeys, List.count_cons, count_optionalKey]
  · rw [keyCount, hkeys, List.count_append, count_peer_keys_zero (by decide)]
    simp [expectedInterfaceKeys, List.count_cons, count_optionalKey]
  · rw [keyCount, hkeys, List.count_append, count_public_key_peers]
    simp [expectedInterfaceKeys, List.count_cons, count_optionalKey]
  · obtain ⟨iface, blocks, hi, hb, rfl⟩ := buildLines_ok h
    refine ⟨iface, blocks, hi, rfl, ?_⟩
    refine (peerBlocks_ok hb).imp ?_
    intro p block hp
    have hk := keysOf_peerLines hp
    refine ⟨hp, ?_, ?_, ?_, ?_⟩
    · rw [keyCount, hk, count_public_key_expectedPeerKeys]
    · rw [hasKey_iff_mem, hk]
      simp [expectedPeerKeys, expectedPeerOptionalKeys, mem_optionalKey, List.mem_replicate]
    · rw [hasKey_iff_mem, hk]
      simp [expectedPeerKeys, expectedPeerOptionalKeys, mem_optionalKey, List.mem_replicate]
    · rw [hasKey_iff_mem, hk]
      simp [expectedPeerKeys, expectedPeerOptionalKeys, mem_optionalKey, List.mem_replicate]

theorem optionalKey_sublist (present : Bool) (key : String) :
    (optionalKey present key).Sublist [key] := by
  cases present
  · exact List.nil_sublist _
  · exact List.Sublist.refl _

theorem expectedInterfaceKeys_sublist (c : InterfaceConfig) :
    (expectedInterfaceKeys c).Sublist interfaceKeyOrder := by
  have horder : interfaceKeyOrder =
      ["private_key", "listen_port"] ++ ["fwmark"] ++ ["jc"] ++ ["jmin"] ++ ["jmax"] ++
        ["s1"] ++ ["s2"] ++ ["h1"] ++ ["h2"] ++ ["h3"] ++ ["h4"] := rfl
  rw [horder]
  unfold expectedInterfaceKeys
  repeat' apply List.Sublist.append
  all_goals first | exact List.Sublist.refl _ | exact optionalKey_sublist _ _

theorem expectedPeerOptionalKeys_sublist (p : PeerConfig) :
    (expectedPeerOptionalKeys p).Sublist peerOptionalKeyOrder := by
  have horder : peerOptionalKeyOrder =
      ["preshared_key"] ++ ["endpoint"] ++ ["persistent_keepalive_interval"] := rfl
  rw [horder]
  unfold expectedPeerOptionalKeys
  repeat' apply List.Sublist.append
  all_goals exact optionalKey_sublist _ _

/-- The lines written by the builder: their keys come in a fixed order: the
interface lines
first, private_key and listen_port in front, their keys a subsequence of
private_key, listen_port, fwmark, jc, jmin, jmax, s1, s2, h1, h2, h3, h4; then
one block per peer in the order of the peers, each block being public_key, then
a subsequence of preshared_key, endpoint, persistent_keepalive_interval, then
the allowed_ip lines; and the stream is a function of its input. -/
theorem buildLines_key_order (c : InterfaceConfig) (peers : List PeerConfig)
    (lines : List Line) (h : buildLines c peers = .ok lines) :
    (∃ iface blocks, interfaceLines c = .ok iface ∧ lines = iface ++ blocks.flatten
        ∧ (keysOf iface).Sublist interfaceKeyOrder
        ∧ ["private_key", "listen_port"] <+: keysOf iface
        ∧ List.Forall₂ (fun p block =>
            peerLines p = .ok block
            ∧ ∃ optional, optional.Sublist peerOptionalKeyOrder
              ∧ keysOf block = "public_key" ::
                  (optional ++ List.replicate p.allowedIPs.length "allowed_ip"))
          peers blocks)
      ∧ buildUAPI c peers = .ok (renderLines lines)
      ∧ ∀ c₂ peers₂, c₂ = c → peers₂ = peers → buildUAPI c₂ peers₂ = buildUAPI c peers := by
  refine ⟨?_, ?_, ?_⟩
  · obtain ⟨iface, blocks, hi, hb, rfl⟩ := buildLines_ok h
    obtain ⟨hexKey, _, hw⟩ := interfaceLines_ok hi
    refine ⟨iface, blocks, hi, rfl, ?_, ?_, ?_⟩
    · rw [hw, keysOf_interfaceLinesWith]
      exact expectedInterfaceKeys_sublist c
    · rw [hw, keysOf_interfaceLinesWith]
      unfold expectedInterfaceKeys
      simp only [List.append_assoc]
      exact List.prefix_append _ _
    · refine (peerBlocks_ok hb).imp ?_
      intro p block hp
      exact ⟨hp, expectedPeerOptionalKeys p, expectedPeerOptionalKeys_sublist p,
        keysOf_peerLines hp⟩
  · simp [buildUAPI, h]
  · intro c₂ peers₂ hc hp
    rw [hc, hp]

/-! ## Values of the lines -/

theorem toDigitsCore_length_le (b : Nat) : ∀ (fuel n : Nat) (ds : List Char),
    ds.length ≤ (Nat.toDigitsCore b fuel n ds).length := by
  intro fuel
  induction fuel with
  | zero => intro n ds; simp [Nat.toDigitsCore]
  | succ fuel ih =>
    intro n ds
    simp only [Nat.toDigitsCore]
    split
    · simp
    · exact le_trans (by simp) (ih _ _)

theorem natRepr_ne_empty (n : Nat) : Nat.repr n ≠ "" := by
  intro h
  have hlen : (Nat.toDigits 10 n).length = 0 := by
    have := congrArg String.length h
    simpa [Nat.repr, List.asString] using this
  have hpos : 0 < (Nat.toDigits 10 n).length := by
    unfold Nat.toDigits
    simp only [Nat.toDigitsCore]
    split
    · simp
    · exact lt_of_lt_of_le (by simp) (toDigitsCore_length_le _ _ _ _)
  omega

theorem fmtInt_ne_empty (v : Int) : fmtInt v ≠ "" := by
  unfold fmtInt
  split
  · intro h
    have := congrArg String.length h
    simp only [String.length_append] at this
    have h1 : "-".length = 1 := rfl
    have h0 : "".length = 0 := rfl
    omega
  · exact natRepr_ne_empty _

theorem encodeToString_eq_empty_iff (bytes : List Nat) :
    encodeToString bytes = "" ↔ bytes = [] := by
  constructor
  · intro h
    by_contra hne
    exact hexChars_ne_nil hne (congrArg String.data h)
  · intro h
    rw [h]
    rfl

/-- The value `toHex` returns is empty exactly for a key text that is empty
once trimmed. -/
theorem toHex_value_empty_iff {s hexKey : String} (h : toHex s = .ok hexKey) :
    hexKey = "" ↔ trimSpace s = "" := by
  by_cases he : trimSpace s = ""
  · rw [toHex_of_trim_empty he] at h
    simp only [Except.ok.injEq] at h
    simp [he, ← h]
  · rw [toHex_of_trim_ne he] at h
    cases hd : decodeString (trimSpace s) with
    | none => simp [hd] at h
    | some bytes =>
      simp only [hd, Except.ok.injEq] at h
      have hne : bytes ≠ [] :=
        decodeLoop_trimChars_ne_nil (fun hn => he ((trimSpace_eq_empty_iff s).2 hn)) hd
      simp only [he, iff_false, ← h]
      exact fun hc => hne ((encodeToString_eq_empty_iff bytes).1 hc)

theorem mem_intLine {key : String} {v : Int} {l : Line} (h : l ∈ intLine key v) :
    l.key = key ∧ l.value ≠ "" := by
  unfold intLine at h
  split at h
  · simp only [List.mem_singleton] at h
    rw [h]
    exact ⟨rfl, fmtInt_ne_empty v⟩
  · simp at h

theorem mem_strLine {key v : String} {l : Line} (h : l ∈ strLine key v) :
    l.key = key ∧ l.value ≠ "" := by
  unfold strLine at h
  by_cases hv : v = ""
  · simp [hv] at h
  · simp only [ne_eq, hv, not_false_eq_true, if_true, List.mem_singleton] at h
    rw [h]
    exact ⟨rfl, hv⟩

theorem mem_interfaceLinesWith {hexKey : String} {c : InterfaceConfig} {l : Line}
    (h : l ∈ interfaceLinesWith hexKey c) :
    l = ⟨"private_key", hexKey⟩ ∨
      (l.key ∈ ["listen_port", "fwmark", "jc", "jmin", "jmax", "s1", "s2", "h1", "h2", "h3",
        "h4"] ∧ l.value ≠ "") := by
  simp only [interfaceLinesWith, List.mem_append, List.mem_cons, List.mem_singleton,
    List.not_mem_nil, or_false] at h
  rcases h with ((((((((((h | h) | h) | h) | h) | h) | h) | h) | h) | h) | h) | h
  · exact Or.inl h
  · right
    rw [h]
    exact ⟨by simp, fmtInt_ne_empty _⟩
  all_goals
    right
    first
      | (obtain ⟨hk, hv⟩ := mem_intLine h
         rw [hk]
         exact ⟨by simp, hv⟩)
      | (obtain ⟨hk, hv⟩ := mem_strLine h
         rw [hk]
         exact ⟨by simp, hv⟩)

theorem mem_allowedIPLines {ips : List String} {l : Line} (h : l ∈ allowedIPLines ips) :
    l.key = "allowed_ip" ∧ ∃ ip ∈ ips, l.value = trimSpace ip := by
  unfold allowedIPLines at h
  obtain ⟨ip, hip, rfl⟩ := List.mem_map.1 h
  exact ⟨rfl, ip, hip, rfl⟩

theorem mem_peerLines {p : PeerConfig} {block : List Line} (hb : peerLines p = .ok block)
    {l : Line} (h : l ∈ block) :
    (l.key = "public_key" ∧ toHex p.publicKey = .ok l.value) ∨
      (l.key = "preshared_key" ∧ toHex p.presharedKey = .ok l.value) ∨
      (l.key = "allowed_ip" ∧ ∃ ip ∈ p.allowedIPs, l.value = trimSpace ip) ∨
      (l.key ∈ ["endpoint", "persistent_keepalive_interval"] ∧ l.value ≠ "") := by
  obtain ⟨hexPub, psk, hpub, hpsk, rfl⟩ := peerLines_ok hb
  simp only [List.mem_append, List.mem_singleton] at h
  rcases h with (((h | h) | h) | h) | h
  · rw [h]
    exact Or.inl ⟨rfl, hpub⟩
  · rcases presharedLines_ok hpsk with ⟨_, rfl⟩ | ⟨_, hexKey, hk, rfl⟩
    · simp at h
    · simp only [List.mem_singleton] at h
      rw [h]
      exact Or.inr (Or.inl ⟨rfl, hk⟩)
  · obtain ⟨hk, hv⟩ := mem_strLine h
    exact Or.inr (Or.inr (Or.inr ⟨by simp [hk], hv⟩))
  · obtain ⟨hk, hv⟩ := mem_intLine h
    exact Or.inr (Or.inr (Or.inr ⟨by simp [hk], hv⟩))
  · exact Or.inr (Or.inr (Or.inl (mem_allowedIPLines h)))

/-- C6 (counterexample): with `WG_PRIVATE_KEY` set to "AAAA" and a valid
`PrivateKey` in the document, startup does not fail: "AAAA" is valid base64,
the stream applied to the engine starts with `private_key=000000` and `main`
returns. -/
theorem main_env_key_accepted :
    (main envKeyWorld).result = .ok ()
      ∧ Effect.ipcSet "private_key=000000\nlisten_port=51820\n" ∈ (main envKeyWorld).trace
      ∧ toHex "AAAA" ≠ .error Fatal.decodeKey := by
  decide

/-- C6 (amended): with the environment value "AAAA" resolution selects the
environment value, whatever the key file and the document hold, without
reading the key file; `toHex` accepts it ("AAAA" is the base64 text of three
zero bytes) and the interface lines start with `private_key=000000`. -/
theorem resolve_env_key_AAAA (keyFile : String) (fileRead : Option String) (docKey : String)
    (c : InterfaceConfig) :
    (resolvePrivateKey "AAAA" keyFile fileRead docKey).result = .ok "AAAA"
      ∧ (resolvePrivateKey "AAAA" keyFile fileRead docKey).trace = []
      ∧ toHex "AAAA" = .ok "000000"
      ∧ interfaceLines { c with privateKey := "AAAA" }
          = .ok (interfaceLinesWith "000000" { c with privateKey := "AAAA" })
      ∧ (interfaceLinesWith "000000" { c with privateKey := "AAAA" }).head?
          = some ⟨"private_key", "000000"⟩ := by
  have hne : ("AAAA" : String) ≠ "" := by decide
  have hhex : toHex "AAAA" = .ok "000000" := by decide
  refine ⟨?_, ?_, hhex, ?_, rfl⟩
  · simp [resolvePrivateKey, hne, bind, Run.bind, pure, Run.pure]
  · simp [resolvePrivateKey, hne, bind, Run.bind, pure, Run.pure]
  · simp only [interfaceLines, hhex]

/-- The lines written for a peer: the block ends with its allowed_ip lines:
one line per entry
of the allowed-IP list, the i-th being `allowed_ip=` followed by the i-th
entry trimmed, in source order, after every other line of the block. -/
theorem peerLines_allowed_ips (p : PeerConfig) (block : List Line)
    (h : peerLines p = .ok block) :
    ∃ front, block = front ++ p.allowedIPs.map (fun ip => (⟨"allowed_ip", trimSpace ip⟩ : Line))
      ∧ (∀ l ∈ front, l.key ≠ "allowed_ip")
      ∧ keyCount "allowed_ip" block = p.allowedIPs.length
      ∧ (∀ i, block[front.length + i]?
          = (p.allowedIPs[i]?).map (fun ip => (⟨"allowed_ip", trimSpace ip⟩ : Line)))
      ∧ (∀ ip, Line.render ⟨"allowed_ip", trimSpace ip⟩
          = "allowed_ip=" ++ trimSpace ip ++ "\n") := by
  obtain ⟨hexPub, psk, hpub, hpsk, hblock⟩ := peerLines_ok h
  have hfront : ∀ l ∈ [(⟨"public_key", hexPub⟩ : Line)] ++ psk ++ strLine "endpoint" p.endpoint
      ++ intLine "persistent_keepalive_interval" p.keepalive, l.key ≠ "allowed_ip" := by
    intro l hl
    simp only [List.mem_append, List.mem_singleton] at hl
    rcases hl with ((hl | hl) | hl) | hl
    · rw [hl]; show "public_key" ≠ "allowed_ip"; decide
    · rcases presharedLines_ok hpsk with ⟨_, rfl⟩ | ⟨_, hexKey, _, rfl⟩
      · simp at hl
      · simp only [List.mem_singleton] at hl
        rw [hl]; show "preshared_key" ≠ "allowed_ip"; decide
    · rw [(mem_strLine hl).1]; decide
    · rw [(mem_intLine hl).1]; decide
  refine ⟨_, hblock, hfront, ?_, ?_, fun ip => rfl⟩
  · rw [keyCount, keysOf_peerLines h]
    simp [expectedPeerKeys, expectedPeerOptionalKeys, List.count_cons, count_optionalKey,
      List.count_replicate]
  · intro i
    rw [hblock]
    show (_ ++ p.allowedIPs.map _)[_ + i]? = _
    rw [List.getElem?_append_right (Nat.le_add_right _ _), Nat.add_sub_cancel_left,
      List.getElem?_map]

/-- C10 (counterexample): for an interface without a private key and a peer
without a public key, with a white-space preshared key and a blank allowed-IP
entry, the stream has four lines with an empty value. -/
theorem buildLines_empty_values :
    buildLines noKeyInterface [blankPeer] = .ok
      [⟨"private_key", ""⟩, ⟨"listen_port", "51820"⟩, ⟨"public_key", ""⟩,
       ⟨"preshared_key", ""⟩, ⟨"allowed_ip", ""⟩] := by
  decide

/-- The lines written by the builder: every listen_port, fwmark, jc, jmin, jmax,
s1, s2, h1..h4, endpoint and persistent_keepalive_interval line has a
non-empty value; a private_key, public_key or preshared_key line has an empty
value exactly when the configured key text is empty once trimmed, and the
value of an allowed_ip line is its entry trimmed. -/
theorem buildLines_values (c : InterfaceConfig) (peers : List PeerConfig)
    (lines : List Line) (h : buildLines c peers = .ok lines) :
    ∃ iface blocks, interfaceLines c = .ok iface ∧ lines = iface ++ blocks.flatten
      ∧ (∀ l ∈ iface,
          (l.key = "private_key" ∧ (l.value = "" ↔ trimSpace c.privateKey = "")) ∨
          (l.key ∈ ["listen_port", "fwmark", "jc", "jmin", "jmax", "s1", "s2", "h1", "h2",
            "h3", "h4"] ∧ l.value ≠ ""))
      ∧ List.Forall₂ (fun p block =>
          peerLines p = .ok block ∧ ∀ l ∈ block,
            (l.key = "public_key" ∧ (l.value = "" ↔ trimSpace p.publicKey = "")) ∨
            (l.key = "preshared_key" ∧ (l.value = "" ↔ trimSpace p.presharedKey = "")) ∨
            (l.key = "allowed_ip" ∧ ∃ ip ∈ p.allowedIPs, l.value = trimSpace ip) ∨
            (l.key ∈ ["endpoint", "persistent_keepalive_interval"] ∧ l.value ≠ ""))
        peers blocks := by
  obtain ⟨iface, blocks, hi, hb, rfl⟩ := buildLines_ok h
  obtain ⟨hexKey, hkey, hw⟩ := interfaceLines_ok hi
  refine ⟨iface, blocks, hi, rfl, ?_, ?_⟩
  · intro l hl
    rw [hw] at hl
    rcases mem_interfaceLinesWith hl with hl | hl
    · rw [hl]
      exact Or.inl ⟨rfl, toHex_value_empty_iff hkey⟩
    · exact Or.inr hl
  · refine (peerBlocks_ok hb).imp ?_
    intro p block hp
    refine ⟨hp, fun l hl => ?_⟩
    rcases mem_peerLines hp hl with ⟨hk, hv⟩ | ⟨hk, hv⟩ | hl | hl
    · exact Or.inl ⟨hk, toHex_value_empty_iff hv⟩
    · exact Or.inr (Or.inl ⟨hk, toHex_value_empty_iff hv⟩)
    · exact Or.inr (Or.inr (Or.inl hl))
    · exact Or.inr (Or.inr (Or.inr hl))

/-! ## Sections of the loaded document -/

theorem names_addSection (secs : List IniSection) (written : IniSection) :
    (addSection secs written).map IniSection.name =
      if written.name ∈ secs.map IniSection.name then secs.map IniSection.name
      else secs.map IniSection.name ++ [written.name] := by
  induction secs with
  | nil => simp [addSection]
  | cons s rest ih =>
    unfold addSection
    by_cases hs : s.name = written.name
    · simp [hs]
    · have hs' : ¬ written.name = s.name := fun h => hs h.symm
      simp only [hs, if_false, List.map_cons, List.mem_cons, hs', false_or, ih]
      split <;> simp

theorem nodup_names_addSection {secs : List IniSection} (written : IniSection)
    (h : (secs.map IniSection.name).Nodup) :
    ((addSection secs written).map IniSection.name).Nodup := by
  rw [names_addSection]
  split
  · exact h
  · rename_i hn
    exact List.Nodup.append h (List.nodup_singleton _) (by simpa using hn)

theorem nodup_names_foldl : ∀ (doc : Document) (secs : List IniSection),
    (secs.map IniSection.name).Nodup →
      ((doc.foldl addSection secs).map IniSection.name).Nodup := by
  intro doc
  induction doc with
  | nil => intro secs h; exact h
  | cons written rest ih =>
    intro secs h
    exact ih _ (nodup_names_addSection written h)

/-- The sections of a loaded file have pairwise different names. -/
theorem iniLoad_names_nodup (doc : Document) :
    ((iniLoad doc).sections.map IniSection.name).Nodup :=
  nodup_names_foldl doc _ (by simp)

/-- A loaded file has at most one section named `Peer`, so the peer loop runs
its body at most once. -/
theorem peersOf_iniLoad_length_le_one (w : World) (doc : Document) :
    (peersOf w (iniLoad doc)).length ≤ 1 := by
  have hnd := iniLoad_names_nodup doc
  have hcount := List.nodup_iff_count_le_one.1 hnd "Peer"
  unfold peersOf
  rw [List.length_map, ← List.countP_eq_length_filter]
  rw [List.count, List.countP_map] at hcount
  have : List.countP (fun s : IniSection => decide (s.name = "Peer")) (iniLoad doc).sections
      = List.countP ((fun x => x == "Peer") ∘ IniSection.name) (iniLoad doc).sections := by
    apply List.countP_congr
    intro s _
    simp
  rw [this]
  exact hcount

/-- C8 (failing input): a document with two `Peer` sections is loaded as a file
with one section named `Peer`, and the stream applied to the engine has one
public_key line, with the values of the second section. -/
theorem two_peer_sections_one_block :
    (twoPeerDocument.filter (fun s => s.name = "Peer")).length = 2
      ∧ ((iniLoad twoPeerDocument).sections.filter (fun s => s.name = "Peer")).length = 1
      ∧ (main (worldWith twoPeerDocument)).result = .ok ()
      ∧ Effect.ipcSet
          ("private_key=0000000000000000000000000000000000000000000000000000000000000000\n" ++
            "listen_port=51820\npublic_key=4d61\nallowed_ip=192.168.0.0/16\n")
          ∈ (main (worldWith twoPeerDocument)).trace := by
  decide

/-! ## Key decoding failures and the order of startup -/

theorem Run.bind_trace_of_ok {α β : Type} {r : Run α} {a : α} (f : α → Run β)
    (h : r.result = .ok a) : (Run.bind r f).trace = r.trace ++ (f a).trace := by
  simp [Run.bind, h]

theorem Run.bind_result_of_ok {α β : Type} {r : Run α} {a : α} (f : α → Run β)
    (h : r.result = .ok a) : (Run.bind r f).result = (f a).result := by
  simp [Run.bind, h]

theorem toHex_error {s : String} {e : Fatal} (h : toHex s = .error e) :
    e = Fatal.decodeKey := by
  unfold toHex at h
  dsimp only at h
  split at h
  · cases h
  · split at h
    · exact (Except.error.inj h).symm
    · cases h

theorem toHex_of_badKey {k : String} (h : badKey k) : toHex k = .error Fatal.decodeKey := by
  rw [toHex_of_trim_ne h.1, h.2]

theorem ne_empty_of_badKey {k : String} (h : badKey k) : k ≠ "" := by
  intro hk
  rw [hk] at h
  exact h.1 rfl

theorem peerLines_error {p : PeerConfig} {e : Fatal} (h : peerLines p = .error e) :
    e = Fatal.decodeKey := by
  unfold peerLines at h
  cases hk : toHex p.publicKey with
  | error e1 =>
    simp only [hk, Except.error.injEq] at h
    rw [← h]
    exact toHex_error hk
  | ok hexPub =>
    simp only [hk] at h
    unfold presharedLines at h
    by_cases hp : p.presharedKey = ""
    · simp [hp] at h
    · simp only [ne_eq, hp, not_false_eq_true, if_true] at h
      cases ht : toHex p.presharedKey with
      | error e2 =>
        simp only [ht, Except.error.injEq] at h
        rw [← h]
        exact toHex_error ht
      | ok hexKey => simp [ht] at h

theorem peerLines_of_badKey {p : PeerConfig} (h : badKey p.publicKey ∨ badKey p.presharedKey) :
    peerLines p = .error Fatal.decodeKey := by
  cases hp : peerLines p with
  | error e => rw [peerLines_error hp]
  | ok block =>
    exfalso
    obtain ⟨hexPub, psk, hpub, hpsk, _⟩ := peerLines_ok hp
    rcases h with h | h
    · rw [toHex_of_badKey h] at hpub
      cases hpub
    · rcases presharedLines_ok hpsk with ⟨hk, _⟩ | ⟨_, hexKey, hk, _⟩
      · exact ne_empty_of_badKey h hk
      · rw [toHex_of_badKey h] at hk
        cases hk

theorem peerBlocks_error : ∀ {peers : List PeerConfig} {e : Fatal},
    peerBlocks peers = .error e → e = Fatal.decodeKey := by
  intro peers
  induction peers with
  | nil => intro e h; cases h
  | cons p ps ih =>
    intro e h
    unfold peerBlocks at h
    cases hp : peerLines p with
    | error e1 =>
      simp only [hp, Except.error.injEq] at h
      rw [← h]
      exact peerLines_error hp
    | ok block =>
      cases hps : peerBlocks ps with
      | error e2 =>
        simp only [hp, hps, Except.error.injEq] at h
        rw [← h]
        exact ih hps
      | ok rest => simp [hp, hps] at h

theorem peerBlocks_of_badKey : ∀ {peers : List PeerConfig},
    (∃ p ∈ peers, badKey p.publicKey ∨ badKey p.presharedKey) →
      peerBlocks peers = .error Fatal.decodeKey := by
  intro peers
  induction peers with
  | nil =>
    rintro ⟨p, hp, _⟩
    cases hp
  | cons q qs ih =>
    rintro ⟨p, hp, hbad⟩
    cases hb : peerBlocks (q :: qs) with
    | error e => rw [peerBlocks_error hb]
    | ok blocks =>
      exfalso
      unfold peerBlocks at hb
      cases hq : peerLines q with
      | error e => simp [hq] at hb
      | ok block =>
        cases hqs : peerBlocks qs with
        | error e => simp [hq, hqs] at hb
        | ok rest =>
          rcases List.mem_cons.1 hp with rfl | hp
          · rw [peerLines_of_badKey hbad] at hq
            cases hq
          · rw [ih ⟨p, hp, hbad⟩] at hqs
            cases hqs

/-- A key text that `toHex` rejects makes the build of the stream fail. -/
theorem buildUAPI_of_badKey {c : InterfaceConfig} {peers : List PeerConfig}
    (h : badKey c.privateKey ∨ ∃ p ∈ peers, badKey p.publicKey ∨ badKey p.presharedKey) :
    buildUAPI c peers = .error Fatal.decodeKey := by
  unfold buildUAPI buildLines interfaceLines
  cases hk : toHex c.privateKey with
  | error e => simp only [toHex_error hk]
  | ok hexKey =>
    rcases h with h | h
    · rw [toHex_of_badKey h] at hk
      cases hk
    · simp only [peerBlocks_of_badKey h]

/-- When the build of the stream fails, steps 3 to 8 stop after the engine
bring-up at the latest. -/
theorem startEngine_of_build_error {w : World} {c : InterfaceConfig}
    {peers : List PeerConfig} {e : Fatal} (h : buildUAPI c peers = .error e) :
    (startEngine w c peers).trace =
        (if w.createTUN then
          [Effect.createTUN interfaceName c.mtu, Effect.newDevice, Effect.deviceUp]
        else [Effect.createTUN interfaceName c.mtu])
      ∧ (startEngine w c peers).result =
        (if w.createTUN then (if w.deviceUp then .error e else .error Fatal.deviceUp)
        else .error Fatal.createTUN) := by
  unfold startEngine
  cases hc : w.createTUN <;> cases hd : w.deviceUp <;>
    simp [bind, Run.bind, emit, fatal, liftExcept, h]

theorem quiet_pure {α : Type} (a : α) : Quiet (pure a : Run α) := by
  intro e he
  simp [pure, Run.pure] at he

theorem quiet_fatal {α : Type} (f : Fatal) : Quiet (fatal f : Run α) := by
  intro e he
  simp [fatal] at he

theorem quiet_emit (e : Effect) (h1 : e.isApply = false) (h2 : e.isInterfaceCall = false) :
    Quiet (emit e) := by
  intro x hx
  simp only [emit, List.mem_singleton] at hx
  rw [hx]
  exact ⟨h1, h2⟩

theorem quiet_bind {α β : Type} {r : Run α} {f : α → Run β} (hr : Quiet r)
    (hf : ∀ a, Quiet (f a)) : Quiet (r >>= f) := by
  intro e he
  simp only [bind, Run.bind] at he
  cases hres : r.result with
  | error x =>
    simp only [hres] at he
    exact hr e he
  | ok a =>
    simp only [hres, List.mem_append] at he
    rcases he with he | he
    · exact hr e he
    · exact hf a e he

theorem quiet_resolvePrivateKey (envKey keyFile : String) (fileRead : Option String)
    (docKey : String) : Quiet (resolvePrivateKey envKey keyFile fileRead docKey) := by
  unfold resolvePrivateKey
  dsimp only
  repeat' first
    | with_reducible exact quiet_pure _
    | (with_reducible refine quiet_emit _ ?_ ?_) <;> rfl
    | with_reducible apply quiet_bind
    | split
    | intro _

/-- Loading the configuration neither applies a stream nor configures the
interface. -/
theorem quiet_loadConfig (w : World) : Quiet (loadConfig w) := by
  unfold loadConfig
  dsimp only
  repeat' first
    | with_reducible exact quiet_pure _
    | with_reducible exact quiet_fatal _
    | (with_reducible refine quiet_emit _ ?_ ?_) <;> rfl
    | with_reducible exact quiet_resolvePrivateKey _ _ _ _
    | with_reducible apply quiet_bind
    | split
    | intro _

/-- C7 (counterexample): with a `PrivateKey` that is not valid base64 the run
ends in the decoding failure after the TUN device has been created and the
engine has been brought up. -/
theorem main_bad_key_after_engine_up :
    ("not-base64!" ≠ "" ∧ decodeString "not-base64!" = none)
      ∧ (main (worldWith badKeyDocument)).result = .error Fatal.decodeKey
      ∧ Effect.createTUN "wg0" 1420 ∈ (main (worldWith badKeyDocument)).trace
      ∧ Effect.deviceUp ∈ (main (worldWith badKeyDocument)).trace := by
  decide

/-- C7 (amended): when the resolved private key, a peer public key or a peer
preshared key is, once trimmed, non-empty and not valid standard base64, the
run ends in a fatal exit, the control stream is never applied and no
network-interface configuration call is made; the decoding failure itself comes
after the creation of the TUN device and the engine bring-up (steps 3 and 4 of
`main` precede step 5). -/
theorem main_bad_key_aborts (w : World) (c : InterfaceConfig) (peers : List PeerConfig)
    (hload : (loadConfig w).result = .ok (c, peers))
    (hbad : badKey c.privateKey ∨ ∃ p ∈ peers, badKey p.publicKey ∨ badKey p.presharedKey) :
    (∃ f, (main w).result = .error f)
      ∧ (∀ e ∈ (main w).trace, e.isApply = false ∧ e.isInterfaceCall = false)
      ∧ (validate c.jmin c.jmax = .ok () → w.createTUN = true → w.deviceUp = true →
          (main w).result = .error Fatal.decodeKey
            ∧ (main w).trace = (loadConfig w).trace ++
                [Effect.createTUN interfaceName c.mtu, Effect.newDevice, Effect.deviceUp]) := by
  have hb := buildUAPI_of_badKey hbad
  obtain ⟨htr, hres⟩ := startEngine_of_build_error (w := w) hb
  have hmr : (main w).result =
      (Run.bind (liftExcept (validate c.jmin c.jmax)) (fun _ => startEngine w c peers)).result :=
    Run.bind_result_of_ok _ hload
  have hmt : (main w).trace = (loadConfig w).trace ++
      (Run.bind (liftExcept (validate c.jmin c.jmax)) (fun _ => startEngine w c peers)).trace :=
    Run.bind_trace_of_ok _ hload
  cases hv : validate c.jmin c.jmax with
  | error e =>
    have h1 : (Run.bind (liftExcept (validate c.jmin c.jmax))
        (fun _ => startEngine w c peers)).result = .error e := by
      simp [Run.bind, liftExcept, hv]
    have h2 : (Run.bind (liftExcept (validate c.jmin c.jmax))
        (fun _ => startEngine w c peers)).trace = [] := by
      simp [Run.bind, liftExcept, hv]
    refine ⟨⟨e, by rw [hmr, h1]⟩, ?_, fun hc => by cases hc⟩
    intro x hx
    rw [hmt, h2, List.append_nil] at hx
    exact quiet_loadConfig w x hx
  | ok u =>
    have h1 : (Run.bind (liftExcept (validate c.jmin c.jmax))
        (fun _ => startEngine w c peers)).result = (startEngine w c peers).result := by
      simp [Run.bind, liftExcept, hv]
    have h2 : (Run.bind (liftExcept (validate c.jmin c.jmax))
        (fun _ => startEngine w c peers)).trace = (startEngine w c peers).trace := by
      simp [Run.bind, liftExcept, hv]
    rw [h1] at hmr
    rw [h2] at hmt
    refine ⟨?_, ?_, ?_⟩
    · rw [hmr, hres]
      cases w.createTUN <;> cases w.deviceUp <;> simp
    · intro x hx
      rw [hmt, htr, List.mem_append] at hx
      rcases hx with hx | hx
      · exact quiet_loadConfig w x hx
      · cases hcT : w.createTUN <;> simp only [hcT] at hx <;> simp at hx
        · rw [hx]; exact ⟨rfl, rfl⟩
        · rcases hx with rfl | rfl | rfl <;> exact ⟨rfl, rfl⟩
    · intro _ hcT hdU
      rw [hmr, hres, hmt, htr, hcT, hdU]
      simp

/-- C7 (witness): the document whose `PrivateKey` is not valid base64. -/
theorem main_bad_key_aborts_witness :
    (∃ f, (main (worldWith badKeyDocument)).result = .error f)
      ∧ (∀ e ∈ (main (worldWith badKeyDocument)).trace,
          e.isApply = false ∧ e.isInterfaceCall = false) :=
  have h := main_bad_key_aborts (worldWith badKeyDocument)
    { privateKey := "not-base64!", listenPort := 51820, fwMark := 0, addresses := [],
      mtu := 1420, jc := 0, jmin := 0, jmax := 0, s1 := 0, s2 := 0,
      h1 := "", h2 := "", h3 := "", h4 := "" }
    [{ publicKey := "TWFu", presharedKey := "", endpoint := "", keepalive := 0,
       allowedIPs := ["10.0.0.0/8"] }]
    (by decide) (Or.inl (by unfold badKey; decide))
  ⟨h.1, h.2.1⟩

/-! ## The effects of `main` -/

theorem all_pure {α : Type} (p : Effect → Bool) (a : α) : Run.All p (pure a : Run α) := by
  intro e he
  simp [pure, Run.pure] at he

theorem all_fatal {α : Type} (p : Effect → Bool) (f : Fatal) :
    Run.All p (fatal f : Run α) := by
  intro e he
  simp [fatal] at he

theorem all_emit (p : Effect → Bool) (e : Effect) (h : p e = true) : Run.All p (emit e) := by
  intro x hx
  simp only [emit, List.mem_singleton] at hx
  rw [hx]
  exact h

theorem all_bind {α β : Type} {p : Effect → Bool} {r : Run α} {f : α → Run β}
    (hr : Run.All p r) (hf : ∀ a, Run.All p (f a)) : Run.All p (r >>= f) := by
  intro e he
  simp only [bind, Run.bind] at he
  cases hres : r.result with
  | error x =>
    simp only [hres] at he
    exact hr e he
  | ok a =>
    simp only [hres, List.mem_append] at he
    rcases he with he | he
    · exact hr e he
    · exact hf a e he

theorem all_resolvePrivateKey (envKey keyFile : String) (fileRead : Option String)
    (docKey : String) :
    Run.All Effect.isStartupRead (resolvePrivateKey envKey keyFile fileRead docKey) := by
  unfold resolvePrivateKey
  dsimp only
  repeat' first
    | with_reducible exact all_pure _ _
    | (with_reducible refine all_emit _ _ ?_) <;> rfl
    | with_reducible apply all_bind
    | split
    | intro _

/-- Steps 1 and 2 of `main` only log and read. -/
theorem all_loadConfig (w : World) : Run.All Effect.isStartupRead (loadConfig w) := by
  unfold loadConfig
  dsimp only
  repeat' first
    | with_reducible exact all_pure _ _
    | with_reducible exact all_fatal _ _
    | (with_reducible refine all_emit _ _ ?_) <;> rfl
    | with_reducible exact all_resolvePrivateKey _ _ _ _
    | with_reducible apply all_bind
    | split
    | intro _

theorem addAddresses_cons (w : World) (addr : String) (rest : List String) :
    addAddresses w (addr :: rest) =
      if w.parseIPNet (trimSpace addr) then
        if w.addrAdd (trimSpace addr) then
          ⟨addressEffects addr ++ (addAddresses w rest).trace, (addAddresses w rest).result⟩
        else ⟨addressEffects addr, .error (.addAddress (trimSpace addr))⟩
      else ⟨[.parseIPNet (trimSpace addr)], .error (.invalidAddress (trimSpace addr))⟩ := by
  rw [addAddresses]
  cases hp : w.parseIPNet (trimSpace addr) <;> cases ha : w.addrAdd (trimSpace addr) <;>
    simp [bind, Run.bind, emit, fatal, addressEffects, hp, ha]

/-- The address loop only parses, logs and adds. -/
theorem all_addAddresses (w : World) :
    ∀ addrs, Run.All Effect.isAddressStep (addAddresses w addrs) := by
  intro addrs
  induction addrs with
  | nil => exact all_pure _ _
  | cons addr rest ih =>
    intro e he
    rw [addAddresses_cons] at he
    have haddr : ∀ x ∈ addressEffects addr, x.isAddressStep = true := by
      intro x hx
      simp only [addressEffects, List.mem_cons, List.mem_singleton, List.not_mem_nil,
        or_false] at hx
      rcases hx with rfl | rfl | rfl <;> rfl
    split at he
    · split at he
      · rcases List.mem_append.1 he with he | he
        · exact haddr e he
        · exact ih e he
      · exact haddr e he
    · simp only [List.mem_singleton] at he
      rw [he]
      rfl

/-- Steps 7 and 8 of `main`, path by path. -/
theorem configureInterface_eq (w : World) (c : InterfaceConfig) :
    configureInterface w c =
      if w.linkByName then
        if w.linkSetMTU then
          match (addAddresses w c.addresses).result with
          | .error e =>
            ⟨[.linkByName interfaceName, .linkSetMTU c.mtu]
              ++ (addAddresses w c.addresses).trace, .error e⟩
          | .ok _ =>
            if w.linkSetUp then
              ⟨[.linkByName interfaceName, .linkSetMTU c.mtu]
                ++ (addAddresses w c.addresses).trace
                ++ [.log "Bringing interface up...", .linkSetUp]
                ++ shutdownEffects w.engineClosed, .ok ()⟩
            else
              ⟨[.linkByName interfaceName, .linkSetMTU c.mtu]
                ++ (addAddresses w c.addresses).trace
                ++ [.log "Bringing interface up...", .linkSetUp], .error .linkUp⟩
        else ⟨[.linkByName interfaceName, .linkSetMTU c.mtu], .error .setMTU⟩
      else ⟨[.linkByName interfaceName], .error .getLink⟩ := by
  unfold configureInterface
  cases hL : w.linkByName <;> cases hM : w.linkSetMTU <;>
    cases hA : (addAddresses w c.addresses).result <;> cases hU : w.linkSetUp <;>
    cases hE : w.engineClosed <;>
    simp [bind, Run.bind, emit, fatal, shutdownEffects, hA]

/-- Steps 3 to 8 of `main` when the engine accepts the control stream. -/
theorem startEngine_accepted {w : World} {c : InterfaceConfig} {peers : List PeerConfig}
    {stream : String} (hT : w.createTUN = true) (hU : w.deviceUp = true)
    (hb : buildUAPI c peers = .ok stream) (hs : w.ipcSet stream = true) :
    (startEngine w c peers).trace = engineEffects c stream ++ (configureInterface w c).trace
      ∧ (startEngine w c peers).result = (configureInterface w c).result := by
  unfold startEngine configureInterface
  cases hL : w.linkByName <;> cases hM : w.linkSetMTU <;>
    cases hA : (addAddresses w c.addresses).result <;> cases hP : w.linkSetUp <;>
    cases hE : w.engineClosed <;>
    simp [bind, Run.bind, emit, fatal, liftExcept, engineEffects, hT, hU, hb, hs, hA]

/-- Steps 3 to 8 of `main` when the engine does not accept a control stream:
the run ends in a fatal exit and its effects are among the five effects that
lead to `dev.IpcSet`. -/
theorem startEngine_not_accepted {w : World} {c : InterfaceConfig} {peers : List PeerConfig}
    (h : ¬ (w.createTUN = true ∧ w.deviceUp = true ∧
      ∃ stream, buildUAPI c peers = .ok stream ∧ w.ipcSet stream = true)) :
    (∃ f, (startEngine w c peers).result = .error f)
      ∧ ∀ e ∈ (startEngine w c peers).trace,
          (e = .createTUN interfaceName c.mtu ∨ e = .newDevice ∨ e = .deviceUp
            ∨ e = .log "Applying configuration via UAPI..."
            ∨ ∃ stream, e = .ipcSet stream ∧ buildUAPI c peers = .ok stream
                ∧ w.ipcSet stream = false) := by
  unfold startEngine
  cases hT : w.createTUN
  · simp [bind, Run.bind, emit, fatal]
  · cases hU : w.deviceUp
    · simp [bind, Run.bind, emit, fatal, hT]
    · cases hb : buildUAPI c peers with
      | error f => simp [bind, Run.bind, emit, fatal, liftExcept, hT, hU, hb]
      | ok stream =>
        cases hs : w.ipcSet stream
        · simp [bind, Run.bind, emit, fatal, liftExcept, hT, hU, hb, hs]
        · exact absurd ⟨hT, hU, stream, hb, hs⟩ h

theorem main_of_load_error {w : World} {f : Fatal} (h : (loadConfig w).result = .error f) :
    (main w).trace = (loadConfig w).trace ∧ (main w).result = .error f := by
  unfold main
  simp [bind, Run.bind, h]

theorem main_of_validate_error {w : World} {c : InterfaceConfig} {peers : List PeerConfig}
    {f : Fatal} (hload : (loadConfig w).result = .ok (c, peers))
    (hv : validate c.jmin c.jmax = .error f) :
    (main w).trace = (loadConfig w).trace ∧ (main w).result = .error f := by
  unfold main
  simp [bind, Run.bind, hload, liftExcept, hv]

theorem main_of_validate_ok {w : World} {c : InterfaceConfig} {peers : List PeerConfig}
    (hload : (loadConfig w).result = .ok (c, peers))
    (hv : validate c.jmin c.jmax = .ok ()) :
    (main w).trace = (loadConfig w).trace ++ (startEngine w c peers).trace
      ∧ (main w).result = (startEngine w c peers).result := by
  unfold main
  simp [bind, Run.bind, hload, liftExcept, hv]

theorem validate_error {jmin jmax : Int} {f : Fatal} (h : validate jmin jmax = .error f) :
    f = Fatal.invalidAmnezia := by
  unfold validate at h
  split at h
  · exact (Except.error.inj h).symm
  · cases h

/-- C14: when the Jmin/Jmax read from the configuration fail validation, `main`
ends in the fatal exit of the validation and has only logged and read the
configuration: the TUN device is not created, the engine is neither created
nor brought up, no control stream is applied and no network-interface
configuration call is made. -/
theorem invalid_parameters_abort (w : World) (c : InterfaceConfig) (peers : List PeerConfig)
    (f : Fatal) (hload : (loadConfig w).result = .ok (c, peers))
    (hv : validate c.jmin c.jmax = .error f) :
    (main w).result = .error Fatal.invalidAmnezia
      ∧ (main w).trace = (loadConfig w).trace
      ∧ ∀ e ∈ (main w).trace, e.isStartupRead = true ∧ e.isEngineStart = false
          ∧ e.isApply = false ∧ e.isInterfaceCall = false ∧ e.isRelease = false := by
  obtain ⟨ht, hr⟩ := main_of_validate_error hload hv
  refine ⟨by rw [hr, validate_error hv], ht, ?_⟩
  intro e he
  rw [ht] at he
  have hread := all_loadConfig w e he
  cases e <;> simp_all [Effect.isStartupRead, Effect.isEngineStart, Effect.isApply,
    Effect.isInterfaceCall, Effect.isRelease]

/-- C14 (witness): a document with Jmin = 10 and Jmax = 5. -/
theorem invalid_parameters_abort_witness :
    (main (worldWith badJitterDocument)).result = .error Fatal.invalidAmnezia
      ∧ (main (worldWith badJitterDocument)).trace
        = (loadConfig (worldWith badJitterDocument)).trace :=
  have h := invalid_parameters_abort (worldWith badJitterDocument)
    { privateKey := "AAAAAAAAAAAAAAAAAAAAAAAAAAAAAAAAAAAAAAAAAAA=", listenPort := 51820,
      fwMark := 0, addresses := [], mtu := 1420, jc := 0, jmin := 10, jmax := 5, s1 := 0,
      s2 := 0, h1 := "", h2 := "", h3 := "", h4 := "" }
    [] Fatal.invalidAmnezia (by decide) (by decide)
  ⟨h.1, h.2.1⟩

/-- C13 (failing input): a configuration file of mode 0700 grants a permission
bit outside 0600, yet it passes the permission check and is parsed; a file of
mode 0644 is rejected before the parse. -/
theorem mode_0700_is_parsed :
    (0o700 &&& 0o177 ≠ 0)
      ∧ Effect.iniLoad defaultConfigFile ∈ (main (worldWithMode 0o700)).trace
      ∧ (main (worldWithMode 0o700)).result = .ok ()
      ∧ (main (worldWithMode 0o644)).result = .error Fatal.insecurePermissions
      ∧ Effect.iniLoad defaultConfigFile ∉ (main (worldWithMode 0o644)).trace := by
  decide

/-- C16 (failing input): when `dev.Up()` fails, or when the engine rejects the
control stream, `main` ends in a fatal exit after the TUN device and the
engine have been created, without attempting a later step, and neither
`dev.Close()` nor `tunDev.Close()` is called. -/
theorem fatal_exit_skips_release :
    (main deviceUpFailsWorld).result = .error Fatal.deviceUp
      ∧ Effect.createTUN "wg0" 1420 ∈ (main deviceUpFailsWorld).trace
      ∧ Effect.newDevice ∈ (main deviceUpFailsWorld).trace
      ∧ Effect.deviceClose ∉ (main deviceUpFailsWorld).trace
      ∧ Effect.tunClose ∉ (main deviceUpFailsWorld).trace
      ∧ (main applyFailsWorld).result = .error Fatal.applyConfig
      ∧ Effect.deviceClose ∉ (main applyFailsWorld).trace
      ∧ Effect.tunClose ∉ (main applyFailsWorld).trace
      ∧ Effect.linkByName "wg0" ∉ (main applyFailsWorld).trace := by
  decide

/-! ## The address loop -/

theorem addedAddresses_append (a b : List Effect) :
    addedAddresses (a ++ b) = addedAddresses a ++ addedAddresses b := by
  induction a with
  | nil => rfl
  | cons e rest ih => cases e <;> simp [addedAddresses, ih]

theorem parsedAddresses_append (a b : List Effect) :
    parsedAddresses (a ++ b) = parsedAddresses a ++ parsedAddresses b := by
  induction a with
  | nil => rfl
  | cons e rest ih => cases e <;> simp [parsedAddresses, ih]

theorem addedAddresses_eq_nil {l : List Effect} (h : ∀ e ∈ l, ∀ a, e ≠ Effect.addrAdd a) :
    addedAddresses l = [] := by
  induction l with
  | nil => rfl
  | cons e rest ih =>
    have hrest := ih (fun x hx => h x (List.mem_cons_of_mem _ hx))
    cases e <;> simp_all [addedAddresses]

theorem addedAddresses_flatMap (addrs : List String) :
    addedAddresses (addrs.flatMap addressEffects) = addrs.map trimSpace := by
  induction addrs with
  | nil => rfl
  | cons a rest ih =>
    rw [List.flatMap_cons, addedAddresses_append, ih]
    rfl

theorem parsedAddresses_flatMap (addrs : List String) :
    parsedAddresses (addrs.flatMap addressEffects) = addrs.map trimSpace := by
  induction addrs with
  | nil => rfl
  | cons a rest ih =>
    rw [List.flatMap_cons, parsedAddresses_append, ih]
    rfl

/-- The address loop when every address is parsed and added. -/
theorem addAddresses_of_all (w : World) : ∀ (addrs : List String),
    (∀ a ∈ addrs, w.parseIPNet (trimSpace a) = true ∧ w.addrAdd (trimSpace a) = true) →
      (addAddresses w addrs).result = .ok ()
        ∧ (addAddresses w addrs).trace = addrs.flatMap addressEffects := by
  intro addrs
  induction addrs with
  | nil => intro _; exact ⟨rfl, rfl⟩
  | cons a rest ih =>
    intro h
    obtain ⟨hp, ha⟩ := h a (List.mem_cons_self _ _)
    obtain ⟨hr, ht⟩ := ih (fun x hx => h x (List.mem_cons_of_mem _ hx))
    rw [addAddresses_cons]
    simp only [hp, ha, if_true, hr, ht, List.flatMap_cons, and_self]

/-- The address loop returns only if every address is parsed and added. -/
theorem addAddresses_ok (w : World) : ∀ (addrs : List String),
    (addAddresses w addrs).result = .ok () →
      ∀ a ∈ addrs, w.parseIPNet (trimSpace a) = true ∧ w.addrAdd (trimSpace a) = true := by
  intro addrs
  induction addrs with
  | nil => intro _ a ha; cases ha
  | cons x rest ih =>
    intro h a ha
    rw [addAddresses_cons] at h
    cases hp : w.parseIPNet (trimSpace x) with
    | false => simp [hp] at h
    | true =>
      cases hadd : w.addrAdd (trimSpace x) with
      | false => simp [hp, hadd] at h
      | true =>
        simp only [hp, hadd, if_true] at h
        rcases List.mem_cons.1 ha with rfl | ha
        · exact ⟨hp, hadd⟩
        · exact ih h a ha

/-- The address loop on a list whose first entry that fails to parse is `bad`:
it stops there; the adds it has made are a prefix of the entries before it. -/
theorem addAddresses_of_bad (w : World) (bad : String) (post : List String)
    (hbad : w.parseIPNet (trimSpace bad) = false) : ∀ (pre : List String),
    (∀ a ∈ pre, w.parseIPNet (trimSpace a) = true) →
      (∃ f, (addAddresses w (pre ++ bad :: post)).result = .error f)
        ∧ parsedAddresses (addAddresses w (pre ++ bad :: post)).trace
            <+: (pre ++ [bad]).map trimSpace
        ∧ addedAddresses (addAddresses w (pre ++ bad :: post)).trace <+: pre.map trimSpace
        ∧ ((∀ a ∈ pre, w.addrAdd (trimSpace a) = true) →
            (addAddresses w (pre ++ bad :: post)).result
                = .error (.invalidAddress (trimSpace bad))
              ∧ (addAddresses w (pre ++ bad :: post)).trace
                = pre.flatMap addressEffects ++ [.parseIPNet (trimSpace bad)]) := by
  intro pre
  induction pre with
  | nil =>
    intro _
    rw [List.nil_append, addAddresses_cons]
    simp [hbad, parsedAddresses, addedAddresses]
  | cons x rest ih =>
    intro h
    have hx := h x (List.mem_cons_self _ _)
    obtain ⟨⟨f, hf⟩, hparsed, hadded, hall⟩ :=
      ih (fun a ha => h a (List.mem_cons_of_mem _ ha))
    rw [List.cons_append, addAddresses_cons]
    cases hadd : w.addrAdd (trimSpace x) with
    | false =>
      simp [hx, hadd, addressEffects, parsedAddresses, addedAddresses]
    | true =>
      simp only [hx, hadd, if_true]
      refine ⟨⟨f, hf⟩, ?_, ?_, ?_⟩
      · rw [parsedAddresses_append]
        simpa [addressEffects, parsedAddresses] using hparsed
      · rw [addedAddresses_append]
        simpa [addressEffects, addedAddresses] using hadded
      · intro hall'
        obtain ⟨hr, ht⟩ := hall (fun a ha => hall' a (List.mem_cons_of_mem _ ha))
        rw [hr, ht]
        simp

theorem linkSetUp_not_mem_addAddresses (w : World) (addrs : List String) :
    Effect.linkSetUp ∉ (addAddresses w addrs).trace := by
  intro h
  have := all_addAddresses w addrs _ h
  simp [Effect.isAddressStep] at this

theorem configureInterface_of_addresses_error {w : World} {c : InterfaceConfig} {f : Fatal}
    (h : (addAddresses w c.addresses).result = .error f) :
    (∃ g, (configureInterface w c).result = .error g)
      ∧ Effect.linkSetUp ∉ (configureInterface w c).trace
      ∧ parsedAddresses (configureInterface w c).trace
          <+: parsedAddresses (addAddresses w c.addresses).trace
      ∧ addedAddresses (configureInterface w c).trace
          <+: addedAddresses (addAddresses w c.addresses).trace
      ∧ (w.linkByName = true → w.linkSetMTU = true →
          (configureInterface w c).result = .error f
            ∧ (configureInterface w c).trace =
                [.linkByName interfaceName, .linkSetMTU c.mtu]
                  ++ (addAddresses w c.addresses).trace) := by
  have hno := linkSetUp_not_mem_addAddresses w c.addresses
  rw [configureInterface_eq]
  cases hL : w.linkByName
  · simp [parsedAddresses, addedAddresses]
  · cases hM : w.linkSetMTU
    · simp [parsedAddresses, addedAddresses]
    · simp only [if_true, h]
      refine ⟨⟨f, rfl⟩, ?_, ?_, ?_, by simp⟩
      · simpa using hno
      · rw [parsedAddresses_append]
        simp [parsedAddresses]
      · rw [addedAddresses_append]
        simp [addedAddresses]

theorem startEngine_linkSetUp_not_mem {w : World} {c : InterfaceConfig}
    {peers : List PeerConfig} (h : Effect.linkSetUp ∉ (configureInterface w c).trace)
    (hr : ∃ g, (configureInterface w c).result = .error g) :
    (∃ f, (startEngine w c peers).result = .error f)
      ∧ Effect.linkSetUp ∉ (startEngine w c peers).trace := by
  by_cases hacc : w.createTUN = true ∧ w.deviceUp = true ∧
      ∃ stream, buildUAPI c peers = .ok stream ∧ w.ipcSet stream = true
  · obtain ⟨hT, hU, stream, hb, hs⟩ := hacc
    obtain ⟨ht, hres⟩ := startEngine_accepted hT hU hb hs
    rw [ht, hres]
    refine ⟨hr, ?_⟩
    intro hmem
    rcases List.mem_append.1 hmem with hmem | hmem
    · simp [engineEffects] at hmem
    · exact h hmem
  · obtain ⟨hres, hall⟩ := startEngine_not_accepted hacc
    refine ⟨hres, fun hmem => ?_⟩
    rcases hall _ hmem with h1 | h1 | h1 | h1 | ⟨s, h1, _⟩ <;> cases h1

/-- C11: when an entry of the address list fails CIDR parsing once trimmed, and
`bad` is the first such entry, the interface-state step ends in a fatal exit
and the link is never set up; the strings parsed are among the entries up to
`bad` and the addresses added among the entries before it, in source order, so
no later entry is parsed or added; when the link lookup, the MTU set and the
adds of the entries before `bad` succeed, the step adds exactly these entries,
trimmed, and fails on `bad`. -/
theorem bad_address_fails_fast (w : World) (c : InterfaceConfig) (pre : List String)
    (bad : String) (post : List String) (hc : c.addresses = pre ++ bad :: post)
    (hpre : ∀ a ∈ pre, w.parseIPNet (trimSpace a) = true)
    (hbad : w.parseIPNet (trimSpace bad) = false) :
    (∃ f, (configureInterface w c).result = .error f)
      ∧ Effect.linkSetUp ∉ (configureInterface w c).trace
      ∧ (∀ peers, (∃ f, (startEngine w c peers).result = .error f)
          ∧ Effect.linkSetUp ∉ (startEngine w c peers).trace)
      ∧ parsedAddresses (configureInterface w c).trace <+: (pre ++ [bad]).map trimSpace
      ∧ addedAddresses (configureInterface w c).trace <+: pre.map trimSpace
      ∧ (w.linkByName = true → w.linkSetMTU = true →
          (∀ a ∈ pre, w.addrAdd (trimSpace a) = true) →
            (configureInterface w c).result = .error (.invalidAddress (trimSpace bad))
              ∧ addedAddresses (configureInterface w c).trace = pre.map trimSpace
              ∧ parsedAddresses (configureInterface w c).trace
                  = (pre ++ [bad]).map trimSpace) := by
  obtain ⟨⟨f, hf⟩, hparsed, hadded, hall⟩ := addAddresses_of_bad w bad post hbad pre hpre
  rw [← hc] at hf hparsed hadded hall
  obtain ⟨hres, hno, hp, ha, hfull⟩ := configureInterface_of_addresses_error hf
  refine ⟨hres, hno, fun peers => startEngine_linkSetUp_not_mem hno hres,
    hp.trans hparsed, ha.trans hadded, ?_⟩
  intro hL hM hadd
  obtain ⟨hr, ht⟩ := hall hadd
  obtain ⟨hr2, ht2⟩ := hfull hL hM
  rw [hr] at hf
  cases hf
  refine ⟨hr2, ?_, ?_⟩
  · rw [ht2, ht, addedAddresses_append, addedAddresses_append, addedAddresses_flatMap]
    simp [addedAddresses]
  · rw [ht2, ht, parsedAddresses_append, parsedAddresses_append, parsedAddresses_flatMap]
    simp [parsedAddresses]

/-- C11 (witness): for the addresses `10.0.0.2/24, bad-cidr` the step adds
10.0.0.2/24, fails on the second entry and does not set the link up. -/
theorem bad_address_fails_fast_witness :
    (configureInterface badCidrWorld badCidrInterface).result
        = .error (.invalidAddress "bad-cidr")
      ∧ addedAddresses (configureInterface badCidrWorld badCidrInterface).trace
        = ["10.0.0.2/24"]
      ∧ Effect.linkSetUp ∉ (configureInterface badCidrWorld badCidrInterface).trace
      ∧ (main badCidrWorld).result = .error (.invalidAddress "bad-cidr")
      ∧ Effect.addrAdd "10.0.0.2/24" ∈ (main badCidrWorld).trace
      ∧ Effect.linkSetUp ∉ (main badCidrWorld).trace :=
  have h := bad_address_fails_fast badCidrWorld badCidrInterface ["10.0.0.2/24"] "bad-cidr" []
    rfl (by decide) (by decide)
  have h2 := h.2.2.2.2.2 rfl rfl (by decide)
  ⟨h2.1, h2.2.1, h.2.1, by decide, by decide, by decide⟩

/-! ## Runs that reach the `Running` state -/

theorem loadConfig_withEvent (w : World) (b : Bool) :
    loadConfig (withEvent w b) = loadConfig w := rfl

theorem started_withEvent {w : World} {c : InterfaceConfig} {peers : List PeerConfig}
    {stream : String} (b : Bool) (h : Started w c peers stream) :
    Started (withEvent w b) c peers stream := h

/-- A run that reaches the `Running` state returns, and its effects are the
startup effects followed by the shutdown effects. -/
theorem main_of_started {w : World} {c : InterfaceConfig} {peers : List PeerConfig}
    {stream : String} (h : Started w c peers stream) :
    (main w).result = .ok ()
      ∧ (main w).trace = startupEffects w c stream ++ shutdownEffects w.engineClosed := by
  obtain ⟨hload, hv, hT, hU, hb, hs, hL, hM, hA, hP⟩ := h
  obtain ⟨ht, hr⟩ := main_of_validate_ok hload hv
  obtain ⟨ht2, hr2⟩ := startEngine_accepted (w := w) hT hU hb hs
  obtain ⟨hAr, hAt⟩ := addAddresses_of_all w c.addresses hA
  rw [ht, hr, ht2, hr2, configureInterface_eq]
  simp only [hL, hM, hP, if_true, hAr, hAt, startupEffects]
  simp

/-- A run that returns has reached the `Running` state. -/
theorem started_of_main_ok {w : World} (h : (main w).result = .ok ()) :
    ∃ c peers stream, Started w c peers stream := by
  cases hload : (loadConfig w).result with
  | error f =>
    rw [(main_of_load_error hload).2] at h
    cases h
  | ok loaded =>
    obtain ⟨c, peers⟩ := loaded
    cases hv : validate c.jmin c.jmax with
    | error f =>
      rw [(main_of_validate_error hload hv).2] at h
      cases h
    | ok u =>
      rw [(main_of_validate_ok hload hv).2] at h
      by_cases hacc : w.createTUN = true ∧ w.deviceUp = true ∧
          ∃ stream, buildUAPI c peers = .ok stream ∧ w.ipcSet stream = true
      · obtain ⟨hT, hU, stream, hb, hs⟩ := hacc
        rw [(startEngine_accepted hT hU hb hs).2, configureInterface_eq] at h
        cases hL : w.linkByName with
        | false => simp [hL] at h
        | true =>
          cases hM : w.linkSetMTU with
          | false => simp [hL, hM] at h
          | true =>
            cases hA : (addAddresses w c.addresses).result with
            | error f => simp [hL, hM, hA] at h
            | ok u2 =>
              cases hP : w.linkSetUp with
              | false => simp [hL, hM, hA, hP] at h
              | true =>
                exact ⟨c, peers, stream, hload, hv, hT, hU, hb, hs, hL, hM,
                  addAddresses_ok w c.addresses hA, hP⟩
      · obtain ⟨⟨f, hf⟩, _⟩ := startEngine_not_accepted hacc
        rw [hf] at h
        cases h

theorem isRelease_of_isStartupRead {e : Effect} (h : e.isStartupRead = true) :
    e.isRelease = false := by
  cases e <;> simp_all [Effect.isStartupRead, Effect.isRelease]

theorem isInterfaceCall_of_isStartupRead {e : Effect} (h : e.isStartupRead = true) :
    e.isInterfaceCall = false := by
  cases e <;> simp_all [Effect.isStartupRead, Effect.isInterfaceCall]

theorem isMutation_of_isStartupRead {e : Effect} (h : e.isStartupRead = true) :
    e.isMutation = false := by
  cases e <;> simp_all [Effect.isStartupRead, Effect.isMutation]

theorem mem_addressEffects_flatMap {addrs : List String} {e : Effect}
    (h : e ∈ addrs.flatMap addressEffects) : e.isAddressStep = true := by
  obtain ⟨a, _, he⟩ := List.mem_flatMap.1 h
  simp only [addressEffects, List.mem_cons, List.mem_singleton, List.not_mem_nil,
    or_false] at he
  rcases he with rfl | rfl | rfl <;> rfl

/-- No handle is released before the link is up. -/
theorem startupEffects_not_release (w : World) (c : InterfaceConfig) (stream : String) :
    ∀ e ∈ startupEffects w c stream, e.isRelease = false := by
  intro e he
  simp only [startupEffects, List.mem_append] at he
  rcases he with (((he | he) | he) | he) | he
  · exact isRelease_of_isStartupRead (all_loadConfig w e he)
  · simp only [engineEffects, List.mem_cons, List.mem_singleton, List.not_mem_nil,
      or_false] at he
    rcases he with rfl | rfl | rfl | rfl | rfl <;> rfl
  · simp only [List.mem_cons, List.mem_singleton, List.not_mem_nil, or_false] at he
    rcases he with rfl | rfl <;> rfl
  · have := mem_addressEffects_flatMap he
    cases e <;> simp_all [Effect.isAddressStep, Effect.isRelease]
  · simp only [List.mem_cons, List.mem_singleton, List.not_mem_nil, or_false] at he
    rcases he with rfl | rfl <;> rfl

/-- C15: from the `Running` state, a termination signal and an engine-closed
notification lead to the same cleanup: both runs return, their effects are the
same up to the one log line that names the event, both end with `dev.Close()`
then `tunDev.Close()`, and no handle is released before, so each handle is
released exactly once, in the same order. -/
theorem shutdown_paths_same_cleanup (w : World) (h : (main w).result = .ok ()) :
    (main (withEvent w false)).result = .ok () ∧ (main (withEvent w true)).result = .ok ()
      ∧ (∃ before,
          (main (withEvent w false)).trace = before ++
            [.log "Received signal, shutting down...", .log "Goodbye.",
              .deviceClose, .tunClose]
          ∧ (main (withEvent w true)).trace = before ++
            [.log "Device closed unexpectedly", .log "Goodbye.", .deviceClose, .tunClose]
          ∧ ∀ e ∈ before, e.isRelease = false)
      ∧ (main (withEvent w false)).trace.filter Effect.isRelease = [.deviceClose, .tunClose]
      ∧ (main (withEvent w true)).trace.filter Effect.isRelease
          = [.deviceClose, .tunClose] := by
  obtain ⟨c, peers, stream, hs⟩ := started_of_main_ok h
  obtain ⟨hr1, ht1⟩ := main_of_started (started_withEvent false hs)
  obtain ⟨hr2, ht2⟩ := main_of_started (started_withEvent true hs)
  have hsame : ∀ b, startupEffects (withEvent w b) c stream = startupEffects w c stream :=
    fun _ => rfl
  rw [hsame] at ht1 ht2
  have hnot := startupEffects_not_release w c stream
  have hfilter : (startupEffects w c stream).filter Effect.isRelease = [] :=
    List.filter_eq_nil_iff.2 (fun e he => by simp [hnot e he])
  refine ⟨hr1, hr2, ⟨startupEffects w c stream ++
    [.log "AmneziaWG interface started successfully.", .signalNotify, .signalNotify],
    ?_, ?_, ?_⟩, ?_, ?_⟩
  · rw [ht1]
    simp [shutdownEffects, withEvent]
  · rw [ht2]
    simp [shutdownEffects, withEvent]
  · intro e he
    rcases List.mem_append.1 he with he | he
    · exact hnot e he
    · simp only [List.mem_cons, List.mem_singleton, List.not_mem_nil, or_false] at he
      rcases he with rfl | rfl | rfl <;> rfl
  · rw [ht1, List.filter_append, hfilter]
    simp [shutdownEffects, Effect.isRelease]
  · rw [ht2, List.filter_append, hfilter]
    simp [shutdownEffects, Effect.isRelease]

/-- C15 (witness): the two shutdowns of the sample world. -/
theorem shutdown_paths_same_cleanup_witness :
    (main (withEvent (worldWith sampleDocument) false)).trace.filter Effect.isRelease
        = [.deviceClose, .tunClose]
      ∧ (main (withEvent (worldWith sampleDocument) true)).trace.filter Effect.isRelease
        = [.deviceClose, .tunClose] :=
  (shutdown_paths_same_cleanup (worldWith sampleDocument) (by decide)).2.2.2

/-! ## The order of the effects -/

theorem mem_before_of_split {X Y before after : List Effect} {a e : Effect}
    (h : X ++ a :: Y = before ++ e :: after) (hX : e ∉ X) (hne : e ≠ a) : a ∈ before := by
  rcases List.append_eq_append_iff.1 h with ⟨m, h1, h2⟩ | ⟨m, h1, h2⟩
  · cases m with
    | nil =>
      simp only [List.nil_append, List.cons.injEq] at h2
      exact absurd h2.1.symm hne
    | cons x m =>
      simp only [List.cons_append, List.cons.injEq] at h2
      rw [h1, h2.1]
      simp
  · cases m with
    | nil =>
      simp only [List.nil_append, List.cons.injEq] at h2
      exact absurd h2.1 hne
    | cons x m =>
      simp only [List.cons_append, List.cons.injEq] at h2
      exfalso
      apply hX
      rw [h1, ← h2.1]
      simp

theorem split_unique {X Y before after : List Effect} {a : Effect}
    (h : X ++ a :: Y = before ++ a :: after) (hX : a ∉ X) (hY : a ∉ Y) : before = X := by
  rcases List.append_eq_append_iff.1 h with ⟨m, h1, h2⟩ | ⟨m, h1, h2⟩
  · cases m with
    | nil => simpa using h1
    | cons x m =>
      simp only [List.cons_append, List.cons.injEq] at h2
      exfalso
      apply hY
      rw [h2.2]
      simp [h2.1]
  · cases m with
    | nil => simpa using h1.symm
    | cons x m =>
      simp only [List.cons_append, List.cons.injEq] at h2
      exfalso
      apply hX
      rw [h1, ← h2.1]
      simp

theorem engineEffects_eq (c : InterfaceConfig) (stream : String) :
    engineEffects c stream =
      [.createTUN interfaceName c.mtu, .newDevice, .deviceUp,
        .log "Applying configuration via UAPI..."] ++ [.ipcSet stream] := rfl

/-- Either `main` makes no network-interface configuration call, or its
effects split at a control stream that the engine accepted, with no such call
before. -/
theorem main_accept_split (w : World) :
    (∀ e ∈ (main w).trace, e.isInterfaceCall = false)
      ∨ ∃ stream X Y, (main w).trace = X ++ Effect.ipcSet stream :: Y
          ∧ (∀ e ∈ X, e.isInterfaceCall = false) ∧ w.ipcSet stream = true := by
  have hload := all_loadConfig w
  cases hl : (loadConfig w).result with
  | error f =>
    left
    intro e he
    rw [(main_of_load_error hl).1] at he
    exact isInterfaceCall_of_isStartupRead (hload e he)
  | ok loaded =>
    obtain ⟨c, peers⟩ := loaded
    cases hv : validate c.jmin c.jmax with
    | error f =>
      left
      intro e he
      rw [(main_of_validate_error hl hv).1] at he
      exact isInterfaceCall_of_isStartupRead (hload e he)
    | ok u =>
      have ht := (main_of_validate_ok hl hv).1
      by_cases hacc : w.createTUN = true ∧ w.deviceUp = true ∧
          ∃ stream, buildUAPI c peers = .ok stream ∧ w.ipcSet stream = true
      · right
        obtain ⟨hT, hU, stream, hb, hs⟩ := hacc
        refine ⟨stream, (loadConfig w).trace ++ [.createTUN interfaceName c.mtu, .newDevice,
          .deviceUp, .log "Applying configuration via UAPI..."],
          (configureInterface w c).trace, ?_, ?_, hs⟩
        · rw [ht, (startEngine_accepted hT hU hb hs).1, engineEffects_eq]
          simp
        · intro e he
          rcases List.mem_append.1 he with he | he
          · exact isInterfaceCall_of_isStartupRead (hload e he)
          · simp only [List.mem_cons, List.mem_singleton, List.not_mem_nil, or_false] at he
            rcases he with rfl | rfl | rfl | rfl <;> rfl
      · left
        intro e he
        rw [ht] at he
        rcases List.mem_append.1 he with he | he
        · exact isInterfaceCall_of_isStartupRead (hload e he)
        · rcases (startEngine_not_accepted hacc).2 e he with
            rfl | rfl | rfl | rfl | ⟨s, rfl, _⟩ <;> rfl

theorem beforeLinkUpEffects_not_linkSetUp (w : World) (c : InterfaceConfig)
    (stream : String) : Effect.linkSetUp ∉ beforeLinkUpEffects w c stream := by
  intro he
  simp only [beforeLinkUpEffects, List.mem_append] at he
  rcases he with (((he | he) | he) | he) | he
  · have := all_loadConfig w _ he
    simp [Effect.isStartupRead] at this
  · simp [engineEffects] at he
  · simp at he
  · have := mem_addressEffects_flatMap he
    simp [Effect.isAddressStep] at this
  · simp at he

theorem addedAddresses_beforeLinkUpEffects (w : World) (c : InterfaceConfig)
    (stream : String) :
    addedAddresses (beforeLinkUpEffects w c stream) = c.addresses.map trimSpace := by
  have hl : addedAddresses (loadConfig w).trace = [] := by
    apply addedAddresses_eq_nil
    intro e he a hea
    have := all_loadConfig w e he
    rw [hea] at this
    simp [Effect.isStartupRead] at this
  simp only [beforeLinkUpEffects, addedAddresses_append, hl, addedAddresses_flatMap]
  simp [engineEffects, addedAddresses]

/-- When `main` sets the link up, its effects up to that call are those of a
run in which every address has been parsed and added. -/
theorem main_linkSetUp_split (w : World) (h : Effect.linkSetUp ∈ (main w).trace) :
    ∃ c peers stream Y, (loadConfig w).result = .ok (c, peers)
      ∧ (∀ a ∈ c.addresses,
          w.parseIPNet (trimSpace a) = true ∧ w.addrAdd (trimSpace a) = true)
      ∧ (main w).trace = beforeLinkUpEffects w c stream ++ Effect.linkSetUp :: Y
      ∧ Effect.linkSetUp ∉ Y := by
  have hload := all_loadConfig w
  have hnotload : Effect.linkSetUp ∉ (loadConfig w).trace := by
    intro he
    have := hload _ he
    simp [Effect.isStartupRead] at this
  cases hl : (loadConfig w).result with
  | error f =>
    rw [(main_of_load_error hl).1] at h
    exact absurd h hnotload
  | ok loaded =>
    obtain ⟨c, peers⟩ := loaded
    cases hv : validate c.jmin c.jmax with
    | error f =>
      rw [(main_of_validate_error hl hv).1] at h
      exact absurd h hnotload
    | ok u =>
      have ht := (main_of_validate_ok hl hv).1
      rw [ht] at h
      have hs : Effect.linkSetUp ∈ (startEngine w c peers).trace :=
        (List.mem_append.1 h).resolve_left hnotload
      by_cases hacc : w.createTUN = true ∧ w.deviceUp = true ∧
          ∃ stream, buildUAPI c peers = .ok stream ∧ w.ipcSet stream = true
      · obtain ⟨hT, hU, stream, hb, hacs⟩ := hacc
        have hte := (startEngine_accepted hT hU hb hacs).1
        rw [hte] at hs
        have hc : Effect.linkSetUp ∈ (configureInterface w c).trace := by
          rcases List.mem_append.1 hs with hs | hs
          · simp [engineEffects] at hs
          · exact hs
        cases hA : (addAddresses w c.addresses).result with
        | error f =>
          exact absurd hc (configureInterface_of_addresses_error hA).2.1
        | ok u2 =>
          have hall := addAddresses_ok w c.addresses hA
          have hAt := (addAddresses_of_all w c.addresses hall).2
          rw [configureInterface_eq] at hc
          have hce := configureInterface_eq w c
          cases hL : w.linkByName with
          | false => simp [hL] at hc
          | true =>
            cases hM : w.linkSetMTU with
            | false => simp [hL, hM] at hc
            | true =>
              cases hP : w.linkSetUp with
              | false =>
                refine ⟨c, peers, stream, [], rfl, hall, ?_, by simp⟩
                rw [ht, hte, hce]
                simp [hL, hM, hA, hP, hAt, beforeLinkUpEffects]
              | true =>
                refine ⟨c, peers, stream, shutdownEffects w.engineClosed, rfl, hall, ?_,
                  by simp [shutdownEffects]⟩
                rw [ht, hte, hce]
                simp [hL, hM, hA, hP, hAt, beforeLinkUpEffects]
      · exfalso
        rcases (startEngine_not_accepted hacc).2 _ hs with
          h1 | h1 | h1 | h1 | ⟨s, h1, _⟩ <;> cases h1

theorem filter_isMutation_loadConfig (w : World) :
    (loadConfig w).trace.filter Effect.isMutation = [] :=
  List.filter_eq_nil_iff.2
    (fun e he => by simp [isMutation_of_isStartupRead (all_loadConfig w e he)])

theorem filter_isMutation_flatMap (addrs : List String) :
    (addrs.flatMap addressEffects).filter Effect.isMutation
      = addrs.map (fun a => Effect.addrAdd (trimSpace a)) := by
  induction addrs with
  | nil => rfl
  | cons a rest ih =>
    rw [List.flatMap_cons, List.filter_append, ih]
    simp [addressEffects, Effect.isMutation]

/-- C12: in a run in which every step succeeds the calls that change the engine
or the interface are, in this order, the apply of the control stream, the MTU
set, the add of each address in source order and the link up; in every run a
network-interface configuration call comes after a control stream that the
engine accepted, and the link up comes after the add of every address. -/
theorem effects_order (w : World) :
    ((main w).result = .ok () →
        ∃ c peers stream, (loadConfig w).result = .ok (c, peers)
          ∧ buildUAPI c peers = .ok stream ∧ w.ipcSet stream = true
          ∧ (main w).trace.filter Effect.isMutation =
              [.ipcSet stream, .linkSetMTU c.mtu]
                ++ c.addresses.map (fun a => Effect.addrAdd (trimSpace a))
                ++ [.linkSetUp])
      ∧ (∀ before e after, (main w).trace = before ++ e :: after →
          e.isInterfaceCall = true →
            ∃ stream, Effect.ipcSet stream ∈ before ∧ w.ipcSet stream = true)
      ∧ (∀ before after, (main w).trace = before ++ Effect.linkSetUp :: after →
          ∃ c peers, (loadConfig w).result = .ok (c, peers)
            ∧ addedAddresses before = c.addresses.map trimSpace
            ∧ ∀ a ∈ c.addresses, w.addrAdd (trimSpace a) = true) := by
  refine ⟨?_, ?_, ?_⟩
  · intro h
    obtain ⟨c, peers, stream, hs⟩ := started_of_main_ok h
    refine ⟨c, peers, stream, hs.1, hs.2.2.2.2.1, hs.2.2.2.2.2.1, ?_⟩
    rw [(main_of_started hs).2]
    simp only [startupEffects, List.filter_append, filter_isMutation_loadConfig,
      filter_isMutation_flatMap]
    simp [engineEffects, shutdownEffects, Effect.isMutation]
  · intro before e after hsplit he
    rcases main_accept_split w with hnone | ⟨stream, X, Y, hXY, hX, hacc⟩
    · have hmem : e ∈ (main w).trace := by rw [hsplit]; simp
      rw [hnone e hmem] at he
      cases he
    · refine ⟨stream, ?_, hacc⟩
      rw [hXY] at hsplit
      refine mem_before_of_split hsplit ?_ ?_
      · intro hmem
        rw [hX e hmem] at he
        cases he
      · intro heq
        rw [heq] at he
        cases he
  · intro before after hsplit
    have hmem : Effect.linkSetUp ∈ (main w).trace := by rw [hsplit]; simp
    obtain ⟨c, peers, stream, Y, hl, hall, ht, hY⟩ := main_linkSetUp_split w hmem
    rw [ht] at hsplit
    have hb := split_unique hsplit (beforeLinkUpEffects_not_linkSetUp w c stream) hY
    refine ⟨c, peers, hl, ?_, fun a ha => (hall a ha).2⟩
    rw [hb, addedAddresses_beforeLinkUpEffects]

/-- C12 (witness): the calls of the run of the sample world. -/
theorem effects_order_witness :
    ∃ c peers stream, (loadConfig (worldWith sampleDocument)).result = .ok (c, peers)
      ∧ buildUAPI c peers = .ok stream ∧ (worldWith sampleDocument).ipcSet stream = true
      ∧ (main (worldWith sampleDocument)).trace.filter Effect.isMutation =
          [.ipcSet stream, .linkSetMTU c.mtu]
            ++ c.addresses.map (fun a => Effect.addrAdd (trimSpace a))
            ++ [.linkSetUp] :=
  (effects_order (worldWith sampleDocument)).1 (by decide)

theorem isRelease_of_isAddressStep {e : Effect} (h : e.isAddressStep = true) :
    e.isRelease = false := by
  cases e <;> simp_all [Effect.isAddressStep, Effect.isRelease]

theorem configureInterface_error_not_release {w : World} {c : InterfaceConfig} {f : Fatal}
    (h : (configureInterface w c).result = .error f) :
    ∀ e ∈ (configureInterface w c).trace, e.isRelease = false := by
  have hA : ∀ e ∈ (addAddresses w c.addresses).trace, e.isRelease = false :=
    fun e he => isRelease_of_isAddressStep (all_addAddresses w c.addresses e he)
  rw [configureInterface_eq] at h ⊢
  cases hL : w.linkByName with
  | false => simp [Effect.isRelease]
  | true =>
    cases hM : w.linkSetMTU with
    | false => simp [Effect.isRelease]
    | true =>
      cases hR : (addAddresses w c.addresses).result with
      | error g =>
        intro e he
        simp only [if_true, List.mem_append, List.mem_cons, List.mem_singleton,
          List.not_mem_nil, or_false] at he
        rcases he with (rfl | rfl) | he
        · rfl
        · rfl
        · exact hA e he
      | ok u =>
        cases hP : w.linkSetUp with
        | true => simp [hL, hM, hR, hP] at h
        | false =>
          intro e he
          simp only [if_true, Bool.false_eq_true, if_false, List.mem_append, List.mem_cons,
            List.mem_singleton, List.not_mem_nil, or_false] at he
          rcases he with ((rfl | rfl) | he) | (rfl | rfl)
          · rfl
          · rfl
          · exact hA e he
          · rfl
          · rfl

/-- A run of `main` that ends in a fatal exit calls neither `dev.Close()` nor
`tunDev.Close()`. -/
theorem main_fatal_not_release (w : World) (f : Fatal) (h : (main w).result = .error f) :
    ∀ e ∈ (main w).trace, e.isRelease = false := by
  have hload : ∀ e ∈ (loadConfig w).trace, e.isRelease = false :=
    fun e he => isRelease_of_isStartupRead (all_loadConfig w e he)
  cases hl : (loadConfig w).result with
  | error g =>
    rw [(main_of_load_error hl).1]
    exact hload
  | ok loaded =>
    obtain ⟨c, peers⟩ := loaded
    cases hv : validate c.jmin c.jmax with
    | error g =>
      rw [(main_of_validate_error hl hv).1]
      exact hload
    | ok u =>
      obtain ⟨ht, hr⟩ := main_of_validate_ok hl hv
      rw [hr] at h
      rw [ht]
      intro e he
      rcases List.mem_append.1 he with he | he
      · exact hload e he
      · by_cases hacc : w.createTUN = true ∧ w.deviceUp = true ∧
            ∃ stream, buildUAPI c peers = .ok stream ∧ w.ipcSet stream = true
        · obtain ⟨hT, hU, stream, hb, hs⟩ := hacc
          obtain ⟨hte, hre⟩ := startEngine_accepted hT hU hb hs
          rw [hre] at h
          rw [hte] at he
          rcases List.mem_append.1 he with he | he
          · simp only [engineEffects, List.mem_cons, List.mem_singleton, List.not_mem_nil,
              or_false] at he
            rcases he with rfl | rfl | rfl | rfl | rfl <;> rfl
          · exact configureInterface_error_not_release h e he
        · rcases (startEngine_not_accepted hacc).2 e he with
            rfl | rfl | rfl | rfl | ⟨s, rfl, _⟩ <;> rfl

/-- The permission check of `main`: the configuration file is parsed exactly
when its mode has no group or other bit (`mode & 0077 == 0`). -/
theorem loadConfig_parse_iff (w : World) (mode : Nat)
    (hs : w.stat (configFileOf w) = some mode) :
    (Effect.iniLoad (configFileOf w) ∈ (loadConfig w).trace ↔ mode &&& 0o077 = 0)
      ∧ (mode &&& 0o077 ≠ 0 → (loadConfig w).result = .error Fatal.insecurePermissions) := by
  unfold loadConfig
  unfold configFileOf at hs ⊢
  by_cases hm : mode &&& 0o077 = 0
  · simp only [hs, hm, ne_eq, not_true_eq_false, if_false, iff_true, false_implies, and_true]
    simp only [bind, Run.bind, emit]
    simp
  · simp [hs, hm, bind, Run.bind, emit, fatal]

/-! ## `toHex` and valid base64 -/

theorem decodeMap_of_isNewline {c : Char} (h : isNewline c = true) : decodeMap c = none :=
  decodeMap_of_isSpace (isSpace_of_isNewline h)

theorem skipNewlines_eq_nil_iff (l : List Char) :
    skipNewlines l = [] ↔ l.filter (fun c => !isNewline c) = [] := by
  induction l with
  | nil => simp [skipNewlines]
  | cons x t ih =>
    rw [skipNewlines_cons]
    by_cases hx : isNewline x = true
    · simp [hx, ih]
    · simp [hx]

theorem filter_skipNewlines (l : List Char) :
    (skipNewlines l).filter (fun c => !isNewline c) = l.filter (fun c => !isNewline c) := by
  induction l with
  | nil => rfl
  | cons x t ih =>
    rw [skipNewlines_cons]
    by_cases hx : isNewline x = true
    · simp [hx, ih]
    · simp [hx]

theorem skipNewlines_head {l r : List Char} {c : Char} (h : skipNewlines l = c :: r) :
    isNewline c = false := by
  have hne : l.dropWhile isNewline ≠ [] := by
    intro hn
    rw [skipNewlines, hn] at h
    cases h
  have := List.head_dropWhile_not isNewline l hne
  have hh : (l.dropWhile isNewline).head hne = c := by
    simp only [skipNewlines] at h
    simp [h]
  rw [hh] at this
  simpa using this

theorem decodePadding_isSome_iff (dbuf : List Nat) (rest : List Char) :
    (decodePadding dbuf rest).isSome = true ↔
      ((dbuf.length == 2 && (match rest.filter (fun c => !isNewline c) with
          | [c2] => isPad c2
          | _ => false))
        || (dbuf.length == 3 && (rest.filter (fun c => !isNewline c)).isEmpty)) = true := by
  unfold decodePadding
  by_cases h2 : dbuf.length = 2
  · simp only [h2, if_true, beq_self_eq_true, Bool.true_and, Nat.reduceBEq, Bool.false_and,
      Bool.or_false]
    cases hs : skipNewlines rest with
    | nil =>
      have := (skipNewlines_eq_nil_iff rest).1 hs
      simp [this]
    | cons c2 rest2 =>
      have hc2 := skipNewlines_head hs
      have hf := filter_skipNewlines rest
      rw [hs] at hf
      simp only [List.filter_cons, hc2, Bool.not_false, if_true] at hf
      rw [← hf]
      by_cases hp : isPad c2 = true
      · by_cases hr : skipNewlines rest2 = []
        · have := (skipNewlines_eq_nil_iff rest2).1 hr
          simp [hp, hr, this]
        · have hr' : rest2.filter (fun c => !isNewline c) ≠ [] :=
            fun hn => hr ((skipNewlines_eq_nil_iff rest2).2 hn)
          cases hf2 : rest2.filter (fun c => !isNewline c) with
          | nil => exact absurd hf2 hr'
          | cons y ys => simp [hp, hr]
      · cases hf2 : rest2.filter (fun c => !isNewline c) <;> simp [hp]
  · by_cases h3 : dbuf.length = 3
    · simp only [h3, Nat.reduceEqDiff, if_false, if_true, Nat.reduceBEq, Bool.false_and,
        Bool.false_or, beq_self_eq_true, Bool.true_and]
      by_cases hr : skipNewlines rest = []
      · have := (skipNewlines_eq_nil_iff rest).1 hr
        simp [hr, this]
      · have hr' : rest.filter (fun c => !isNewline c) ≠ [] :=
          fun hn => hr ((skipNewlines_eq_nil_iff rest).2 hn)
        simp [hr, hr']
    · simp [h2, h3]

/-- The decoder accepts exactly the valid padded base64 strings, line breaks
being ignored. -/
theorem decodeLoop_isSome_iff : ∀ (l : List Char) (dbuf out : List Nat),
    dbuf.length ≤ 3 →
      ((decodeLoop dbuf out l).isSome = true ↔
        validQuanta dbuf.length (l.filter (fun c => !isNewline c)) = true) := by
  intro l
  induction l with
  | nil =>
    intro dbuf out _
    cases dbuf <;> simp [decodeLoop, validQuanta]
  | cons x t ih =>
    intro dbuf out hlen
    rw [decodeLoop_cons]
    cases hx : decodeMap x with
    | some v =>
      have hnl : isNewline x = false := by
        cases hn : isNewline x with
        | false => rfl
        | true =>
          rw [decodeMap_of_isNewline hn] at hx
          cases hx
      have halpha : isAlphabet x = true := by simp [isAlphabet, hx]
      simp only [List.filter_cons, hnl, Bool.not_false, if_true, validQuanta, halpha]
      by_cases h3 : dbuf.length = 3
      · simp only [h3, if_true]
        exact ih [] _ (by simp)
      · simp only [h3, if_false]
        have := ih (dbuf ++ [v]) out (by simp; omega)
        simpa using this
    | none =>
      have halpha : isAlphabet x = false := by simp [isAlphabet, hx]
      by_cases hn : isNewline x = true
      · simp only [hn, if_true, List.filter_cons, Bool.not_true, Bool.false_eq_true,
          if_false]
        exact ih dbuf out hlen
      · have hn' : isNewline x = false := by simpa using hn
        simp only [hn', Bool.false_eq_true, if_false, List.filter_cons, Bool.not_false,
          if_true, validQuanta, halpha]
        by_cases hp : isPad x = true
        · simp only [hp, if_true, Option.isSome_map', Bool.true_and]
          rw [decodePadding_isSome_iff]
        · simp [hp]

theorem decodeString_isSome_iff (s : String) :
    (decodeString s).isSome = true ↔ validBase64 s = true :=
  decodeLoop_isSome_iff s.data [] [] (by simp)

theorem trimChars_idempotent (l : List Char) : trimChars (trimChars l) = trimChars l := by
  have hdrop : (trimChars l).dropWhile isSpace = trimChars l := by
    cases ht : trimChars l with
    | nil => rfl
    | cons c r =>
      have := trimChars_head_not_space ht
      simp [List.dropWhile_cons, this]
  show List.rdropWhile isSpace ((trimChars l).dropWhile isSpace) = trimChars l
  rw [hdrop]
  exact List.rdropWhile_idempotent isSpace (l.dropWhile isSpace)

theorem trimSpace_idempotent (s : String) : trimSpace (trimSpace s) = trimSpace s := by
  simp only [trimSpace, trimChars_idempotent]

/-- C17: `toHex` fails, and then with the decoding failure, exactly when its
input trimmed of surrounding white space is non-empty and is not a valid
standard padded base64 string; for an input that is empty or all white space
it returns the empty string; and `toHex` of the trimmed input is `toHex` of
the input. -/
theorem toHex_fails_iff (s : String) :
    ((∃ f, toHex s = .error f) ↔ (trimSpace s ≠ "" ∧ validBase64 (trimSpace s) = false))
      ∧ ((∃ f, toHex s = .error f) ↔ toHex s = .error Fatal.decodeKey)
      ∧ (trimSpace s = "" → toHex s = .ok "")
      ∧ toHex (trimSpace s) = toHex s := by
  have hfail : (∃ f, toHex s = .error f) ↔
      (trimSpace s ≠ "" ∧ validBase64 (trimSpace s) = false) := by
    by_cases he : trimSpace s = ""
    · rw [toHex_of_trim_empty he]
      simp [he]
    · rw [toHex_of_trim_ne he]
      have hiff := decodeString_isSome_iff (trimSpace s)
      cases hd : decodeString (trimSpace s) with
      | none =>
        rw [hd] at hiff
        have hv : validBase64 (trimSpace s) = false := by
          cases hvb : validBase64 (trimSpace s) with
          | false => rfl
          | true => exact absurd (hiff.2 hvb) (by simp)
        simp [he, hv]
      | some bytes =>
        rw [hd] at hiff
        have hv : validBase64 (trimSpace s) = true := hiff.1 rfl
        simp [hv]
  refine ⟨hfail, ?_, toHex_of_trim_empty, ?_⟩
  · constructor
    · rintro ⟨f, hf⟩
      rw [hf, toHex_error hf]
    · intro h
      exact ⟨_, h⟩
  · unfold toHex
    simp only [trimSpace_idempotent]

/-! ## The text of the stream -/

theorem foldl_append_data (l : List String) (acc : String) :
    (l.foldl (fun r s => r ++ s) acc).data = acc.data ++ (l.map String.data).flatten := by
  induction l generalizing acc with
  | nil => simp
  | cons s rest ih =>
    rw [List.foldl_cons, ih, String.data_append]
    simp

theorem render_data (l : Line) : l.render.data = lineChars l := by
  simp [Line.render, lineChars, String.data_append]

/-- The text of the stream is the concatenation of its lines, each written as
key, `=`, value, newline. -/
theorem renderLines_data (lines : List Line) :
    (renderLines lines).data = (lines.map lineChars).flatten := by
  unfold renderLines String.join
  rw [foldl_append_data]
  simp only [List.map_map]
  have : (String.data ∘ Line.render) = lineChars := funext render_data
  rw [this]
  rfl

theorem count_newline_lines : ∀ (lines : List Line),
    (∀ l ∈ lines, '\n' ∉ l.key.data ∧ '\n' ∉ l.value.data) →
      ((lines.map lineChars).flatten).count '\n' = lines.length := by
  intro lines
  induction lines with
  | nil => intro _; rfl
  | cons l rest ih =>
    intro h
    obtain ⟨hk, hv⟩ := h l (List.mem_cons_self _ _)
    have ihr := ih (fun x hx => h x (List.mem_cons_of_mem _ hx))
    simp only [List.map_cons, List.flatten_cons, List.count_append, ihr, lineChars,
      List.length_cons]
    rw [List.count_eq_zero.2 hk]
    simp [List.count_cons, List.count_eq_zero.2 hv]
    omega

theorem hexDigit_ne_newline : ∀ n, n < 16 → hexDigit n ≠ '\n' := by decide

theorem newline_not_mem_hexChars (bytes : List Nat) : '\n' ∉ hexChars bytes := by
  induction bytes with
  | nil => simp [hexChars]
  | cons b bs ih =>
    intro h
    simp only [hexChars, hexByte, List.cons_append, List.nil_append, List.mem_cons] at h
    rcases h with h | h | h
    · exact hexDigit_ne_newline _ (Nat.mod_lt _ (by decide)) h.symm
    · exact hexDigit_ne_newline _ (Nat.mod_lt _ (by decide)) h.symm
    · exact ih h

theorem newline_not_mem_toHex {s hexKey : String} (h : toHex s = .ok hexKey) :
    '\n' ∉ hexKey.data := by
  by_cases he : trimSpace s = ""
  · rw [toHex_of_trim_empty he] at h
    rw [← Except.ok.inj h]
    simp
  · rw [toHex_of_trim_ne he] at h
    cases hd : decodeString (trimSpace s) with
    | none => simp [hd] at h
    | some bytes =>
      simp only [hd, Except.ok.injEq] at h
      rw [← h]
      exact newline_not_mem_hexChars bytes

theorem digitChar_ne_newline : ∀ d, d < 10 → Nat.digitChar d ≠ '\n' := by decide

theorem newline_not_mem_toDigitsCore : ∀ (fuel n : Nat) (ds : List Char),
    '\n' ∉ ds → '\n' ∉ Nat.toDigitsCore 10 fuel n ds := by
  intro fuel
  induction fuel with
  | zero => intro n ds h; simpa [Nat.toDigitsCore] using h
  | succ fuel ih =>
    intro n ds h
    have hd : '\n' ∉ Nat.digitChar (n % 10) :: ds := by
      intro hm
      rcases List.mem_cons.1 hm with hm | hm
      · exact digitChar_ne_newline _ (Nat.mod_lt _ (by decide)) hm.symm
      · exact h hm
    simp only [Nat.toDigitsCore]
    split
    · exact hd
    · exact ih _ _ hd

theorem newline_not_mem_fmtInt (v : Int) : '\n' ∉ (fmtInt v).data := by
  have hrepr : ∀ n : Nat, '\n' ∉ (Nat.repr n).data := by
    intro n
    show '\n' ∉ Nat.toDigits 10 n
    exact newline_not_mem_toDigitsCore _ _ _ (by simp)
  unfold fmtInt
  split
  · rw [String.data_append]
    intro h
    rcases List.mem_append.1 h with h | h
    · revert h
      decide
    · exact hrepr _ h
  · exact hrepr _

theorem newline_not_mem_trimSpace {s : String} (h : '\n' ∉ s.data) :
    '\n' ∉ (trimSpace s).data := by
  intro hm
  apply h
  have h1 : trimChars s.data <+: s.data.dropWhile isSpace := List.rdropWhile_prefix _ _
  have h2 : s.data.dropWhile isSpace <:+ s.data := List.dropWhile_suffix _
  exact h2.subset (h1.subset hm)

theorem mem_intLine_value {key : String} {v : Int} {l : Line} (h : l ∈ intLine key v) :
    l = ⟨key, fmtInt v⟩ ∧ v ≠ 0 := by
  unfold intLine at h
  split at h
  · rename_i hv
    exact ⟨by simpa using h, hv⟩
  · simp at h

theorem mem_strLine_value {key v : String} {l : Line} (h : l ∈ strLine key v) :
    l = ⟨key, v⟩ ∧ v ≠ "" := by
  unfold strLine at h
  by_cases hv : v = ""
  · simp [hv] at h
  · simp only [ne_eq, hv, not_false_eq_true, if_true, List.mem_singleton] at h
    exact ⟨h, hv⟩

/-- The lines of the interface part, one by one. -/
theorem mem_interfaceLinesWith_value {hexKey : String} {c : InterfaceConfig} {l : Line}
    (h : l ∈ interfaceLinesWith hexKey c) :
    l = ⟨"private_key", hexKey⟩ ∨ l = ⟨"listen_port", fmtInt c.listenPort⟩
      ∨ (l = ⟨"fwmark", fmtInt c.fwMark⟩ ∧ c.fwMark ≠ 0)
      ∨ (l.key ∈ ["jc", "jmin", "jmax", "s1", "s2"] ∧ ∃ v : Int, l.value = fmtInt v)
      ∨ (l.key ∈ ["h1", "h2", "h3", "h4"] ∧ l.value ∈ [c.h1, c.h2, c.h3, c.h4]) := by
  simp only [interfaceLinesWith, List.mem_append, List.mem_cons, List.mem_singleton,
    List.not_mem_nil, or_false] at h
  rcases h with ((((((((((h | h) | h) | h) | h) | h) | h) | h) | h) | h) | h) | h
  · exact Or.inl h
  · exact Or.inr (Or.inl h)
  · exact Or.inr (Or.inr (Or.inl (mem_intLine_value h)))
  · rw [(mem_intLine_value h).1]
    exact Or.inr (Or.inr (Or.inr (Or.inl ⟨by simp, _, rfl⟩)))
  · rw [(mem_intLine_value h).1]
    exact Or.inr (Or.inr (Or.inr (Or.inl ⟨by simp, _, rfl⟩)))
  · rw [(mem_intLine_value h).1]
    exact Or.inr (Or.inr (Or.inr (Or.inl ⟨by simp, _, rfl⟩)))
  · rw [(mem_intLine_value h).1]
    exact Or.inr (Or.inr (Or.inr (Or.inl ⟨by simp, _, rfl⟩)))
  · rw [(mem_intLine_value h).1]
    exact Or.inr (Or.inr (Or.inr (Or.inl ⟨by simp, _, rfl⟩)))
  · rw [(mem_strLine_value h).1]
    exact Or.inr (Or.inr (Or.inr (Or.inr ⟨by simp, by simp⟩)))
  · rw [(mem_strLine_value h).1]
    exact Or.inr (Or.inr (Or.inr (Or.inr ⟨by simp, by simp⟩)))
  · rw [(mem_strLine_value h).1]
    exact Or.inr (Or.inr (Or.inr (Or.inr ⟨by simp, by simp⟩)))
  · rw [(mem_strLine_value h).1]
    exact Or.inr (Or.inr (Or.inr (Or.inr ⟨by simp, by simp⟩)))

/-- The lines of a peer block, one by one. -/
theorem mem_peerLines_value {p : PeerConfig} {block : List Line}
    (hb : peerLines p = .ok block) {l : Line} (h : l ∈ block) :
    (l.key = "public_key" ∧ toHex p.publicKey = .ok l.value) ∨
      (l.key = "preshared_key" ∧ toHex p.presharedKey = .ok l.value) ∨
      l = ⟨"endpoint", p.endpoint⟩ ∨
      l = ⟨"persistent_keepalive_interval", fmtInt p.keepalive⟩ ∨
      (l.key = "allowed_ip" ∧ ∃ ip ∈ p.allowedIPs, l.value = trimSpace ip) := by
  obtain ⟨hexPub, psk, hpub, hpsk, rfl⟩ := peerLines_ok hb
  simp only [List.mem_append, List.mem_singleton] at h
  rcases h with (((h | h) | h) | h) | h
  · rw [h]
    exact Or.inl ⟨rfl, hpub⟩
  · rcases presharedLines_ok hpsk with ⟨_, rfl⟩ | ⟨_, hexKey, hk, rfl⟩
    · simp at h
    · simp only [List.mem_singleton] at h
      rw [h]
      exact Or.inr (Or.inl ⟨rfl, hk⟩)
  · exact Or.inr (Or.inr (Or.inl (mem_strLine_value h).1))
  · exact Or.inr (Or.inr (Or.inr (Or.inl (mem_intLine_value h).1)))
  · exact Or.inr (Or.inr (Or.inr (Or.inr (mem_allowedIPLines h))))

theorem length_optionalKey (present : Bool) (key : String) :
    (optionalKey present key).length = if present = true then 1 else 0 := by
  cases present <;> rfl

theorem length_expectedInterfaceKeys (c : InterfaceConfig) :
    (expectedInterfaceKeys c).length = 2 + optionalFieldCount c := by
  simp only [expectedInterfaceKeys, optionalFieldCount, List.length_append,
    length_optionalKey, List.length_cons, List.length_nil, bne_iff_ne, ne_eq]
  omega

theorem length_expectedPeerKeys (p : PeerConfig) :
    (expectedPeerKeys p).length = peerLineCount p := by
  simp only [expectedPeerKeys, expectedPeerOptionalKeys, peerLineCount, List.length_append,
    length_optionalKey, List.length_cons, List.length_replicate, bne_iff_ne, ne_eq]
  omega

theorem length_flatten_expectedPeerKeys (peers : List PeerConfig) :
    ((peers.map expectedPeerKeys).flatten).length = (peers.map peerLineCount).sum := by
  induction peers with
  | nil => rfl
  | cons p ps ih =>
    simp only [List.map_cons, List.flatten_cons, List.length_append, ih,
      length_expectedPeerKeys, List.sum_cons]

/-- The number of lines of a built stream. -/
theorem length_buildLines {c : InterfaceConfig} {peers : List PeerConfig} {lines : List Line}
    (h : buildLines c peers = .ok lines) :
    lines.length = 2 + optionalFieldCount c + (peers.map peerLineCount).sum := by
  have hk := keysOf_buildLines h
  have hl : lines.length = (keysOf lines).length := by simp [keysOf]
  rw [hl, hk, List.length_append, length_expectedInterfaceKeys,
    length_flatten_expectedPeerKeys]

theorem peer_of_block {peers : List PeerConfig} {blocks : List (List Line)}
    (h : List.Forall₂ (fun p block => peerLines p = .ok block) peers blocks) :
    ∀ block ∈ blocks, ∃ p ∈ peers, peerLines p = .ok block := by
  induction h with
  | nil => intro block hb; cases hb
  | cons hp _ ih =>
    intro block hb
    rcases List.mem_cons.1 hb with rfl | hb
    · exact ⟨_, List.mem_cons_self _ _, hp⟩
    · obtain ⟨p, hpm, hpl⟩ := ih block hb
      exact ⟨p, List.mem_cons_of_mem _ hpm, hpl⟩

theorem protocolKeys_plain :
    ∀ k ∈ protocolKeys, '\n' ∉ k.data ∧ '=' ∉ k.data := by
  decide

theorem key_mem_protocolKeys {c : InterfaceConfig} {peers : List PeerConfig}
    {lines : List Line} (h : buildLines c peers = .ok lines) :
    ∀ l ∈ lines, l.key ∈ protocolKeys := by
  intro l hl
  have hk : l.key ∈ keysOf lines := List.mem_map_of_mem _ hl
  rw [keysOf_buildLines h] at hk
  rcases List.mem_append.1 hk with hk | hk
  · exact List.mem_append_left _ ((expectedInterfaceKeys_sublist c).subset hk)
  · obtain ⟨ks, hks, hmem⟩ := List.mem_flatten.1 hk
    obtain ⟨p, _, rfl⟩ := List.mem_map.1 hks
    exact List.mem_append_right _ (mem_expectedPeerKeys hmem)

/-- C18: when h1..h4, the endpoints and the allowed-IP entries contain no
newline character, the text of the built stream is the concatenation of its
lines, each being key, `=`, value and one terminating newline, with a key of
the protocol key set and no newline inside the key or the value; the number of
lines, which is the number of newline characters of the text, is
2 + the number of non-zero / non-empty optional interface fields + for each
peer 1 + one per non-empty preshared key, non-empty endpoint and non-zero
keepalive + the number of allowed-IP entries. -/
theorem stream_is_lines (c : InterfaceConfig) (peers : List PeerConfig) (lines : List Line)
    (h : buildLines c peers = .ok lines)
    (hh : '\n' ∉ c.h1.data ∧ '\n' ∉ c.h2.data ∧ '\n' ∉ c.h3.data ∧ '\n' ∉ c.h4.data)
    (hp : ∀ p ∈ peers, '\n' ∉ p.endpoint.data ∧ ∀ ip ∈ p.allowedIPs, '\n' ∉ ip.data) :
    buildUAPI c peers = .ok (renderLines lines)
      ∧ (renderLines lines).data = (lines.map lineChars).flatten
      ∧ (∀ l ∈ lines, l.key ∈ protocolKeys ∧ '\n' ∉ l.key.data ∧ '=' ∉ l.key.data
          ∧ '\n' ∉ l.value.data)
      ∧ lines.length = 2 + optionalFieldCount c + (peers.map peerLineCount).sum
      ∧ (renderLines lines).data.count '\n'
          = 2 + optionalFieldCount c + (peers.map peerLineCount).sum := by
  have hkeys := key_mem_protocolKeys h
  have hvalues : ∀ l ∈ lines, '\n' ∉ l.value.data := by
    obtain ⟨iface, blocks, hi, hb, rfl⟩ := buildLines_ok h
    obtain ⟨hexKey, hkey, hw⟩ := interfaceLines_ok hi
    intro l hl
    rcases List.mem_append.1 hl with hl | hl
    · rw [hw] at hl
      rcases mem_interfaceLinesWith_value hl with rfl | rfl | ⟨rfl, _⟩ | ⟨_, v, hv⟩ | ⟨_, hv⟩
      · exact newline_not_mem_toHex hkey
      · exact newline_not_mem_fmtInt _
      · exact newline_not_mem_fmtInt _
      · rw [hv]
        exact newline_not_mem_fmtInt _
      · simp only [List.mem_cons, List.mem_singleton, List.not_mem_nil, or_false] at hv
        rcases hv with hv | hv | hv | hv <;> rw [hv]
        · exact hh.1
        · exact hh.2.1
        · exact hh.2.2.1
        · exact hh.2.2.2
    · obtain ⟨block, hblock, hlb⟩ := List.mem_flatten.1 hl
      obtain ⟨p, hpm, hpl⟩ := peer_of_block (peerBlocks_ok hb) block hblock
      rcases mem_peerLines_value hpl hlb with
        ⟨_, hv⟩ | ⟨_, hv⟩ | rfl | rfl | ⟨_, ip, hip, hv⟩
      · exact newline_not_mem_toHex hv
      · exact newline_not_mem_toHex hv
      · exact (hp p hpm).1
      · exact newline_not_mem_fmtInt _
      · rw [hv]
        exact newline_not_mem_trimSpace ((hp p hpm).2 ip hip)
  have hlen := length_buildLines h
  refine ⟨by simp [buildUAPI, h], renderLines_data lines, ?_, hlen, ?_⟩
  · intro l hl
    have hk := hkeys l hl
    exact ⟨hk, (protocolKeys_plain _ hk).1, (protocolKeys_plain _ hk).2, hvalues l hl⟩
  · rw [renderLines_data, count_newline_lines lines
      (fun l hl => ⟨(protocolKeys_plain _ (hkeys l hl)).1, hvalues l hl⟩), hlen]

/-- C18 (witness): the stream of the sample interface and the sample peer has
nine lines. -/
theorem stream_is_lines_witness :
    buildUAPI sampleInterface [samplePeer] = .ok (renderLines sampleLines)
      ∧ (renderLines sampleLines).data.count '\n' = 9 :=
  have h := stream_is_lines sampleInterface [samplePeer] sampleLines (by decide) (by decide)
    (by decide)
  ⟨h.1, h.2.2.2.2.trans (by decide)⟩

/-! ## The numbers of the stream -/

/-- C19 (counterexample): with `ListenPort = 70000` and `FwMark = -5` in the
document, `main` builds and applies a stream with the lines
`listen_port=70000` and `fwmark=-5`, and startup completes when the engine
accepts the stream. -/
theorem out_of_range_numbers_reach_stream :
    Effect.ipcSet "private_key=000000\nlisten_port=70000\nfwmark=-5\n"
        ∈ (main (worldWith outOfRangeDocument)).trace
      ∧ (main (worldWith outOfRangeDocument)).result = .ok ()
      ∧ ¬ ((0 : Int) ≤ 70000 ∧ (70000 : Int) ≤ 65535) ∧ ¬ ((1 : Int) ≤ -5) := by
  decide

/-- The lines written by the builder: the value of the listen_port line is the
decimal text of the integer `MustInt` returns for `ListenPort` (51820 when the
integer parser reports an error),
and an fwmark line is written exactly when the integer read from `FwMark` is
not zero, its value being the decimal text of that integer; the integers are
not checked against a range. -/
theorem numbers_written_unchecked (c : InterfaceConfig) (peers : List PeerConfig)
    (lines : List Line) (h : buildLines c peers = .ok lines) :
    (⟨"listen_port", fmtInt c.listenPort⟩ : Line) ∈ lines
      ∧ (∀ l ∈ lines, l.key = "listen_port" → l.value = fmtInt c.listenPort)
      ∧ (c.fwMark ≠ 0 ↔ (⟨"fwmark", fmtInt c.fwMark⟩ : Line) ∈ lines)
      ∧ (∀ l ∈ lines, l.key = "fwmark" → l.value = fmtInt c.fwMark ∧ c.fwMark ≠ 0)
      ∧ (∀ (w : World) (privateKey : String) (s : IniSection),
          (readInterface w privateKey s).listenPort = s.mustInt w.parseInt "ListenPort" 51820
            ∧ (readInterface w privateKey s).fwMark = s.mustInt w.parseInt "FwMark" 0) := by
  obtain ⟨iface, blocks, hi, hb, rfl⟩ := buildLines_ok h
  obtain ⟨hexKey, hkey, hw⟩ := interfaceLines_ok hi
  have hpeer : ∀ l ∈ blocks.flatten, l.key ≠ "listen_port" ∧ l.key ≠ "fwmark" := by
    intro l hl
    obtain ⟨block, hblock, hlb⟩ := List.mem_flatten.1 hl
    obtain ⟨p, _, hpl⟩ := peer_of_block (peerBlocks_ok hb) block hblock
    have hk : l.key ∈ keysOf block := List.mem_map_of_mem _ hlb
    rw [keysOf_peerLines hpl] at hk
    have := mem_expectedPeerKeys hk
    simp only [List.mem_cons, List.mem_singleton, List.not_mem_nil, or_false] at this
    rcases this with h1 | h1 | h1 | h1 | h1 <;> rw [h1] <;> decide
  have hiface : ∀ l ∈ iface, (l.key = "listen_port" → l.value = fmtInt c.listenPort)
      ∧ (l.key = "fwmark" → l.value = fmtInt c.fwMark ∧ c.fwMark ≠ 0) := by
    intro l hl
    rw [hw] at hl
    rcases mem_interfaceLinesWith_value hl with
      rfl | rfl | ⟨rfl, h0⟩ | ⟨hk, _⟩ | ⟨hk, _⟩
    · exact ⟨fun hc => absurd (show "private_key" = "listen_port" from hc) (by decide),
        fun hc => absurd (show "private_key" = "fwmark" from hc) (by decide)⟩
    · exact ⟨fun _ => rfl, fun hc => absurd (show "listen_port" = "fwmark" from hc) (by decide)⟩
    · exact ⟨fun hc => absurd (show "fwmark" = "listen_port" from hc) (by decide),
        fun _ => ⟨rfl, h0⟩⟩
    · simp only [List.mem_cons, List.mem_singleton, List.not_mem_nil, or_false] at hk
      rcases hk with h1 | h1 | h1 | h1 | h1 <;> rw [h1] <;>
        exact ⟨fun hc => absurd hc (by decide), fun hc => absurd hc (by decide)⟩
    · simp only [List.mem_cons, List.mem_singleton, List.not_mem_nil, or_false] at hk
      rcases hk with h1 | h1 | h1 | h1 <;> rw [h1] <;>
        exact ⟨fun hc => absurd hc (by decide), fun hc => absurd hc (by decide)⟩
  refine ⟨?_, ?_, ?_, ?_, fun _ _ _ => ⟨rfl, rfl⟩⟩
  · apply List.mem_append_left
    rw [hw]
    simp [interfaceLinesWith]
  · intro l hl hk
    rcases List.mem_append.1 hl with hl | hl
    · exact (hiface l hl).1 hk
    · exact absurd hk (hpeer l hl).1
  · constructor
    · intro h0
      apply List.mem_append_left
      rw [hw]
      simp [interfaceLinesWith, intLine, h0]
    · intro hl
      rcases List.mem_append.1 hl with hl | hl
      · exact ((hiface _ hl).2 rfl).2
      · exact absurd rfl (hpeer _ hl).2
  · intro l hl hk
    rcases List.mem_append.1 hl with hl | hl
    · exact (hiface l hl).2 hk
    · exact absurd hk (hpeer l hl).2

/-! ## The lines of the stream text -/

theorem splitLines_append_newline : ∀ (s rest : List Char), '\n' ∉ s →
    splitLines (s ++ '\n' :: rest) = s :: splitLines rest := by
  intro s
  induction s with
  | nil => intro rest _; simp [splitLines]
  | cons ch s ih =>
    intro rest h
    have hch : ch ≠ '\n' := fun hc => h (by simp [hc])
    have hs : '\n' ∉ s := fun hm => h (List.mem_cons_of_mem _ hm)
    rw [List.cons_append, splitLines, if_neg hch, ih rest hs]

theorem takeWhile_key (k v : List Char) (h : '=' ∉ k) :
    (k ++ '=' :: v).takeWhile (fun ch => ch != '=') = k := by
  induction k with
  | nil => simp
  | cons ch k ih =>
    have hch : ch ≠ '=' := fun hc => h (by simp [hc])
    have hk : '=' ∉ k := fun hm => h (List.mem_cons_of_mem _ hm)
    simp [List.takeWhile_cons, hch, ih hk]

theorem dropWhile_key (k v : List Char) (h : '=' ∉ k) :
    (k ++ '=' :: v).dropWhile (fun ch => ch != '=') = '=' :: v := by
  induction k with
  | nil => simp
  | cons ch k ih =>
    have hch : ch ≠ '=' := fun hc => h (by simp [hc])
    have hk : '=' ∉ k := fun hm => h (List.mem_cons_of_mem _ hm)
    simp [List.dropWhile_cons, hch, ih hk]

theorem parseLine_key_value (l : Line) (h : '=' ∉ l.key.data) :
    parseLine (l.key.data ++ '=' :: l.value.data) = l := by
  unfold parseLine
  rw [takeWhile_key _ _ h, dropWhile_key _ _ h]
  rfl

/-- Reading back the text of a sequence of lines gives the lines, when no key
holds `=` or a newline and no value holds a newline. -/
theorem streamLines_renderLines : ∀ (lines : List Line),
    (∀ l ∈ lines, '\n' ∉ l.key.data ∧ '=' ∉ l.key.data ∧ '\n' ∉ l.value.data) →
      streamLines (renderLines lines) = lines := by
  intro lines h
  unfold streamLines
  rw [renderLines_data]
  induction lines with
  | nil => rfl
  | cons l rest ih =>
    obtain ⟨hk, he, hv⟩ := h l (List.mem_cons_self _ _)
    have hrest := ih (fun x hx => h x (List.mem_cons_of_mem _ hx))
    have hline : lineChars l = (l.key.data ++ '=' :: l.value.data) ++ '\n' :: [] := by
      simp [lineChars]
    have hno : '\n' ∉ l.key.data ++ '=' :: l.value.data := by
      intro hm
      rcases List.mem_append.1 hm with hm | hm
      · exact hk hm
      · rcases List.mem_cons.1 hm with hm | hm
        · revert hm
          decide
        · exact hv hm
    rw [List.map_cons, List.flatten_cons, hline, List.append_assoc, List.cons_append,
      List.nil_append, splitLines_append_newline _ _ hno, List.map_cons, hrest,
      parseLine_key_value l he]

/-- The lines of a peer block hold no newline and their keys no `=`, when the
endpoint and the allowed-IP entries of the peer hold no newline. -/
theorem peerLines_plain {p : PeerConfig} {block : List Line} (h : peerLines p = .ok block)
    (hp : p.noNewline) :
    ∀ l ∈ block, '\n' ∉ l.key.data ∧ '=' ∉ l.key.data ∧ '\n' ∉ l.value.data := by
  intro l hl
  have hk : l.key ∈ protocolKeys := by
    have hmem : l.key ∈ keysOf block := List.mem_map_of_mem _ hl
    rw [keysOf_peerLines h] at hmem
    exact List.mem_append_right _ (mem_expectedPeerKeys hmem)
  refine ⟨(protocolKeys_plain _ hk).1, (protocolKeys_plain _ hk).2, ?_⟩
  rcases mem_peerLines_value h hl with ⟨_, hv⟩ | ⟨_, hv⟩ | rfl | rfl | ⟨_, ip, hip, hv⟩
  · exact newline_not_mem_toHex hv
  · exact newline_not_mem_toHex hv
  · exact hp.1
  · exact newline_not_mem_fmtInt _
  · rw [hv]
    exact newline_not_mem_trimSpace (hp.2 ip hip)

/-- The lines of a built stream hold no newline and their keys no `=`, when the
verbatim-copied strings hold no newline. -/
theorem buildLines_plain {c : InterfaceConfig} {peers : List PeerConfig}
    {lines : List Line} (h : buildLines c peers = .ok lines) (hc : c.noNewline)
    (hp : ∀ p ∈ peers, p.noNewline) :
    ∀ l ∈ lines, '\n' ∉ l.key.data ∧ '=' ∉ l.key.data ∧ '\n' ∉ l.value.data := by
  have hkeys := key_mem_protocolKeys h
  obtain ⟨iface, blocks, hi, hb, rfl⟩ := buildLines_ok h
  obtain ⟨hexKey, hkey, hw⟩ := interfaceLines_ok hi
  intro l hl
  refine ⟨(protocolKeys_plain _ (hkeys l hl)).1, (protocolKeys_plain _ (hkeys l hl)).2, ?_⟩
  rcases List.mem_append.1 hl with hl | hl
  · rw [hw] at hl
    rcases mem_interfaceLinesWith_value hl with rfl | rfl | ⟨rfl, _⟩ | ⟨_, v, hv⟩ | ⟨_, hv⟩
    · exact newline_not_mem_toHex hkey
    · exact newline_not_mem_fmtInt _
    · exact newline_not_mem_fmtInt _
    · rw [hv]
      exact newline_not_mem_fmtInt _
    · simp only [List.mem_cons, List.mem_singleton, List.not_mem_nil, or_false] at hv
      rcases hv with hv | hv | hv | hv <;> rw [hv]
      · exact hc.1
      · exact hc.2.1
      · exact hc.2.2.1
      · exact hc.2.2.2
  · obtain ⟨block, hblock, hlb⟩ := List.mem_flatten.1 hl
    obtain ⟨p, hpm, hpl⟩ := peer_of_block (peerBlocks_ok hb) block hblock
    exact (peerLines_plain hpl (hp p hpm) l hlb).2.2

/-- The text handed to the engine, read back line by line, is the sequence of
lines written by the builder, when the verbatim-copied strings hold no
newline. -/
theorem streamLines_buildUAPI {c : InterfaceConfig} {peers : List PeerConfig}
    {stream : String} (h : buildUAPI c peers = .ok stream) (hc : c.noNewline)
    (hp : ∀ p ∈ peers, p.noNewline) :
    buildLines c peers = .ok (streamLines stream) := by
  unfold buildUAPI at h
  cases hl : buildLines c peers with
  | error e => simp [hl] at h
  | ok lines =>
    simp only [hl, Except.ok.injEq] at h
    rw [← h, streamLines_renderLines lines (buildLines_plain hl hc hp)]

/-! ## The lines of the text handed to the engine -/

/-- The text of the stream of the sample interface and the sample peer. -/
theorem buildUAPI_sample :
    buildUAPI sampleInterface [samplePeer] = .ok (renderLines sampleLines) := by
  have h : buildLines sampleInterface [samplePeer] = .ok sampleLines := by decide
  simp only [buildUAPI, h]

/-- C1 (counterexample): for an interface without firewall mark whose `H1`
value is `a`, newline, `fwmark=9`, the text of the stream has a line
`fwmark=9` although the firewall mark is zero. -/
theorem stream_injected_fwmark :
    buildUAPI injectedInterface []
        = .ok "private_key=000000\nlisten_port=51820\nh1=a\nfwmark=9\n"
      ∧ (⟨"fwmark", "9"⟩ : Line)
        ∈ streamLines "private_key=000000\nlisten_port=51820\nh1=a\nfwmark=9\n"
      ∧ ¬ (injectedInterface.fwMark ≠ 0) := by
  decide

/-- C1 (amended): when h1..h4, the endpoints and the allowed-IP entries contain
no newline character, the text of the control stream, read line by line, has a
line for an optional interface field (fwmark, jc, jmin, jmax, s1, s2, h1..h4)
if and only if its value is non-zero / non-empty; it has exactly one
private_key line and one listen_port line, and one public_key line per peer;
it is the interface lines followed by one block per peer, and in the block of
a peer preshared_key, endpoint and persistent_keepalive_interval have a line if
and only if the peer's value is non-empty / non-zero. -/
theorem stream_optional_fields (c : InterfaceConfig) (peers : List PeerConfig)
    (stream : String) (h : buildUAPI c peers = .ok stream) (hc : c.noNewline)
    (hp : ∀ p ∈ peers, p.noNewline) :
    (hasKey "fwmark" (streamLines stream) ↔ c.fwMark ≠ 0)
      ∧ (hasKey "jc" (streamLines stream) ↔ c.jc ≠ 0)
      ∧ (hasKey "jmin" (streamLines stream) ↔ c.jmin ≠ 0)
      ∧ (hasKey "jmax" (streamLines stream) ↔ c.jmax ≠ 0)
      ∧ (hasKey "s1" (streamLines stream) ↔ c.s1 ≠ 0)
      ∧ (hasKey "s2" (streamLines stream) ↔ c.s2 ≠ 0)
      ∧ (hasKey "h1" (streamLines stream) ↔ c.h1 ≠ "")
      ∧ (hasKey "h2" (streamLines stream) ↔ c.h2 ≠ "")
      ∧ (hasKey "h3" (streamLines stream) ↔ c.h3 ≠ "")
      ∧ (hasKey "h4" (streamLines stream) ↔ c.h4 ≠ "")
      ∧ keyCount "private_key" (streamLines stream) = 1
      ∧ keyCount "listen_port" (streamLines stream) = 1
      ∧ keyCount "public_key" (streamLines stream) = peers.length
      ∧ ∃ iface blocks, interfaceLines c = .ok iface
        ∧ streamLines stream = iface ++ blocks.flatten
        ∧ List.Forall₂ (fun p block =>
            peerLines p = .ok block
            ∧ keyCount "public_key" block = 1
            ∧ (hasKey "preshared_key" block ↔ p.presharedKey ≠ "")
            ∧ (hasKey "endpoint" block ↔ p.endpoint ≠ "")
            ∧ (hasKey "persistent_keepalive_interval" block ↔ p.keepalive ≠ 0))
          peers blocks :=
  buildLines_optional_fields c peers (streamLines stream) (streamLines_buildUAPI h hc hp)

/-- C1 (witness): the text of the stream of the sample interface and the
sample peer has no fwmark line and one public_key line. -/
theorem stream_optional_fields_witness :
    buildUAPI sampleInterface [samplePeer] = .ok (renderLines sampleLines)
      ∧ (hasKey "fwmark" (streamLines (renderLines sampleLines))
          ↔ sampleInterface.fwMark ≠ 0)
      ∧ keyCount "public_key" (streamLines (renderLines sampleLines)) = 1 :=
  have h := stream_optional_fields sampleInterface [samplePeer] (renderLines sampleLines)
    buildUAPI_sample (by decide) (by decide)
  ⟨buildUAPI_sample, h.1, h.2.2.2.2.2.2.2.2.2.2.2.2.1⟩

/-- C2 (counterexample): for an interface whose `H1` value is `a`, newline,
`fwmark=9`, the keys of the text of the stream are private_key, listen_port,
h1, fwmark, which is not a subsequence of the fixed order. -/
theorem stream_injected_key_order :
    buildUAPI injectedInterface []
        = .ok "private_key=000000\nlisten_port=51820\nh1=a\nfwmark=9\n"
      ∧ keysOf (streamLines "private_key=000000\nlisten_port=51820\nh1=a\nfwmark=9\n")
        = ["private_key", "listen_port", "h1", "fwmark"]
      ∧ ¬ (["private_key", "listen_port", "h1", "fwmark"].Sublist interfaceKeyOrder) := by
  decide

/-- C2 (amended): when h1..h4, the endpoints and the allowed-IP entries contain
no newline character, the keys of the text of the control stream, read line by
line, come in a fixed order: the interface lines first, private_key and
listen_port in front, their keys a subsequence of private_key, listen_port,
fwmark, jc, jmin, jmax, s1, s2, h1, h2, h3, h4; then one block per peer in the
order of the peers, each block being public_key, then a subsequence of
preshared_key, endpoint, persistent_keepalive_interval, then the allowed_ip
lines; and the text is a function of the input. -/
theorem stream_key_order (c : InterfaceConfig) (peers : List PeerConfig)
    (stream : String) (h : buildUAPI c peers = .ok stream) (hc : c.noNewline)
    (hp : ∀ p ∈ peers, p.noNewline) :
    (∃ iface blocks, interfaceLines c = .ok iface
        ∧ streamLines stream = iface ++ blocks.flatten
        ∧ (keysOf iface).Sublist interfaceKeyOrder
        ∧ ["private_key", "listen_port"] <+: keysOf iface
        ∧ List.Forall₂ (fun p block =>
            peerLines p = .ok block
            ∧ ∃ optional, optional.Sublist peerOptionalKeyOrder
              ∧ keysOf block = "public_key" ::
                  (optional ++ List.replicate p.allowedIPs.length "allowed_ip"))
          peers blocks)
      ∧ stream = renderLines (streamLines stream)
      ∧ ∀ c₂ peers₂, c₂ = c → peers₂ = peers → buildUAPI c₂ peers₂ = .ok stream := by
  have hk := buildLines_key_order c peers (streamLines stream) (streamLines_buildUAPI h hc hp)
  refine ⟨hk.1, ?_, ?_⟩
  · have := hk.2.1
    rw [h] at this
    exact Except.ok.inj this
  · intro c₂ peers₂ h1 h2
    rw [h1, h2, h]

/-- C2 (witness): the keys of the text of the stream of the sample interface
and the sample peer. -/
theorem stream_key_order_witness :
    buildUAPI sampleInterface [samplePeer] = .ok (renderLines sampleLines)
      ∧ renderLines sampleLines = renderLines (streamLines (renderLines sampleLines)) :=
  ⟨buildUAPI_sample,
    (stream_key_order sampleInterface [samplePeer] (renderLines sampleLines)
      buildUAPI_sample (by decide) (by decide)).2.1⟩

/-- C9 (counterexample): for a peer whose allowed-IP entry is `10.0.0.0/8`,
newline, `endpoint=203.0.113.9:1`, the text of the block has an endpoint line
after its allowed_ip line; for a peer whose only entry is `10.0.0.0/8`,
newline, `allowed_ip=0.0.0.0/0`, it has two allowed_ip lines. -/
theorem stream_injected_peer_lines :
    peerLines injectedEndpointPeer = .ok
        [⟨"public_key", "4d616e"⟩, ⟨"allowed_ip", "10.0.0.0/8\nendpoint=203.0.113.9:1"⟩]
      ∧ streamLines (renderLines
          [⟨"public_key", "4d616e"⟩, ⟨"allowed_ip", "10.0.0.0/8\nendpoint=203.0.113.9:1"⟩])
        = [⟨"public_key", "4d616e"⟩, ⟨"allowed_ip", "10.0.0.0/8"⟩,
            ⟨"endpoint", "203.0.113.9:1"⟩]
      ∧ peerLines injectedAllowedIPPeer = .ok
        [⟨"public_key", "4d616e"⟩, ⟨"allowed_ip", "10.0.0.0/8\nallowed_ip=0.0.0.0/0"⟩]
      ∧ keyCount "allowed_ip" (streamLines (renderLines
          [⟨"public_key", "4d616e"⟩, ⟨"allowed_ip", "10.0.0.0/8\nallowed_ip=0.0.0.0/0"⟩]))
        = 2
      ∧ injectedAllowedIPPeer.allowedIPs.length = 1 := by
  decide

/-- C9 (amended): for a peer whose endpoint and allowed-IP entries contain no
newline character, the text of the block of the peer, read line by line, ends
with its allowed_ip lines: one line per entry of the allowed-IP list, the i-th
being `allowed_ip=` followed by the i-th entry trimmed, in source order, after
every other line of the block. -/
theorem stream_allowed_ips (p : PeerConfig) (block : List Line)
    (h : peerLines p = .ok block) (hp : p.noNewline) :
    streamLines (renderLines block) = block
      ∧ ∃ front, streamLines (renderLines block)
          = front ++ p.allowedIPs.map (fun ip => (⟨"allowed_ip", trimSpace ip⟩ : Line))
        ∧ (∀ l ∈ front, l.key ≠ "allowed_ip")
        ∧ keyCount "allowed_ip" (streamLines (renderLines block)) = p.allowedIPs.length
        ∧ (∀ i, (streamLines (renderLines block))[front.length + i]?
            = (p.allowedIPs[i]?).map (fun ip => (⟨"allowed_ip", trimSpace ip⟩ : Line)))
        ∧ (∀ ip, Line.render ⟨"allowed_ip", trimSpace ip⟩
            = "allowed_ip=" ++ trimSpace ip ++ "\n") := by
  rw [streamLines_renderLines block (peerLines_plain h hp)]
  exact ⟨rfl, peerLines_allowed_ips p block h⟩

/-- C9 (witness): the text of the block of the sample peer. -/
theorem stream_allowed_ips_witness :
    streamLines (renderLines
        [⟨"public_key", "4d616e"⟩, ⟨"endpoint", "198.51.100.7:51820"⟩,
         ⟨"persistent_keepalive_interval", "25"⟩,
         ⟨"allowed_ip", "10.0.0.0/8"⟩, ⟨"allowed_ip", "192.168.0.0/16"⟩])
      = [⟨"public_key", "4d616e"⟩, ⟨"endpoint", "198.51.100.7:51820"⟩,
         ⟨"persistent_keepalive_interval", "25"⟩,
         ⟨"allowed_ip", "10.0.0.0/8"⟩, ⟨"allowed_ip", "192.168.0.0/16"⟩] :=
  (stream_allowed_ips samplePeer _ (by decide) (by decide)).1

/-- C10 (amended): when h1..h4, the endpoints and the allowed-IP entries
contain no newline character, in the text of the control stream, read line by
line, every listen_port, fwmark, jc, jmin, jmax, s1, s2, h1..h4, endpoint and
persistent_keepalive_interval line has a non-empty value; a private_key,
public_key or preshared_key line has an empty value exactly when the
configured key text is empty once trimmed, and the value of an allowed_ip line
is its entry trimmed. -/
theorem stream_values (c : InterfaceConfig) (peers : List PeerConfig) (stream : String)
    (h : buildUAPI c peers = .ok stream) (hc : c.noNewline)
    (hp : ∀ p ∈ peers, p.noNewline) :
    ∃ iface blocks, interfaceLines c = .ok iface
      ∧ streamLines stream = iface ++ blocks.flatten
      ∧ (∀ l ∈ iface,
          (l.key = "private_key" ∧ (l.value = "" ↔ trimSpace c.privateKey = "")) ∨
          (l.key ∈ ["listen_port", "fwmark", "jc", "jmin", "jmax", "s1", "s2", "h1", "h2",
            "h3", "h4"] ∧ l.value ≠ ""))
      ∧ List.Forall₂ (fun p block =>
          peerLines p = .ok block ∧ ∀ l ∈ block,
            (l.key = "public_key" ∧ (l.value = "" ↔ trimSpace p.publicKey = "")) ∨
            (l.key = "preshared_key" ∧ (l.value = "" ↔ trimSpace p.presharedKey = "")) ∨
            (l.key = "allowed_ip" ∧ ∃ ip ∈ p.allowedIPs, l.value = trimSpace ip) ∨
            (l.key ∈ ["endpoint", "persistent_keepalive_interval"] ∧ l.value ≠ ""))
        peers blocks :=
  buildLines_values c peers (streamLines stream) (streamLines_buildUAPI h hc hp)

/-- C10 (witness): the text of the stream of the sample interface and the
sample peer. -/
theorem stream_values_witness :
    buildUAPI sampleInterface [samplePeer] = .ok (renderLines sampleLines)
      ∧ ∃ (iface : List Line) (blocks : List (List Line)),
          interfaceLines sampleInterface = .ok iface
            ∧ streamLines (renderLines sampleLines) = iface ++ blocks.flatten := by
  refine ⟨buildUAPI_sample, ?_⟩
  obtain ⟨iface, blocks, hi, hl, _⟩ :=
    stream_values sampleInterface [samplePeer] (renderLines sampleLines) buildUAPI_sample
      (by decide) (by decide)
  exact ⟨iface, blocks, hi, hl⟩

/-- C19 (amended): when h1..h4, the endpoints and the allowed-IP entries
contain no newline character, in the text of the control stream, read line by
line, the value of the listen_port line is the decimal text of the integer
`MustInt` returns for `ListenPort` (the parsed integer, or 51820 when the
integer parser reports an error: key absent, not an integer, out of range),
and an fwmark line is there exactly when the integer `MustInt` returns for
`FwMark` is not zero, its value being the decimal text of that integer; the
integers are not checked against a range. -/
theorem stream_numbers_unchecked (c : InterfaceConfig) (peers : List PeerConfig)
    (stream : String) (h : buildUAPI c peers = .ok stream) (hc : c.noNewline)
    (hp : ∀ p ∈ peers, p.noNewline) :
    (⟨"listen_port", fmtInt c.listenPort⟩ : Line) ∈ streamLines stream
      ∧ (∀ l ∈ streamLines stream, l.key = "listen_port" → l.value = fmtInt c.listenPort)
      ∧ (c.fwMark ≠ 0 ↔ (⟨"fwmark", fmtInt c.fwMark⟩ : Line) ∈ streamLines stream)
      ∧ (∀ l ∈ streamLines stream, l.key = "fwmark" →
          l.value = fmtInt c.fwMark ∧ c.fwMark ≠ 0)
      ∧ (∀ (w : World) (privateKey : String) (s : IniSection),
          (readInterface w privateKey s).listenPort = s.mustInt w.parseInt "ListenPort" 51820
            ∧ (readInterface w privateKey s).fwMark = s.mustInt w.parseInt "FwMark" 0) :=
  numbers_written_unchecked c peers (streamLines stream) (streamLines_buildUAPI h hc hp)

/-- C19 (witness): the text of the stream of the sample interface has the line
`listen_port=51820`. -/
theorem stream_numbers_unchecked_witness :
    (⟨"listen_port", "51820"⟩ : Line) ∈ streamLines (renderLines sampleLines) :=
  (stream_numbers_unchecked sampleInterface [samplePeer] (renderLines sampleLines)
    buildUAPI_sample (by decide) (by decide)).1

end Runner
